import Mathlib

/-!
# cmd/openshift-tests/upgrade.go

A shallow embedding of the upgrade-suite selection code of `openshift-tests`
(`upgradeSuites`, `upgradeInitArguments`, `UpgradeOptions.OptionsMap`,
`UpgradeOptions.ToEnv`, `initUpgrade`, `filterUpgrade`) together with the parts of
the Go standard library it calls: `strings.SplitN`, `strings.Contains`,
`json.Marshal` / `json.Unmarshal` at the type `UpgradeOptions` (with the UTF-8
coding of `unicode/utf8` they rest on), and `fmt.Errorf` with the verbs `%q`
and `%s` (with `strconv.Quote`), as of Go 1.22.

Conventions of the embedding:

* a Go `string` is a sequence of bytes, `List (Fin 256)`;
* a Go `map[string]string` is an association list without repeated keys; the
  order in which `range` visits it is chosen by the environment;
* a Go `error` result is an `Option Error` (`none` is `nil`), a
  `(value, error)` result is an `Except Error value`;
* the package-level state of `test/e2e/upgrade` is observed through the
  sequence of calls made to that package.
-/

namespace OpenshiftTests

/-! ## Strings -/

/-- A Go string: an immutable sequence of bytes. -/
abbrev GoString := List (Fin 256)

namespace utf8

/-- Go `utf8.RuneError`, U+FFFD. -/
def RuneError : Nat := 0xFFFD

/-- Go `utf8.first`: information about the first byte of a UTF-8 sequence (low
three bits: length, high four bits: index into `acceptRanges`). -/
def first (b : Nat) : Nat :=
  if b < 0x80 then 0xF0          -- as: ASCII
  else if b < 0xC2 then 0xF1     -- xx: invalid
  else if b < 0xE0 then 0x02     -- s1
  else if b = 0xE0 then 0x13     -- s2
  else if b < 0xED then 0x03     -- s3
  else if b = 0xED then 0x23     -- s4
  else if b < 0xF0 then 0x03     -- s3
  else if b = 0xF0 then 0x34     -- s5
  else if b < 0xF4 then 0x04     -- s6
  else if b = 0xF4 then 0x44     -- s7
  else 0xF1                      -- xx

/-- Go `utf8.acceptRanges`: the range of valid values of the second byte. -/
def acceptRanges (i : Nat) : Nat × Nat :=
  if i = 0 then (0x80, 0xBF)
  else if i = 1 then (0xA0, 0xBF)
  else if i = 2 then (0x80, 0x9F)
  else if i = 3 then (0x90, 0xBF)
  else if i = 4 then (0x80, 0x8F)
  else (0, 0)

/-- Go `utf8.DecodeRune(p)` (and `DecodeRuneInString`): the first rune of `p`
and its width in bytes; `(RuneError, 1)` for an invalid encoding and
`(RuneError, 0)` for the empty string. The masks and shifts of the source are
written as remainders and products. -/
def DecodeRune (p : GoString) : Nat × Nat :=
  let n := p.length
  if n < 1 then (RuneError, 0)
  else
    let p0 := (p.getD 0 0).val
    let x := first p0
    if x ≥ 0xF0 then
      if x = 0xF0 then (p0, 1) else (RuneError, 1)
    else
      let sz := x % 8
      let accept := acceptRanges (x / 16)
      if n < sz then (RuneError, 1)
      else
        let b1 := (p.getD 1 0).val
        if b1 < accept.1 ∨ accept.2 < b1 then (RuneError, 1)
        else if sz ≤ 2 then (p0 % 32 * 64 + b1 % 64, 2)
        else
          let b2 := (p.getD 2 0).val
          if b2 < 0x80 ∨ 0xBF < b2 then (RuneError, 1)
          else if sz ≤ 3 then (p0 % 16 * 4096 + b1 % 64 * 64 + b2 % 64, 3)
          else
            let b3 := (p.getD 3 0).val
            if b3 < 0x80 ∨ 0xBF < b3 then (RuneError, 1)
            else (p0 % 8 * 262144 + b1 % 64 * 4096 + b2 % 64 * 64 + b3 % 64, 4)

/-- Go `utf8.AppendRune(nil, r)` (and `EncodeRune`): the UTF-8 encoding of
the rune; surrogates and values above U+10FFFF are encoded as U+FFFD. -/
def EncodeRune (r : Nat) : GoString :=
  if r ≤ 0x7F then [Fin.ofNat r]
  else if r ≤ 0x7FF then [Fin.ofNat (0xC0 + r / 64), Fin.ofNat (0x80 + r % 64)]
  else if r > 0x10FFFF ∨ (0xD800 ≤ r ∧ r ≤ 0xDFFF) then [0xEF, 0xBF, 0xBD]
  else if r ≤ 0xFFFF then
    [Fin.ofNat (0xE0 + r / 4096), Fin.ofNat (0x80 + r / 64 % 64), Fin.ofNat (0x80 + r % 64)]
  else
    [Fin.ofNat (0xF0 + r / 262144), Fin.ofNat (0x80 + r / 4096 % 64),
     Fin.ofNat (0x80 + r / 64 % 64), Fin.ofNat (0x80 + r % 64)]

/-- The loop of `utf8.ValidString`: no position decodes to an invalid
encoding. -/
def validLoop : Nat → GoString → Bool
  | 0, p => p.isEmpty
  | fuel + 1, p =>
    if p.isEmpty then true
    else
      let d := DecodeRune p
      if d.1 = RuneError ∧ d.2 = 1 then false
      else validLoop fuel (p.drop d.2)

/-- Go `utf8.ValidString(s)`: `s` consists entirely of valid UTF-8-encoded
runes. -/
def ValidString (s : GoString) : Bool := validLoop s.length s

end utf8

/-- The Go string denoted by a string literal of the source: the UTF-8 bytes
of its characters. -/
def str (s : String) : GoString := s.toList.flatMap (fun c => utf8.EncodeRune c.toNat)

namespace strings

/-- Go `strings.Index(s, substr)`: the index of the first occurrence of
`substr` in `s`; `none` stands for the result `-1`. -/
def Index : GoString → GoString → Option Nat
  | [], substr => if substr = [] then some 0 else none
  | b :: s, substr =>
    if substr.isPrefixOf (b :: s) then some 0
    else (Index s substr).map (fun i => i + 1)

/-- Go `strings.Contains(s, substr)`, which is `Index(s, substr) >= 0`. -/
def Contains (s substr : GoString) : Bool := (Index s substr).isSome

/-- The loop of Go `strings.genSplit` with `sepSave = 0`: `k` is the number
`n - 1 - i` of separators that may still be consumed. -/
def genSplitLoop (sep : GoString) : Nat → GoString → List GoString
  | 0, s => [s]
  | k + 1, s =>
    match Index s sep with
    | none => [s]
    | some m => s.take m :: genSplitLoop sep k (s.drop (m + sep.length))

/-- Go `strings.SplitN(s, sep, n)` for a non-empty separator and `n ≥ 0` (the
only way this program calls it is `SplitN(option, "=", 2)`): at most `n`
pieces, the last one being the unsplit remainder. -/
def SplitN (s sep : GoString) (n : Nat) : List GoString :=
  if n = 0 then []
  else
    let n := if n > s.length + 1 then s.length + 1 else n
    genSplitLoop sep (n - 1) s

end strings

/-! ## Errors and maps -/

/-- Go error values that this code produces or passes on. -/
inductive Error where
  /-- The value `fmt.Errorf(format, args...)`. -/
  | errorf (format : String) (args : List GoString)
  /-- A `*json.SyntaxError` returned by `json.Unmarshal`. -/
  | syntaxError
  /-- A `*json.UnmarshalTypeError` returned by `json.Unmarshal`. -/
  | unmarshalTypeError
  /-- An error value built by another package (the option setters). -/
  | external (msg : GoString)
  deriving DecidableEq, Repr

/-- A Go `map[string]string`, as the list of its entries (keys not repeated). -/
abbrev GoMap := List (GoString × GoString)

/-- The map read `v, exists := m[k]`. -/
def GoMap.get? (m : GoMap) (k : GoString) : Option GoString := List.lookup k m

/-- The map write `m[k] = v`: replaces the entry of `k` when there is one. -/
def GoMap.set (m : GoMap) (k v : GoString) : GoMap :=
  if (GoMap.get? m k).isSome then m.map (fun p => if p.1 = k then (k, v) else p)
  else m ++ [(k, v)]

/-! ## UpgradeOptions -/

/-- Go `type UpgradeOptions struct`. The slice `TestOptions` is `none` when it
is the nil slice. -/
structure UpgradeOptions where
  Suite : GoString
  ToImage : GoString
  JUnitDir : GoString
  TestOptions : Option (List GoString)
  deriving DecidableEq, Repr

/-- The zero value `var opt UpgradeOptions`. -/
def UpgradeOptions.zero : UpgradeOptions :=
  { Suite := [], ToImage := [], JUnitDir := [], TestOptions := none }

/-! ## The package `test/e2e/upgrade` and the suite type -/

/-- Modelled from the spec: the interface `upgrades.Test` of
`k8s.io/kubernetes/test/e2e/upgrades`, whose declaration is not among the
sources. A test is identified by its name; `id` tells apart two tests that
have the same name. -/
structure Test where
  name : GoString
  id : Nat
  deriving DecidableEq, Repr

/-- A call into the package `test/e2e/upgrade` that writes its package-level
configuration. -/
inductive Call where
  | SetUpgradeAbortAt (policy : GoString)
  | SetUpgradeDisruptReboot (policy : GoString)
  | SetTests (tests : List Test)
  | SetToImage (image : GoString)
  deriving DecidableEq, Repr

/-- The global upgrade configuration, observed as the calls that wrote it,
oldest first. It is unchanged exactly when no call is added. -/
abbrev World := List Call

/-- Modelled from the spec: what this file uses of the package
`test/e2e/upgrade` (not among the sources) and of the Go runtime: the registry
`AllTests()`, the error result of the two option setters as a function of the
value they are given, and the order in which `range` visits a map, which is
some arrangement of its entries. -/
structure Env where
  AllTests : List Test
  SetUpgradeAbortAt : GoString → Option Error
  SetUpgradeDisruptReboot : GoString → Option Error
  range : GoMap → List (GoString × GoString)
  range_perm : ∀ m : GoMap, (range m).Perm m

/-- Modelled from the spec: the struct `ginkgo.TestSuite` of
`pkg/test/ginkgo` (not among the sources), with the fields that the suite
literals of this file set. `Init` is `none` when the function value is nil;
`TestTimeout` is a `time.Duration` in nanoseconds. -/
structure TestSuite where
  Name : GoString
  Description : String
  Matches : GoString → Bool
  Init : Option (Env → GoMap → World → Option Error × World)
  TestTimeout : Nat

/-- The loop of `filterUpgrade`: `scope` holds the tests kept so far. -/
def filterUpgradeLoop (match_ : GoString → Bool) : List Test → List Test → List Test
  | [], scope => scope
  | test :: tests, scope =>
    if match_ test.name then filterUpgradeLoop match_ tests (scope ++ [test])
    else filterUpgradeLoop match_ tests scope

/-- Go `func filterUpgrade(tests []upgrades.Test, match func(string) bool) error`. -/
def filterUpgrade (tests : List Test) (match_ : GoString → Bool) (w : World) :
    Option Error × World :=
  let scope := filterUpgradeLoop match_ tests []
  (none, w ++ [Call.SetTests scope])

/-- The `for k, v := range opt` loop of `upgradeInitArguments` over the
entries in the order `range` yields them. -/
def upgradeInitArgumentsLoop (E : Env) : List (GoString × GoString) → World →
    Option Error × World
  | [], w => (none, w)
  | (k, v) :: rest, w =>
    if k = str "abort-at" then
      match E.SetUpgradeAbortAt v with
      | some err => (some err, w ++ [Call.SetUpgradeAbortAt v])
      | none => upgradeInitArgumentsLoop E rest (w ++ [Call.SetUpgradeAbortAt v])
    else if k = str "disrupt-reboot" then
      match E.SetUpgradeDisruptReboot v with
      | some err => (some err, w ++ [Call.SetUpgradeDisruptReboot v])
      | none => upgradeInitArgumentsLoop E rest (w ++ [Call.SetUpgradeDisruptReboot v])
    else (some (.errorf "unrecognized upgrade option: %s" [k]), w)

/-- Go `func upgradeInitArguments(opt map[string]string, filterFn func(name
string) bool) error`. -/
def upgradeInitArguments (E : Env) (opt : GoMap) (filterFn : GoString → Bool) (w : World) :
    Option Error × World :=
  match upgradeInitArgumentsLoop E (E.range opt) w with
  | (some err, w1) => (some err, w1)
  | (none, w1) => filterUpgrade E.AllTests filterFn w1

/-- Go `var upgradeSuites = []*ginkgo.TestSuite{...}`: all known upgrade
test suites. -/
def upgradeSuites : List TestSuite :=
  [ { Name := str "all"
      Description := "Run all tests."
      Matches := fun name =>
        strings.Contains name (str "[Feature:ClusterUpgrade]") &&
          strings.Contains name (str "[Suite:openshift]")
      Init := some (fun E opt => upgradeInitArguments E opt (fun _ => true))
      TestTimeout := 240 * 60 * 1000000000 },
    { Name := str "platform"
      Description := "Run only the tests that verify the platform remains available."
      Matches := fun name =>
        strings.Contains name (str "[Feature:ClusterUpgrade]") &&
          strings.Contains name (str "[Suite:openshift]")
      Init := some (fun E opt =>
        upgradeInitArguments E opt (fun name => name = str "control-plane-available"))
      TestTimeout := 240 * 60 * 1000000000 } ]

/-! ## encoding/json for `UpgradeOptions` -/

namespace json

/-- Go `hex = "0123456789abcdef"`, indexed by a value below 16. -/
def hex (n : Nat) : Fin 256 := if n < 10 then Fin.ofNat (48 + n) else Fin.ofNat (87 + n)

/-- Go `htmlSafeSet[b]`: an ASCII byte that is written to a JSON string as it
is when HTML escaping is on: printable and none of `"`, `&`, `<`, `>`, `\`. -/
def htmlSafeSet (b : Nat) : Bool :=
  decide (0x20 ≤ b ∧ b < 0x80 ∧ b ≠ 34 ∧ b ≠ 38 ∧ b ≠ 60 ∧ b ≠ 62 ∧ b ≠ 92)

/-- The escape that `appendString` writes for an ASCII byte outside
`htmlSafeSet`. -/
def escapeByte (b : Fin 256) : GoString :=
  if b = 92 ∨ b = 34 then [92, b]
  else if b = 8 then [92, 98]       -- \b
  else if b = 12 then [92, 102]     -- \f
  else if b = 10 then [92, 110]     -- \n
  else if b = 13 then [92, 114]     -- \r
  else if b = 9 then [92, 116]      -- \t
  else [92, 117, 48, 48, hex (b.val / 16), hex (b.val % 16)]

/-- The loop of Go `json.appendString(dst, src, escapeHTML = true)` from
position `i` on, `src[i:]` being the argument: what is written between the two
quotes. The source hands `utf8.DecodeRuneInString` at most `utf8.UTFMax` bytes,
beyond which it does not look. The fuel bounds the number of iterations by the
number of bytes. -/
def appendStringLoop : Nat → GoString → GoString
  | 0, _ => []
  | _ + 1, [] => []
  | fuel + 1, b :: rest =>
    if b.val < 0x80 then
      if htmlSafeSet b.val then b :: appendStringLoop fuel rest
      else escapeByte b ++ appendStringLoop fuel rest
    else
      let d := utf8.DecodeRune (b :: rest)
      if d.1 = utf8.RuneError ∧ d.2 = 1 then
        [92, 117, 102, 102, 102, 100] ++ appendStringLoop fuel rest
      else if d.1 = 0x2028 ∨ d.1 = 0x2029 then
        [92, 117, 50, 48, 50, hex (d.1 % 16)] ++ appendStringLoop fuel ((b :: rest).drop d.2)
      else (b :: rest).take d.2 ++ appendStringLoop fuel ((b :: rest).drop d.2)

/-- Go `json.appendString(nil, s, true)`: the JSON string literal for `s`. -/
def appendString (s : GoString) : GoString :=
  [34] ++ appendStringLoop s.length s ++ [34]

/-- The elements of a JSON array of strings, separated by commas. -/
def appendElems : List GoString → GoString
  | [] => []
  | [s] => appendString s
  | s :: rest => appendString s ++ [44] ++ appendElems rest

/-- The encoding of a `[]string`: `null` for the nil slice, an array of
string literals otherwise. -/
def appendSlice : Option (List GoString) → GoString
  | none => [110, 117, 108, 108]
  | some l => [91] ++ appendElems l ++ [93]

/-- Go `json.Marshal(o)` for `o *UpgradeOptions`: an object with the four
exported fields in declaration order, each written as its quoted name, a
colon and its value, separated by commas. Its error result is always `nil` for
this type. -/
def Marshal (o : UpgradeOptions) : GoString :=
  [123] ++ appendString (str "Suite") ++ [58] ++ appendString o.Suite ++
  [44] ++ appendString (str "ToImage") ++ [58] ++ appendString o.ToImage ++
  [44] ++ appendString (str "JUnitDir") ++ [58] ++ appendString o.JUnitDir ++
  [44] ++ appendString (str "TestOptions") ++ [58] ++ appendSlice o.TestOptions ++ [125]

/-! ### Decoding -/

/-- A parsed JSON value; string literals are held unquoted. -/
inductive JValue where
  | null
  | bool (b : Bool)
  | number
  | string (s : GoString)
  | array (elems : List JValue)
  | object (members : List (GoString × JValue))

/-- Go `isSpace(c)` of the scanner: space, tab, carriage return, line feed. -/
def isSpace (c : Fin 256) : Bool := c = 32 ∨ c = 9 ∨ c = 13 ∨ c = 10

/-- The bytes that follow the insignificant white space. -/
def skipSpace (s : GoString) : GoString := s.dropWhile isSpace

/-- The value of a hexadecimal digit, as in Go `getu4`. -/
def hexValue (c : Fin 256) : Option Nat :=
  if 48 ≤ c.val ∧ c.val ≤ 57 then some (c.val - 48)
  else if 97 ≤ c.val ∧ c.val ≤ 102 then some (c.val - 97 + 10)
  else if 65 ≤ c.val ∧ c.val ≤ 70 then some (c.val - 65 + 10)
  else none

/-- Go `getu4` on the four bytes after `\u`: the rune of a `\uXXXX` escape;
`none` stands for `-1`. -/
def getu4digits (s : GoString) : Option Nat :=
  match s with
  | a :: b :: c :: d :: _ =>
    match hexValue a, hexValue b, hexValue c, hexValue d with
    | some x, some y, some z, some w => some (((x * 16 + y) * 16 + z) * 16 + w)
    | _, _, _, _ => none
  | _ => none

/-- Go `getu4(s)`: `s` must start with `\u` and four hexadecimal digits. -/
def getu4 (s : GoString) : Option Nat :=
  match s with
  | 92 :: 117 :: rest => getu4digits rest
  | _ => none

/-- Go `utf16.DecodeRune(r1, r2)`: the rune of a surrogate pair, U+FFFD when
the pair is not valid. -/
def utf16DecodeRune (r1 r2 : Nat) : Nat :=
  if 0xD800 ≤ r1 ∧ r1 < 0xDC00 ∧ 0xDC00 ≤ r2 ∧ r2 < 0xE000 then
    (r1 - 0xD800) * 1024 + (r2 - 0xDC00) + 0x10000
  else 0xFFFD

/-- The byte denoted by a one-letter escape `\c`. -/
def simpleEscape (c : Fin 256) : Option (Fin 256) :=
  if c = 34 ∨ c = 92 ∨ c = 47 then some c   -- \" \\ \/
  else if c = 98 then some 8                 -- \b
  else if c = 102 then some 12               -- \f
  else if c = 110 then some 10               -- \n
  else if c = 114 then some 13               -- \r
  else if c = 116 then some 9                -- \t
  else none

/-- Prefix the decoded bytes of one step to the result of the rest. -/
def withPrefix (pre : GoString) (r : Option (GoString × GoString)) :
    Option (GoString × GoString) :=
  r.map (fun p => (pre ++ p.1, p.2))

/-- One string literal, read after its opening quote: the scanner's checks
(`stateInString`, `stateInStringEsc`, `stateInStringEscU…`) and the decoding of
Go `unquoteBytes` (escapes resolved, surrogate pairs combined, invalid UTF-8
replaced by U+FFFD). The result is the unquoted string and the input after the
closing quote; `none` is a syntax error. The fuel bounds the iterations by the
number of bytes. -/
def unquoteLoop : Nat → GoString → Option (GoString × GoString)
  | 0, _ => none
  | _ + 1, [] => none
  | fuel + 1, c :: rest =>
    if c = 34 then some ([], rest)
    else if c = 92 then
      match rest with
      | [] => none
      | e :: rest2 =>
        if e = 117 then
          match getu4digits rest2 with
          | none => none
          | some rr =>
            let rest3 := rest2.drop 4
            if 0xD800 ≤ rr ∧ rr < 0xE000 then
              match getu4 rest3 with
              | some rr1 =>
                if utf16DecodeRune rr rr1 ≠ 0xFFFD then
                  withPrefix (utf8.EncodeRune (utf16DecodeRune rr rr1))
                    (unquoteLoop fuel (rest3.drop 6))
                else withPrefix (utf8.EncodeRune 0xFFFD) (unquoteLoop fuel rest3)
              | none => withPrefix (utf8.EncodeRune 0xFFFD) (unquoteLoop fuel rest3)
            else withPrefix (utf8.EncodeRune rr) (unquoteLoop fuel rest3)
        else
          match simpleEscape e with
          | some b => withPrefix [b] (unquoteLoop fuel rest2)
          | none => none
    else if c.val < 0x20 then none
    else if c.val < 0x80 then withPrefix [c] (unquoteLoop fuel rest)
    else
      let d := utf8.DecodeRune (c :: rest)
      withPrefix (utf8.EncodeRune d.1) (unquoteLoop fuel ((c :: rest).drop d.2))

/-- A string literal after its opening quote. -/
def parseString (s : GoString) : Option (GoString × GoString) :=
  unquoteLoop (s.length + 1) s

/-- Is the byte a decimal digit. -/
def isDigit (c : Fin 256) : Bool := 48 ≤ c.val ∧ c.val ≤ 57

/-- One or more digits (`state0`, `state1`, `stateDot0`, `stateE0` of the
scanner): the input after them. -/
def digits1 (s : GoString) : Option GoString :=
  match s with
  | c :: rest => if isDigit c then some (rest.dropWhile isDigit) else none
  | [] => none

/-- The optional fraction and exponent of a number. -/
def scanFracExp (s : GoString) : Option GoString :=
  let afterFrac : Option GoString :=
    match s with
    | 46 :: rest => digits1 rest
    | _ => some s
  match afterFrac with
  | none => none
  | some s1 =>
    match s1 with
    | c :: rest =>
      if c = 101 ∨ c = 69 then
        match rest with
        | sign :: rest2 => if sign = 43 ∨ sign = 45 then digits1 rest2 else digits1 rest
        | [] => none
      else some s1
    | [] => some s1

/-- A JSON number (`stateNeg`, `state0`, `state1`, … of the scanner): the
input after it. -/
def scanNumber (s : GoString) : Option GoString :=
  let s1 := match s with
    | 45 :: rest => rest
    | _ => s
  match s1 with
  | c :: rest =>
    if c = 48 then scanFracExp rest
    else if isDigit c then scanFracExp (rest.dropWhile isDigit)
    else none
  | [] => none

/-- The input after the literal `lit`, when the input starts with it. -/
def scanLiteral (lit s : GoString) : Option GoString :=
  if lit.isPrefixOf s then some (s.drop lit.length) else none

/-- Go `maxNestingDepth` of the scanner. -/
def maxNestingDepth : Nat := 10000

mutual

/-- One JSON value (`stateBeginValue` of the scanner) at nesting depth
`depth`: the value and the input after it. -/
def parseValue : Nat → Nat → GoString → Option (JValue × GoString)
  | 0, _, _ => none
  | fuel + 1, depth, s =>
    match skipSpace s with
    | [] => none
    | c :: rest =>
      if c = 123 then                                   -- {
        if depth + 1 > maxNestingDepth then none
        else
          match skipSpace rest with
          | [] => none
          | c2 :: rest2 =>
            if c2 = 125 then some (.object [], rest2)   -- }
            else (parseMembers fuel (depth + 1) (c2 :: rest2)).map
              (fun r => (.object r.1, r.2))
      else if c = 91 then                               -- [
        if depth + 1 > maxNestingDepth then none
        else
          match skipSpace rest with
          | [] => none
          | c2 :: rest2 =>
            if c2 = 93 then some (.array [], rest2)     -- ]
            else (parseElems fuel (depth + 1) (c2 :: rest2)).map
              (fun r => (.array r.1, r.2))
      else if c = 34 then (parseString rest).map (fun r => (.string r.1, r.2))
      else if c = 45 ∨ isDigit c then (scanNumber (c :: rest)).map (fun r => (.number, r))
      else if c = 116 then (scanLiteral [116, 114, 117, 101] (c :: rest)).map
        (fun r => (.bool true, r))
      else if c = 102 then (scanLiteral [102, 97, 108, 115, 101] (c :: rest)).map
        (fun r => (.bool false, r))
      else if c = 110 then (scanLiteral [110, 117, 108, 108] (c :: rest)).map
        (fun r => (.null, r))
      else none

/-- The members of a non-empty object, from the opening quote of a key to
the closing brace. -/
def parseMembers : Nat → Nat → GoString → Option (List (GoString × JValue) × GoString)
  | 0, _, _ => none
  | fuel + 1, depth, s =>
    match s with
    | [] => none
    | q :: rest =>
      if q = 34 then
        match parseString rest with
        | none => none
        | some (key, r1) =>
          match skipSpace r1 with
          | [] => none
          | colon :: r2 =>
            if colon = 58 then
              match parseValue fuel depth r2 with
              | none => none
              | some (v, r3) =>
                match skipSpace r3 with
                | [] => none
                | sep :: r4 =>
                  if sep = 44 then
                    (parseMembers fuel depth (skipSpace r4)).map
                      (fun r => ((key, v) :: r.1, r.2))
                  else if sep = 125 then some ([(key, v)], r4)
                  else none
            else none
      else none

/-- The elements of a non-empty array, up to the closing bracket. -/
def parseElems : Nat → Nat → GoString → Option (List JValue × GoString)
  | 0, _, _ => none
  | fuel + 1, depth, s =>
    match parseValue fuel depth s with
    | none => none
    | some (v, r1) =>
      match skipSpace r1 with
      | [] => none
      | sep :: r2 =>
        if sep = 44 then (parseElems fuel depth r2).map (fun r => (v :: r.1, r.2))
        else if sep = 93 then some ([v], r2)
        else none

end

/-- Go `checkValid(data, scan)` together with the reading of the value: one
JSON value surrounded by white space and nothing else. -/
def parse (data : GoString) : Option JValue :=
  match parseValue (2 * data.length + 2) 0 data with
  | none => none
  | some (v, rest) => if skipSpace rest = [] then some v else none

/-- Go `foldName`, as far as a comparison with an ASCII field name can tell:
ASCII letters are upper-cased, U+017F (long s) folds to `S` and U+212A (Kelvin
sign) to `K`; the other runes are kept. -/
def foldName : GoString → GoString
  | [] => []
  | 0xC5 :: 0xBF :: rest => 83 :: foldName rest
  | 0xE2 :: 0x84 :: 0xAA :: rest => 75 :: foldName rest
  | c :: rest =>
    (if 97 ≤ c.val ∧ c.val ≤ 122 then Fin.ofNat (c.val - 32) else c) :: foldName rest

/-- The fields of `UpgradeOptions`. -/
inductive Field where
  | Suite | ToImage | JUnitDir | TestOptions
  deriving DecidableEq, Repr

/-- The name of a field. -/
def Field.name : Field → GoString
  | .Suite => str "Suite"
  | .ToImage => str "ToImage"
  | .JUnitDir => str "JUnitDir"
  | .TestOptions => str "TestOptions"

/-- The field that an object key selects: the one with exactly that name,
otherwise the one whose name equals the key under case folding. -/
def lookupField (key : GoString) : Option Field :=
  match [Field.Suite, .ToImage, .JUnitDir, .TestOptions].find? (fun f => f.name = key) with
  | some f => some f
  | none =>
    [Field.Suite, .ToImage, .JUnitDir, .TestOptions].find?
      (fun f => foldName f.name = foldName key)

/-- Decoding a JSON value into a Go `string` that holds `old`: the new
content and whether an `UnmarshalTypeError` was recorded. A string is stored,
`null` leaves the value as it is, anything else is a type error. -/
def decodeString (old : GoString) : JValue → GoString × Bool
  | .string s => (s, false)
  | .null => (old, false)
  | _ => (old, true)

/-- The element loop of Go `(*decodeState).array` for a `[]string`: `mem` is
the backing array from the current index on (elements written by an earlier
occurrence of the member; past its end the memory is zero). -/
def decodeElems : List JValue → List GoString → List GoString × Bool
  | [], _ => ([], false)
  | v :: rest, mem =>
    let r := decodeString (mem.headD []) v
    let rs := decodeElems rest mem.tail
    (r.1 :: rs.1, r.2 || rs.2)

/-- The state of the decoder: the record being filled, the backing array of
`TestOptions`, and whether an `UnmarshalTypeError` was recorded. -/
structure DecodeState where
  opt : UpgradeOptions
  mem : List GoString
  typeError : Bool

/-- Decoding one member value into the field it selects. -/
def decodeField (st : DecodeState) (f : Field) (v : JValue) : DecodeState :=
  match f with
  | .Suite =>
    let r := decodeString st.opt.Suite v
    { st with opt := { st.opt with Suite := r.1 }, typeError := st.typeError || r.2 }
  | .ToImage =>
    let r := decodeString st.opt.ToImage v
    { st with opt := { st.opt with ToImage := r.1 }, typeError := st.typeError || r.2 }
  | .JUnitDir =>
    let r := decodeString st.opt.JUnitDir v
    { st with opt := { st.opt with JUnitDir := r.1 }, typeError := st.typeError || r.2 }
  | .TestOptions =>
    match v with
    | .null => { st with opt := { st.opt with TestOptions := none }, mem := [] }
    | .array [] => { st with opt := { st.opt with TestOptions := some [] }, mem := [] }
    | .array elems =>
      let r := decodeElems elems st.mem
      { opt := { st.opt with TestOptions := some r.1 },
        mem := r.1 ++ st.mem.drop r.1.length,
        typeError := st.typeError || r.2 }
    | _ => { st with typeError := true }

/-- Go `(*decodeState).object` for the struct: the members in order, each
decoded into the field its key selects; a key that selects no field is
skipped. -/
def decodeMembers (st : DecodeState) : List (GoString × JValue) → DecodeState
  | [] => st
  | (key, v) :: rest =>
    match lookupField key with
    | some f => decodeMembers (decodeField st f v) rest
    | none => decodeMembers st rest

/-- Go `json.Unmarshal(data, &opt)` for a fresh `var opt UpgradeOptions`:
a syntax error when `data` is not one JSON value; otherwise `null` leaves the
record as it is, an object is decoded member by member and any other value is
a type error; the first recorded type error is returned once the whole value
has been read. -/
def Unmarshal (data : GoString) (opt : UpgradeOptions) : Except Error UpgradeOptions :=
  match parse data with
  | none => .error .syntaxError
  | some .null => .ok opt
  | some (.object members) =>
    let st := decodeMembers { opt := opt, mem := opt.TestOptions.getD [], typeError := false }
      members
    if st.typeError then .error .unmarshalTypeError else .ok st.opt
  | some _ => .error .unmarshalTypeError

end json

/-! ## OptionsMap -/

/-- The body of the `for _, option := range o.TestOptions` loop of
`OptionsMap`, run on the remaining entries with the map built so far. -/
def UpgradeOptions.OptionsMapLoop : List GoString → GoMap → Except Error GoMap
  | [], options => .ok options
  | option :: rest, options =>
    match strings.SplitN option (str "=") 2 with
    | [k, v] =>
      if k.length = 0 then
        .error (.errorf "test option %q is not valid, must be KEY=VALUE" [option])
      else if (GoMap.get? options k).isSome then
        .error (.errorf "option %q declared twice" [k])
      else UpgradeOptions.OptionsMapLoop rest (GoMap.set options k v)
    | _ => .error (.errorf "test option %q is not valid, must be KEY=VALUE" [option])

/-- Go `func (o *UpgradeOptions) OptionsMap() (map[string]string, error)`. -/
def UpgradeOptions.OptionsMap (o : UpgradeOptions) : Except Error GoMap :=
  UpgradeOptions.OptionsMapLoop (o.TestOptions.getD []) []

/-- Go `func (o *UpgradeOptions) ToEnv() string`: the JSON text of the record.
`json.Marshal` never fails on this type, so the `panic` is not reachable. -/
def UpgradeOptions.ToEnv (o : UpgradeOptions) : GoString := json.Marshal o

/-- The `for _, suite := range upgradeSuites` loop of `initUpgrade`, with the
decoded record `opt`. -/
def initUpgradeLoop (E : Env) (opt : UpgradeOptions) : List TestSuite → World →
    Except Error UpgradeOptions × World
  | [], w => (.error (.errorf "unrecognized upgrade info" []), w)
  | suite :: rest, w =>
    if suite.Name = opt.Suite then
      match opt.OptionsMap with
      | .error err => (.error err, w)
      | .ok o =>
        match suite.Init with
        | some init =>
          match init E o w with
          | (some err, w1) => (.error err, w1)
          | (none, w1) => (.ok opt, w1 ++ [Call.SetToImage opt.ToImage])
        | none => (.ok opt, w ++ [Call.SetToImage opt.ToImage])
    else initUpgradeLoop E opt rest w

/-- Go `func initUpgrade(value string) (*UpgradeOptions, error)`. -/
def initUpgrade (E : Env) (value : GoString) (w : World) :
    Except Error UpgradeOptions × World :=
  let opt := UpgradeOptions.zero
  if value.length = 0 then (.ok opt, w)
  else
    match json.Unmarshal value opt with
    | .error err => (.error err, w)
    | .ok opt => initUpgradeLoop E opt upgradeSuites w

/-! ## Specification vocabulary for option entries -/

/-- The byte `=`. -/
def eqSign : Fin 256 := 61

/-- The key of a raw option entry: the text before its first `=`. -/
def entryKey (e : GoString) : GoString := e.takeWhile (fun b => b ≠ eqSign)

/-- The value of a raw option entry: everything after its first `=`. -/
def entryValue (e : GoString) : GoString := (e.dropWhile (fun b => b ≠ eqSign)).drop 1

/-- A raw option entry is malformed when it has no `=` or an empty key. -/
def Malformed (e : GoString) : Prop := eqSign ∉ e ∨ entryKey e = []

/-- The `MalformedOption` error for a raw entry. -/
def malformedOption (e : GoString) : Error :=
  .errorf "test option %q is not valid, must be KEY=VALUE" [e]

/-- The `DuplicateOption` error for a key. -/
def duplicateOption (k : GoString) : Error := .errorf "option %q declared twice" [k]

instance : DecidablePred Malformed := fun e => by unfold Malformed; infer_instance

/-- The entries of a raw option list, each split at its first `=`. -/
def splitEntries (raw : List GoString) : GoMap := raw.map (fun e => (entryKey e, entryValue e))

/-! ## Specification vocabulary for suites and calls -/

/-- The string `sub` occurs in `s` as a substring. -/
def Occurs (sub s : GoString) : Prop := ∃ pre post : GoString, s = pre ++ sub ++ post

/-- The suite that the lookup loop of `initUpgrade` selects for a name: the
first suite of `upgradeSuites` with that name. -/
def suiteNamed (name : GoString) : Option TestSuite :=
  upgradeSuites.find? (fun suite => suite.Name = name)

/-- The setter call that `upgradeInitArguments` makes for an entry whose key
is one of the two recognized option names. -/
def setterCall (p : GoString × GoString) : Call :=
  if p.1 = str "abort-at" then Call.SetUpgradeAbortAt p.2
  else Call.SetUpgradeDisruptReboot p.2

/-- A call to one of the two option setters. -/
def Call.isSetter : Call → Bool
  | .SetUpgradeAbortAt _ => true
  | .SetUpgradeDisruptReboot _ => true
  | _ => false

/-- An environment for the examples: three registered tests, setters that
accept every value, and `range` visiting a map in insertion order. -/
def exampleEnv : Env where
  AllTests :=
    [ { name := str "control-plane-available", id := 0 },
      { name := str "k8s-service-upgrade", id := 1 },
      { name := str "control-plane-available", id := 2 } ]
  SetUpgradeAbortAt := fun _ => none
  SetUpgradeDisruptReboot := fun _ => none
  range := fun m => m
  range_perm := fun m => List.Perm.refl m

/-- A record whose strings are all well-formed UTF-8 text. -/
def UpgradeOptions.Valid (o : UpgradeOptions) : Prop :=
  utf8.ValidString o.Suite = true ∧ utf8.ValidString o.ToImage = true ∧
    utf8.ValidString o.JUnitDir = true ∧
    ∀ e ∈ o.TestOptions.getD [], utf8.ValidString e = true

/-- The JSON value that `json.Marshal` writes for a `[]string`: `null` for the
nil slice, the array of its strings otherwise. -/
def json.sliceValue : Option (List GoString) → json.JValue
  | none => json.JValue.null
  | some l => json.JValue.array (l.map json.JValue.string)

/-- The error result of the setter that `upgradeInitArguments` calls for an
entry whose key is one of the two recognized option names. -/
def setterResult (E : Env) (p : GoString × GoString) : Option Error :=
  if p.1 = str "abort-at" then E.SetUpgradeAbortAt p.2
  else E.SetUpgradeDisruptReboot p.2

/-- The key is one of the two option names that `upgradeInitArguments`
recognizes. -/
def Recognized (k : GoString) : Prop := k = str "abort-at" ∨ k = str "disrupt-reboot"

instance : DecidablePred Recognized := fun k => by unfold Recognized; infer_instance

/-- The environment of the examples with `range` visiting a map in the
reverse of insertion order. -/
def exampleEnvRev : Env where
  AllTests := exampleEnv.AllTests
  SetUpgradeAbortAt := exampleEnv.SetUpgradeAbortAt
  SetUpgradeDisruptReboot := exampleEnv.SetUpgradeDisruptReboot
  range := fun m => m.reverse
  range_perm := fun m => List.reverse_perm m

/-- An environment whose abort-point setter rejects every value but `50` and
whose reboot setter accepts every value; `range` visits a map in insertion
order. -/
def strictEnv : Env where
  AllTests := exampleEnv.AllTests
  SetUpgradeAbortAt := fun v =>
    if v = str "50" then none else some (.external (str "abort-at must be 50"))
  SetUpgradeDisruptReboot := fun _ => none
  range := fun m => m
  range_perm := fun m => List.Perm.refl m

/-- The filter that the `Init` of the suite with the given name passes to
`upgradeInitArguments`: every name for `all`, the sentinel name for
`platform`. -/
def initFilter (suite : GoString) : GoString → Bool :=
  if suite = str "all" then fun _ => true
  else fun name => decide (name = str "control-plane-available")

/-! ## Error messages: `fmt.Errorf` with the verbs `%q` and `%s` -/

namespace strconv

/-- Go `lowerhex = "0123456789abcdef"`, indexed by a value below 16. -/
def lowerhex (n : Nat) : Fin 256 := if n < 10 then Fin.ofNat (48 + n) else Fin.ofNat (87 + n)

/-- Go `strconv.IsPrint(r)`: exact for the runes up to U+00FF; for the other
runes the answer of the Unicode tables of the package is the parameter
`table`. -/
def IsPrint (table : Nat → Bool) (r : Nat) : Bool :=
  if r ≤ 0xFF then
    if 0x20 ≤ r ∧ r ≤ 0x7E then true
    else if 0xA1 ≤ r then decide (r ≠ 0xAD)
    else false
  else table r

/-- The hexadecimal digits of `r`, `n` of them, most significant first. -/
def hexDigits (r : Nat) : Nat → GoString
  | 0 => []
  | n + 1 => lowerhex (r / 16 ^ n % 16) :: hexDigits r n

/-- Go `strconv.appendEscapedRune(buf, r, '"', false, false)`: what `Quote`
writes for one rune. -/
def appendEscapedRune (table : Nat → Bool) (r : Nat) : GoString :=
  if r = 34 ∨ r = 92 then [92, Fin.ofNat r]
  else if IsPrint table r then utf8.EncodeRune r
  else if r = 7 then [92, 97]
  else if r = 8 then [92, 98]
  else if r = 12 then [92, 102]
  else if r = 10 then [92, 110]
  else if r = 13 then [92, 114]
  else if r = 9 then [92, 116]
  else if r = 11 then [92, 118]
  else if r < 0x20 ∨ r = 0x7F then [92, 120, lowerhex (r / 16 % 16), lowerhex (r % 16)]
  else if ¬ (r < 0xD800 ∨ (0xDFFF < r ∧ r ≤ 0x10FFFF)) then [92, 117] ++ hexDigits 0xFFFD 4
  else if r < 0x10000 then [92, 117] ++ hexDigits r 4
  else [92, 85] ++ hexDigits r 8

/-- The loop of Go `strconv.appendQuotedWith(buf, s, '"', false, false)`:
what is written between the two quotes. The fuel bounds the iterations by the
number of bytes. -/
def quoteLoop (table : Nat → Bool) : Nat → GoString → GoString
  | 0, _ => []
  | _ + 1, [] => []
  | fuel + 1, b :: rest =>
    let d := if b.val ≥ 0x80 then utf8.DecodeRune (b :: rest) else (b.val, 1)
    if d.2 = 1 ∧ d.1 = utf8.RuneError then
      [92, 120, lowerhex (b.val / 16), lowerhex (b.val % 16)] ++ quoteLoop table fuel rest
    else appendEscapedRune table d.1 ++ quoteLoop table fuel ((b :: rest).drop d.2)

/-- Go `strconv.Quote(s)`: a double-quoted Go string literal for `s`. -/
def Quote (table : Nat → Bool) (s : GoString) : GoString :=
  [34] ++ quoteLoop table s.length s ++ [34]

end strconv

namespace fmt

/-- Go `fmt.Sprintf(format, args...)` for string arguments and a format whose
verbs are `%q`, `%s` and `%%` without flags, which is all this program uses;
`none` for a format outside this fragment. A verb without an argument is
written `%!q(MISSING)`, a `%` that ends the format `%!(NOVERB)`, and arguments
left over are listed after `%!(EXTRA `. -/
def Sprintf (table : Nat → Bool) : GoString → List GoString → Option GoString
  | [], [] => some []
  | [], a :: args =>
    some (str "%!(EXTRA " ++
      (str "string=" ++ a ++ (args.map (fun x => str ", string=" ++ x)).flatten) ++ str ")")
  | c :: rest, args =>
    if c = 37 then
      match rest with
      | [] => some (str "%!(NOVERB)")
      | v :: rest2 =>
        if v = 37 then (Sprintf table rest2 args).map (fun r => 37 :: r)
        else if v = 113 then
          match args with
          | a :: args2 => (Sprintf table rest2 args2).map (fun r => strconv.Quote table a ++ r)
          | [] => (Sprintf table rest2 []).map (fun r => str "%!q(MISSING)" ++ r)
        else if v = 115 then
          match args with
          | a :: args2 => (Sprintf table rest2 args2).map (fun r => a ++ r)
          | [] => (Sprintf table rest2 []).map (fun r => str "%!s(MISSING)" ++ r)
        else none
    else (Sprintf table rest args).map (fun r => c :: r)

end fmt

/-- Go `err.Error()`: the message of an error built by `fmt.Errorf` or by
another package; the text of the `encoding/json` errors is not modelled. -/
def Error.message (table : Nat → Bool) : Error → Option GoString
  | .errorf format args => fmt.Sprintf table (str format) args
  | .external msg => some msg
  | .syntaxError => none
  | .unmarshalTypeError => none

/-- A string of printable ASCII characters other than the double quote and
the backslash: `strconv.Quote` writes it as it is. -/
def PlainASCII (s : GoString) : Prop :=
  ∀ b ∈ s, 0x20 ≤ b.val ∧ b.val ≤ 0x7E ∧ b.val ≠ 34 ∧ b.val ≠ 92

/-- The loop of the coercion to well-formed UTF-8 that `json.Marshal` applies
to a string: every byte that does not start a well-formed sequence becomes
U+FFFD, everything else is kept. -/
def json.coerceLoop : Nat → GoString → GoString
  | 0, _ => []
  | _ + 1, [] => []
  | fuel + 1, b :: rest =>
    if b.val < 0x80 then b :: json.coerceLoop fuel rest
    else
      let d := utf8.DecodeRune (b :: rest)
      if d.1 = utf8.RuneError ∧ d.2 = 1 then [0xEF, 0xBF, 0xBD] ++ json.coerceLoop fuel rest
      else (b :: rest).take d.2 ++ json.coerceLoop fuel ((b :: rest).drop d.2)

/-- The string that a JSON string literal written by `json.Marshal` denotes:
the argument with its ill-formed bytes replaced by U+FFFD. -/
def json.coerce (s : GoString) : GoString := json.coerceLoop s.length s

/-! ## Lemmas on `strings.SplitN` and the `OptionsMap` loop -/

theorem str_eq : str "=" = [eqSign] := rfl

theorem Index_eqSign (s : GoString) :
    strings.Index s [eqSign] = if eqSign ∈ s then some (entryKey s).length else none := by
  induction s with
  | nil => simp [strings.Index]
  | cons b s ih =>
    by_cases hb : b = eqSign
    · simp [strings.Index, hb, entryKey]
    · have hb2 : ¬ eqSign = b := fun h => hb h.symm
      simp only [strings.Index, List.isPrefixOf, ih, entryKey, List.mem_cons, hb2, false_or]
      by_cases hs : eqSign ∈ s
      · simp [hs, hb, List.takeWhile, Ne.symm hb2]
        exact hb2
      · simp [hs, hb, Ne.symm hb2]
        exact hb2

theorem entry_split (s : GoString) (h : eqSign ∈ s) :
    s = entryKey s ++ eqSign :: entryValue s := by
  induction s with
  | nil => simp at h
  | cons b s ih =>
    by_cases hb : b = eqSign
    · simp [entryKey, entryValue, hb]
    · have hs : eqSign ∈ s := by
        rcases List.mem_cons.1 h with h | h
        · exact absurd h.symm hb
        · exact h
      have := ih hs
      simp only [entryKey, entryValue] at this ⊢
      simp only [List.takeWhile, List.dropWhile, hb, ne_eq, not_false_eq_true, decide_True,
        List.cons_append, List.cons.injEq, true_and]
      exact this

theorem SplitN_eqSign (s : GoString) :
    strings.SplitN s (str "=") 2 = if eqSign ∈ s then [entryKey s, entryValue s] else [s] := by
  rw [str_eq]
  by_cases hs : eqSign ∈ s
  · have hlen : ¬ (2 > s.length + 1) := by
      cases s with
      | nil => simp at hs
      | cons b t => simp
    have hsplit := entry_split s hs
    simp only [strings.SplitN, hlen, if_false, hs, if_true, strings.genSplitLoop, Index_eqSign]
    have h1 : List.take (entryKey s).length s = entryKey s := by
      conv => lhs; rhs; rw [hsplit]
      simp
    have h2 : List.drop ((entryKey s).length + 1) s = entryValue s := by
      conv => lhs; rhs; rw [hsplit]
      simp
    simp [h1, h2]
  · simp only [strings.SplitN, hs, if_false]
    by_cases hl : 2 > s.length + 1
    · have : s = [] := by
        cases s with
        | nil => rfl
        | cons b t => simp at hl; omega
      subst this
      simp [strings.genSplitLoop]
    · simp [hl, strings.genSplitLoop, Index_eqSign, hs]


theorem OptionsMapLoop_cons (e : GoString) (rest : List GoString) (acc : GoMap) :
    UpgradeOptions.OptionsMapLoop (e :: rest) acc =
      if Malformed e then .error (malformedOption e)
      else if (GoMap.get? acc (entryKey e)).isSome then .error (duplicateOption (entryKey e))
      else UpgradeOptions.OptionsMapLoop rest (GoMap.set acc (entryKey e) (entryValue e)) := by
  rw [UpgradeOptions.OptionsMapLoop, SplitN_eqSign]
  by_cases hs : eqSign ∈ e
  · by_cases hk : entryKey e = []
    · simp [hs, hk, Malformed, malformedOption]
    · simp [hs, hk, Malformed, malformedOption, duplicateOption]
  · simp [hs, Malformed, malformedOption]

theorem get?_isSome_iff (m : GoMap) (k : GoString) :
    (GoMap.get? m k).isSome = true ↔ k ∈ m.map Prod.fst := by
  induction m with
  | nil => simp [GoMap.get?]
  | cons p m ih =>
    obtain ⟨a, b⟩ := p
    by_cases h : k = a
    · simp [GoMap.get?, List.lookup, h]
    · have h2 : (k == a) = false := by simpa using h
      simp only [GoMap.get?, List.lookup, h2, List.map_cons, List.mem_cons, h, false_or]
      exact ih

theorem set_of_not_mem (m : GoMap) (k v : GoString) (h : k ∉ m.map Prod.fst) :
    GoMap.set m k v = m ++ [(k, v)] := by
  have : ¬ (GoMap.get? m k).isSome = true := fun h2 => h ((get?_isSome_iff m k).1 h2)
  simp [GoMap.set, this]

theorem splitEntries_keys (raw : List GoString) :
    (splitEntries raw).map Prod.fst = raw.map entryKey := by
  simp [splitEntries]

theorem OptionsMapLoop_ok (raw : List GoString) :
    ∀ acc : GoMap, (∀ e ∈ raw, ¬ Malformed e) →
      (acc.map Prod.fst ++ raw.map entryKey).Nodup →
      UpgradeOptions.OptionsMapLoop raw acc = .ok (acc ++ splitEntries raw) := by
  induction raw with
  | nil => intro acc _ _; simp [UpgradeOptions.OptionsMapLoop, splitEntries]
  | cons e rest ih =>
    intro acc hwf hnd
    have he : ¬ Malformed e := hwf e (List.mem_cons_self _ _)
    have hk : entryKey e ∉ acc.map Prod.fst := by
      intro hmem
      have := List.nodup_append.1 hnd
      exact this.2.2 hmem (by simp)
    have hk2 : ¬ (GoMap.get? acc (entryKey e)).isSome = true :=
      fun h => hk ((get?_isSome_iff _ _).1 h)
    rw [OptionsMapLoop_cons, if_neg he, if_neg hk2, set_of_not_mem _ _ _ hk,
      ih _ (fun x hx => hwf x (List.mem_cons_of_mem _ hx))]
    · simp [splitEntries]
    · simpa [List.append_assoc] using hnd

theorem OptionsMapLoop_append (pre post : List GoString) :
    ∀ acc acc2 : GoMap, UpgradeOptions.OptionsMapLoop pre acc = .ok acc2 →
      UpgradeOptions.OptionsMapLoop (pre ++ post) acc =
        UpgradeOptions.OptionsMapLoop post acc2 := by
  induction pre with
  | nil =>
    intro acc acc2 h
    simp only [UpgradeOptions.OptionsMapLoop, Except.ok.injEq] at h
    simp [h]
  | cons e rest ih =>
    intro acc acc2 h
    rw [OptionsMapLoop_cons] at h
    rw [List.cons_append, OptionsMapLoop_cons]
    by_cases he : Malformed e
    · simp [he] at h
    · by_cases hk : (GoMap.get? acc (entryKey e)).isSome = true
      · simp [he, hk] at h
      · simp only [he, hk, if_false] at h ⊢
        exact ih _ _ h

theorem OptionsMapLoop_error_of_malformed (raw : List GoString) :
    ∀ acc : GoMap, (∃ e ∈ raw, Malformed e) →
      ∃ err, UpgradeOptions.OptionsMapLoop raw acc = .error err := by
  induction raw with
  | nil => intro acc h; simp at h
  | cons e rest ih =>
    intro acc h
    rw [OptionsMapLoop_cons]
    by_cases he : Malformed e
    · exact ⟨malformedOption e, by simp [he]⟩
    · by_cases hk : (GoMap.get? acc (entryKey e)).isSome = true
      · exact ⟨duplicateOption (entryKey e), by simp [he, hk]⟩
      · simp only [he, hk, if_false]
        apply ih
        obtain ⟨x, hx, hm⟩ := h
        rcases List.mem_cons.1 hx with rfl | hx
        · exact absurd hm he
        · exact ⟨x, hx, hm⟩

theorem OptionsMapLoop_duplicate (raw post : List GoString) :
    ∀ acc : GoMap, (acc.map Prod.fst).Nodup → (∀ e ∈ raw, ¬ Malformed e) →
      ¬ (acc.map Prod.fst ++ raw.map entryKey).Nodup →
      ∃ k, UpgradeOptions.OptionsMapLoop (raw ++ post) acc = .error (duplicateOption k) ∧
        2 ≤ (acc.map Prod.fst ++ raw.map entryKey).count k := by
  induction raw with
  | nil => intro acc hacc _ hnd; simp at hnd; exact absurd hacc hnd
  | cons e rest ih =>
    intro acc hacc hwf hnd
    have he : ¬ Malformed e := hwf e (List.mem_cons_self _ _)
    rw [List.cons_append, OptionsMapLoop_cons, if_neg he]
    by_cases hk : (GoMap.get? acc (entryKey e)).isSome = true
    · refine ⟨entryKey e, by simp [hk], ?_⟩
      have hmem := (get?_isSome_iff _ _).1 hk
      have h1 : 1 ≤ (acc.map Prod.fst).count (entryKey e) := List.count_pos_iff.2 hmem
      simp only [List.map_cons, List.count_append, List.count_cons_self]
      omega
    · have hk2 : entryKey e ∉ acc.map Prod.fst := fun h => hk ((get?_isSome_iff _ _).2 h)
      rw [if_neg hk, set_of_not_mem _ _ _ hk2]
      have hacc2 : ((acc ++ [(entryKey e, entryValue e)]).map Prod.fst).Nodup := by
        simp only [List.map_append, List.map_cons, List.map_nil]
        exact List.nodup_append.2 ⟨hacc, by simp, by
          intro a ha hb
          simp at hb
          exact hk2 (hb ▸ ha)⟩
      have := ih (acc ++ [(entryKey e, entryValue e)]) hacc2
        (fun x hx => hwf x (List.mem_cons_of_mem _ hx))
        (by simpa [List.append_assoc] using hnd)
      simpa [List.append_assoc] using this

theorem OptionsMapLoop_inv (raw : List GoString) :
    ∀ acc m : GoMap, (acc.map Prod.fst).Nodup →
      UpgradeOptions.OptionsMapLoop raw acc = .ok m →
      (∀ e ∈ raw, ¬ Malformed e) ∧ (acc.map Prod.fst ++ raw.map entryKey).Nodup ∧
        m = acc ++ splitEntries raw := by
  induction raw with
  | nil =>
    intro acc m hacc h
    simp only [UpgradeOptions.OptionsMapLoop, Except.ok.injEq] at h
    subst h
    simp [splitEntries, hacc]
  | cons e rest ih =>
    intro acc m hacc h
    rw [OptionsMapLoop_cons] at h
    by_cases he : Malformed e
    · simp [he] at h
    · by_cases hk : (GoMap.get? acc (entryKey e)).isSome = true
      · simp [he, hk] at h
      · have hk2 : entryKey e ∉ acc.map Prod.fst := fun h => hk ((get?_isSome_iff _ _).2 h)
        rw [if_neg he, if_neg hk, set_of_not_mem _ _ _ hk2] at h
        have hacc2 : ((acc ++ [(entryKey e, entryValue e)]).map Prod.fst).Nodup := by
          simp only [List.map_append, List.map_cons, List.map_nil]
          exact List.nodup_append.2 ⟨hacc, by simp, by
            intro a ha hb
            simp at hb
            exact hk2 (hb ▸ ha)⟩
        obtain ⟨h1, h2, h3⟩ := ih _ _ hacc2 h
        refine ⟨?_, ?_, ?_⟩
        · intro x hx
          rcases List.mem_cons.1 hx with rfl | hx
          · exact he
          · exact h1 x hx
        · simpa [List.append_assoc] using h2
        · simpa [splitEntries, List.append_assoc] using h3

theorem entryKey_append (k v : GoString) (hk : eqSign ∉ k) :
    entryKey (k ++ eqSign :: v) = k ∧ entryValue (k ++ eqSign :: v) = v := by
  induction k with
  | nil => simp [entryKey, entryValue]
  | cons b k ih =>
    have hb : b ≠ eqSign := fun h => hk (by simp [h])
    have hk2 : eqSign ∉ k := fun h => hk (List.mem_cons_of_mem _ h)
    obtain ⟨h1, h2⟩ := ih hk2
    constructor
    · show entryKey (b :: (k ++ eqSign :: v)) = b :: k
      rw [entryKey, List.takeWhile_cons]
      simp only [hb, ne_eq, not_false_eq_true, decide_True, if_true]
      rw [entryKey] at h1
      rw [h1]
    · show entryValue (b :: (k ++ eqSign :: v)) = v
      rw [entryValue, List.dropWhile_cons]
      simp only [hb, ne_eq, not_false_eq_true, decide_True, if_true]
      rw [entryValue] at h2
      exact h2

theorem get?_splitEntries (raw : List GoString) (hnd : (raw.map entryKey).Nodup) :
    ∀ e ∈ raw, GoMap.get? (splitEntries raw) (entryKey e) = some (entryValue e) := by
  induction raw with
  | nil => intro e he; simp at he
  | cons a rest ih =>
    intro e he
    simp only [List.map_cons, List.nodup_cons] at hnd
    rcases List.mem_cons.1 he with rfl | he
    · simp [splitEntries, GoMap.get?, List.lookup]
    · have hne : entryKey e ≠ entryKey a := by
        intro h
        exact hnd.1 (h ▸ List.mem_map_of_mem _ he)
      have h2 : (entryKey e == entryKey a) = false := by simpa using hne
      have := ih hnd.2 e he
      simp only [splitEntries, GoMap.get?, List.map_cons, List.lookup, h2] at this ⊢
      exact this

theorem nodup_keys_of_pairwise (raw : List GoString)
    (h : raw.Pairwise (fun a b => entryKey a ≠ entryKey b)) : (raw.map entryKey).Nodup := by
  induction raw with
  | nil => simp
  | cons a rest ih =>
    rw [List.pairwise_cons] at h
    simp only [List.map_cons, List.nodup_cons, List.mem_map, not_exists, not_and]
    exact ⟨fun x hx hxa => h.1 x hx hxa.symm, ih h.2⟩

/-- C1: when every raw option entry contains `=`, has a non-empty key and no
two entries have the same key, `OptionsMap` returns a map and no error; the map
has exactly one key per entry (the text before the first `=`), bound to all
the text after that first `=` (further `=` included), has no empty key and no
other key. -/
theorem C1_OptionsMap_valid (o : UpgradeOptions)
    (hsep : ∀ e ∈ o.TestOptions.getD [], eqSign ∈ e)
    (hkey : ∀ e ∈ o.TestOptions.getD [], entryKey e ≠ [])
    (huniq : (o.TestOptions.getD []).Pairwise (fun a b => entryKey a ≠ entryKey b)) :
    ∃ m : GoMap, o.OptionsMap = .ok m ∧
      m.map Prod.fst = (o.TestOptions.getD []).map entryKey ∧
      (m.map Prod.fst).Nodup ∧
      (∀ e ∈ o.TestOptions.getD [], GoMap.get? m (entryKey e) = some (entryValue e)) ∧
      (∀ k v : GoString, eqSign ∉ k → (k ++ eqSign :: v) ∈ o.TestOptions.getD [] →
        GoMap.get? m k = some v) ∧
      GoMap.get? m [] = none ∧
      (∀ k : GoString, (GoMap.get? m k).isSome = true →
        ∃ e ∈ o.TestOptions.getD [], entryKey e = k) := by
  have hnd := nodup_keys_of_pairwise _ huniq
  have hwf : ∀ e ∈ o.TestOptions.getD [], ¬ Malformed e := by
    intro e he hm
    rcases hm with hm | hm
    · exact hm (hsep e he)
    · exact hkey e he hm
  have hok := OptionsMapLoop_ok (o.TestOptions.getD []) [] hwf (by simpa using hnd)
  have hget := get?_splitEntries _ hnd
  refine ⟨splitEntries (o.TestOptions.getD []), by simpa [UpgradeOptions.OptionsMap] using hok,
    splitEntries_keys _, by rw [splitEntries_keys]; exact hnd, hget, ?_, ?_, ?_⟩
  · intro k v hk hmem
    have := hget _ hmem
    rwa [(entryKey_append k v hk).1, (entryKey_append k v hk).2] at this
  · cases hnone : GoMap.get? (splitEntries (o.TestOptions.getD [])) [] with
    | none => rfl
    | some v =>
      have hs : (GoMap.get? (splitEntries (o.TestOptions.getD [])) []).isSome = true := by
        simp [hnone]
      have hmem := (get?_isSome_iff _ _).1 hs
      rw [splitEntries_keys, List.mem_map] at hmem
      obtain ⟨e, he, hke⟩ := hmem
      exact absurd hke (hkey e he)
  · intro k hk
    have hmem := (get?_isSome_iff _ _).1 hk
    rw [splitEntries_keys, List.mem_map] at hmem
    exact hmem

/-- C1 at the options `abort-at=50` and `x=a=b`: the value of `x` keeps its
own `=`. -/
theorem C1_OptionsMap_valid_witness :
    ∃ m : GoMap,
      UpgradeOptions.OptionsMap
        { UpgradeOptions.zero with TestOptions := some [str "abort-at=50", str "x=a=b"] } =
          .ok m ∧
      m.map Prod.fst = [str "abort-at", str "x"] ∧
      GoMap.get? m (str "x") = some (str "a=b") := by
  obtain ⟨m, h1, h2, _, _, h5, _, _⟩ := C1_OptionsMap_valid
    { UpgradeOptions.zero with TestOptions := some [str "abort-at=50", str "x=a=b"] }
    (by decide) (by decide) (by decide)
  exact ⟨m, h1, h2, h5 (str "x") (str "a=b") (by decide) (by decide)⟩

/-- C2 (as stated) fails: in `x`, `a=1`, `a=2` two entries share the key `a`,
yet the error is the malformed-option error of the earlier entry `x`, not a
duplicate-option error. -/
theorem C2_counterexample :
    entryKey (str "a=1") = entryKey (str "a=2") ∧
    UpgradeOptions.OptionsMap
      { UpgradeOptions.zero with TestOptions := some [str "x", str "a=1", str "a=2"] } =
        .error (malformedOption (str "x")) ∧
    ¬ ∃ k : GoString,
      UpgradeOptions.OptionsMap
        { UpgradeOptions.zero with TestOptions := some [str "x", str "a=1", str "a=2"] } =
          .error (duplicateOption k) := by
  refine ⟨by decide, by rfl, ?_⟩
  rintro ⟨k, hk⟩
  have h : UpgradeOptions.OptionsMap
      { UpgradeOptions.zero with TestOptions := some [str "x", str "a=1", str "a=2"] } =
        .error (malformedOption (str "x")) := by rfl
  rw [h] at hk
  simp [malformedOption, duplicateOption] at hk

/-- C2 (amended): when two entries of the raw option list share a key and no
entry up to the later of the two is malformed, `OptionsMap` fails with a
duplicate-option error, whatever the values and whatever follows; the key it
names is the key of two entries up to that point, and it is the shared key
when the entries before the later one have distinct keys. -/
theorem C2_duplicate (o : UpgradeOptions) (pre post : List GoString) (e2 : GoString)
    (hraw : o.TestOptions.getD [] = pre ++ e2 :: post)
    (hwf : ∀ e ∈ pre ++ [e2], ¬ Malformed e)
    (hdup : ∃ e1 ∈ pre, entryKey e1 = entryKey e2) :
    ∃ k : GoString, o.OptionsMap = .error (duplicateOption k) ∧
      2 ≤ ((pre ++ [e2]).map entryKey).count k ∧
      ((pre.map entryKey).Nodup → k = entryKey e2) := by
  have hnd : ¬ (([] : GoMap).map Prod.fst ++ (pre ++ [e2]).map entryKey).Nodup := by
    obtain ⟨e1, he1, hk⟩ := hdup
    simp only [List.map_nil, List.nil_append, List.map_append, List.map_cons]
    intro h
    have := List.nodup_append.1 h
    exact this.2.2 (List.mem_map_of_mem _ he1) (by simp [hk])
  obtain ⟨k, hk, hcount⟩ := OptionsMapLoop_duplicate (pre ++ [e2]) post [] (by simp) hwf hnd
  have hraw2 : o.TestOptions.getD [] = (pre ++ [e2]) ++ post := by simp [hraw]
  refine ⟨k, by rw [UpgradeOptions.OptionsMap, hraw2]; exact hk, by simpa using hcount, ?_⟩
  intro hpre
  have hok := OptionsMapLoop_ok pre []
    (fun e he => hwf e (List.mem_append_left _ he)) (by simpa using hpre)
  have happ := OptionsMapLoop_append pre (e2 :: post) [] _ hok
  have he2 : ¬ Malformed e2 := hwf e2 (by simp)
  have hmem : (GoMap.get? ([] ++ splitEntries pre) (entryKey e2)).isSome = true := by
    rw [get?_isSome_iff]
    obtain ⟨e1, he1, hk1⟩ := hdup
    simp only [List.nil_append, splitEntries_keys]
    exact hk1 ▸ List.mem_map_of_mem _ he1
  rw [OptionsMapLoop_cons, if_neg he2, if_pos hmem] at happ
  have hraw3 : (pre ++ [e2]) ++ post = pre ++ e2 :: post := by simp
  rw [hraw3, happ] at hk
  simp only [duplicateOption, Except.error.injEq, Error.errorf.injEq, List.cons.injEq,
    and_true, true_and] at hk
  exact hk.symm

/-- C2 (amended) at `abort-at=50`, `abort-at=60`: the duplicate-option error
names `abort-at`. -/
theorem C2_duplicate_witness :
    UpgradeOptions.OptionsMap
      { UpgradeOptions.zero with TestOptions := some [str "abort-at=50", str "abort-at=60"] } =
        .error (duplicateOption (str "abort-at")) := by
  obtain ⟨k, h1, _, h3⟩ := C2_duplicate
    { UpgradeOptions.zero with TestOptions := some [str "abort-at=50", str "abort-at=60"] }
    [str "abort-at=50"] [] (str "abort-at=60") (by rfl) (by decide)
    ⟨str "abort-at=50", by decide, by decide⟩
  rw [h1, h3 (by decide)]
  rfl

/-- C3: a raw option list that contains a malformed entry (no `=`, or an
empty key) makes `OptionsMap` return an error and no map; when no entry before
it is malformed or repeats a key, the error is the malformed-option error
quoting that entry. -/
theorem C3_malformed (o : UpgradeOptions) (pre post : List GoString) (e : GoString)
    (hraw : o.TestOptions.getD [] = pre ++ e :: post)
    (he : Malformed e) :
    (∃ err : Error, o.OptionsMap = .error err) ∧
      ((∀ x ∈ pre, ¬ Malformed x) →
        pre.Pairwise (fun a b => entryKey a ≠ entryKey b) →
        o.OptionsMap = .error (malformedOption e)) := by
  constructor
  · rw [UpgradeOptions.OptionsMap, hraw]
    exact OptionsMapLoop_error_of_malformed _ [] ⟨e, by simp, he⟩
  · intro hwf hpw
    have hok := OptionsMapLoop_ok pre [] hwf (by simpa using nodup_keys_of_pairwise _ hpw)
    rw [UpgradeOptions.OptionsMap, hraw, OptionsMapLoop_append pre (e :: post) [] _ hok,
      OptionsMapLoop_cons, if_pos he]

/-- C3 at `abort-at=50`, `=oops`, `novalue`: the first malformed entry, with
its empty key, is the one reported. -/
theorem C3_malformed_witness :
    (∃ err : Error,
      UpgradeOptions.OptionsMap
        { UpgradeOptions.zero with
          TestOptions := some [str "abort-at=50", str "=oops", str "novalue"] } = .error err) ∧
    UpgradeOptions.OptionsMap
      { UpgradeOptions.zero with
        TestOptions := some [str "abort-at=50", str "=oops", str "novalue"] } =
      .error (malformedOption (str "=oops")) := by
  have h := C3_malformed
    { UpgradeOptions.zero with
      TestOptions := some [str "abort-at=50", str "=oops", str "novalue"] }
    [str "abort-at=50"] [str "novalue"] (str "=oops") (by rfl) (by decide)
  exact ⟨h.1, h.2 (by decide) (by decide)⟩

/-! ## Suites -/

theorem Index_isSome_iff (s sub : GoString) :
    (strings.Index s sub).isSome = true ↔ Occurs sub s := by
  induction s with
  | nil =>
    by_cases h : sub = []
    · simp only [strings.Index, h, if_true, Option.isSome_some, true_iff]
      exact ⟨[], [], rfl⟩
    · simp only [strings.Index, h, if_false, Option.isSome_none, Bool.false_eq_true, false_iff]
      rintro ⟨pre, post, hp⟩
      have h1 := congrArg List.length hp
      simp only [List.length_nil, List.length_append] at h1
      exact h (List.length_eq_zero.1 (by omega))
  | cons b s ih =>
    rw [strings.Index]
    by_cases hp : sub.isPrefixOf (b :: s) = true
    · simp only [hp, if_true, Option.isSome_some, true_iff]
      obtain ⟨t, ht⟩ := List.isPrefixOf_iff_prefix.1 hp
      exact ⟨[], t, by simp [ht]⟩
    · simp only [hp, Bool.false_eq_true, if_false, Option.isSome_map']
      rw [ih]
      constructor
      · rintro ⟨pre, post, h⟩
        exact ⟨b :: pre, post, by simp [h]⟩
      · rintro ⟨pre, post, h⟩
        cases pre with
        | nil =>
          exfalso
          apply hp
          apply List.isPrefixOf_iff_prefix.2
          exact ⟨post, by simpa using h.symm⟩
        | cons c pre =>
          simp only [List.cons_append, List.cons.injEq] at h
          exact ⟨pre, post, by simpa using h.2⟩

theorem Contains_iff (s sub : GoString) : strings.Contains s sub = true ↔ Occurs sub s := by
  rw [strings.Contains, Index_isSome_iff]

/-- C7 (as stated) fails: the `Matches` predicate of the `platform` suite
accepts a name that holds both tags and is not the sentinel
`control-plane-available`. -/
theorem C7_counterexample :
    ∃ suite : TestSuite, suiteNamed (str "platform") = some suite ∧
      suite.Matches (str "[Feature:ClusterUpgrade][Suite:openshift]") = true ∧
      str "[Feature:ClusterUpgrade][Suite:openshift]" ≠ str "control-plane-available" ∧
      ¬ (suite.Matches (str "[Feature:ClusterUpgrade][Suite:openshift]") = true ↔
          (Occurs (str "[Feature:ClusterUpgrade]")
              (str "[Feature:ClusterUpgrade][Suite:openshift]") ∧
            Occurs (str "[Suite:openshift]") (str "[Feature:ClusterUpgrade][Suite:openshift]") ∧
            str "[Feature:ClusterUpgrade][Suite:openshift]" = str "control-plane-available")) := by
  refine ⟨_, rfl, by rfl, by decide, ?_⟩
  intro h
  have h2 := h.1 (by rfl)
  exact absurd h2.2.2 (by decide)

/-- C7 (amended): the suites are `all` and `platform`; for every test name
the `Matches` predicate of either suite holds exactly when the name contains
both tags `[Feature:ClusterUpgrade]` and `[Suite:openshift]`. The equality with
the sentinel `control-plane-available` is not part of `Matches`: it is the
filter that the `Init` of `platform` passes to `upgradeInitArguments` (the
`Init` of `all` passes the filter that accepts every name). -/
theorem C7_Matches_tags (name : GoString) :
    upgradeSuites.map (fun suite => suite.Name) = [str "all", str "platform"] ∧
    (∃ suite : TestSuite, suiteNamed (str "all") = some suite ∧
      (suite.Matches name = true ↔
        Occurs (str "[Feature:ClusterUpgrade]") name ∧ Occurs (str "[Suite:openshift]") name) ∧
      ∀ (E : Env) (m : GoMap) (w : World),
        suite.Init.map (fun init => init E m w) =
          some (upgradeInitArguments E m (fun _ => true) w)) ∧
    (∃ suite : TestSuite, suiteNamed (str "platform") = some suite ∧
      (suite.Matches name = true ↔
        Occurs (str "[Feature:ClusterUpgrade]") name ∧ Occurs (str "[Suite:openshift]") name) ∧
      ∀ (E : Env) (m : GoMap) (w : World),
        suite.Init.map (fun init => init E m w) =
          some (upgradeInitArguments E m
            (fun n => decide (n = str "control-plane-available")) w)) := by
  refine ⟨rfl, ⟨_, rfl, ?_, fun _ _ _ => rfl⟩, ⟨_, rfl, ?_, fun _ _ _ => rfl⟩⟩
  · simp only [Bool.and_eq_true, Contains_iff]
  · simp only [Bool.and_eq_true, Contains_iff]

/-! ## initUpgrade -/

/-- C5: `initUpgrade("")` returns the zero record, all of whose fields are
empty, with no error, and makes no call that writes the upgrade
configuration: no setter, no `SetTests`, no `SetToImage`. -/
theorem C5_initUpgrade_empty (E : Env) (w : World) :
    initUpgrade E (str "") w = (.ok UpgradeOptions.zero, w) ∧
      UpgradeOptions.zero =
        { Suite := str "", ToImage := str "", JUnitDir := str "", TestOptions := none } :=
  ⟨rfl, rfl⟩

theorem initUpgrade_of_decode (E : Env) (value : GoString) (opt : UpgradeOptions) (w : World)
    (hdec : json.Unmarshal value UpgradeOptions.zero = .ok opt) :
    initUpgrade E value w = initUpgradeLoop E opt upgradeSuites w := by
  have hv : ¬ value.length = 0 := by
    intro h
    have : value = [] := List.length_eq_zero.1 h
    subst this
    exact absurd hdec (by simp [json.Unmarshal, json.parse, json.parseValue, json.skipSpace])
  simp only [initUpgrade, hv, if_false, hdec]

/-- C6: when a transport string (non-empty, as every string that decodes is)
decodes to a record whose `Suite` is not the name of a suite of
`upgradeSuites` (it is neither `all` nor `platform`), `initUpgrade` returns the
error `unrecognized upgrade info` and no record, and makes no call that writes
the upgrade configuration. -/
theorem C6_unrecognized_suite (E : Env) (value : GoString) (opt : UpgradeOptions) (w : World)
    (hdec : json.Unmarshal value UpgradeOptions.zero = .ok opt)
    (hs : opt.Suite ∉ upgradeSuites.map (fun suite => suite.Name)) :
    initUpgrade E value w = (.error (.errorf "unrecognized upgrade info" []), w) ∧
      value.length ≠ 0 ∧ opt.Suite ≠ str "all" ∧ opt.Suite ≠ str "platform" := by
  have h1 : opt.Suite ≠ str "all" := fun h => hs (by rw [h]; decide)
  have h2 : opt.Suite ≠ str "platform" := fun h => hs (by rw [h]; decide)
  have hv : value.length ≠ 0 := by
    intro h
    have : value = [] := List.length_eq_zero.1 h
    subst this
    exact absurd hdec (by simp [json.Unmarshal, json.parse, json.parseValue, json.skipSpace])
  refine ⟨?_, hv, h1, h2⟩
  rw [initUpgrade_of_decode E value opt w hdec]
  simp only [upgradeSuites, initUpgradeLoop, Ne.symm h1, Ne.symm h2, if_false]

/-- C6 at the transport string `{"Suite":"nope"}`. -/
theorem C6_unrecognized_suite_witness :
    initUpgrade exampleEnv (str "\x7b\"Suite\":\"nope\"\x7d") [] =
      (.error (.errorf "unrecognized upgrade info" []), []) :=
  (C6_unrecognized_suite exampleEnv (str "\x7b\"Suite\":\"nope\"\x7d")
    { UpgradeOptions.zero with Suite := str "nope" } [] (by rfl) (by decide)).1

/-- C9: when the transport string decodes to a record that names a known
suite and whose raw options fail `OptionsMap`, `initUpgrade` returns that
validation error and makes no call that writes the upgrade configuration: no
setter runs, the test subset and the target image are not written. -/
theorem C9_validation_atomic (E : Env) (value : GoString) (opt : UpgradeOptions) (w : World)
    (err : Error)
    (hdec : json.Unmarshal value UpgradeOptions.zero = .ok opt)
    (hs : opt.Suite ∈ upgradeSuites.map (fun suite => suite.Name))
    (herr : opt.OptionsMap = .error err) :
    initUpgrade E value w = (.error err, w) := by
  rw [initUpgrade_of_decode E value opt w hdec]
  have hs2 : opt.Suite = str "all" ∨ opt.Suite = str "platform" := by
    simpa [upgradeSuites] using hs
  rcases hs2 with h | h
  · simp only [upgradeSuites, initUpgradeLoop, h, if_true, herr]
  · have hne : ¬ str "all" = opt.Suite := by rw [h]; decide
    simp only [upgradeSuites, initUpgradeLoop, hne, if_false]
    simp only [h, if_true, herr]

/-- C9 at the options `abort-at=50`, `abort-at=60` of suite `all`: the
duplicate-option error, and no call. -/
theorem C9_validation_atomic_witness :
    initUpgrade exampleEnv
      (str "\x7b\"Suite\":\"all\",\"TestOptions\":[\"abort-at=50\",\"abort-at=60\"]\x7d") [] =
      (.error (duplicateOption (str "abort-at")), []) :=
  C9_validation_atomic exampleEnv
    (str "\x7b\"Suite\":\"all\",\"TestOptions\":[\"abort-at=50\",\"abort-at=60\"]\x7d")
    { UpgradeOptions.zero with
      Suite := str "all", TestOptions := some [str "abort-at=50", str "abort-at=60"] }
    [] (duplicateOption (str "abort-at")) (by rfl) (by decide) (by rfl)

/-! ## upgradeInitArguments -/

theorem filterUpgradeLoop_eq (f : GoString → Bool) (tests : List Test) :
    ∀ scope : List Test,
      filterUpgradeLoop f tests scope = scope ++ tests.filter (fun t => f t.name) := by
  induction tests with
  | nil => intro scope; simp [filterUpgradeLoop]
  | cons t tests ih =>
    intro scope
    by_cases h : f t.name = true
    · simp [filterUpgradeLoop, h, ih]
    · simp [filterUpgradeLoop, h, ih]

theorem filterUpgrade_eq (tests : List Test) (f : GoString → Bool) (w : World) :
    filterUpgrade tests f w = (none, w ++ [Call.SetTests (tests.filter (fun t => f t.name))]) := by
  simp [filterUpgrade, filterUpgradeLoop_eq]

theorem upgradeInitArgumentsLoop_ok (E : Env) (ord : List (GoString × GoString)) :
    ∀ w : World,
      (∀ p ∈ ord, (p.1 = str "abort-at" ∧ E.SetUpgradeAbortAt p.2 = none) ∨
        (p.1 = str "disrupt-reboot" ∧ E.SetUpgradeDisruptReboot p.2 = none)) →
      upgradeInitArgumentsLoop E ord w = (none, w ++ ord.map setterCall) := by
  induction ord with
  | nil => intro w _; simp [upgradeInitArgumentsLoop]
  | cons p rest ih =>
    intro w h
    obtain ⟨k, v⟩ := p
    have hrest := fun q hq => h q (List.mem_cons_of_mem _ hq)
    rcases h (k, v) (List.mem_cons_self _ _) with ⟨hk, hs⟩ | ⟨hk, hs⟩
    · simp only at hk hs
      subst hk
      rw [upgradeInitArgumentsLoop, if_pos rfl, hs]
      simp only
      rw [ih _ hrest]
      simp [setterCall]
    · simp only at hk hs
      subst hk
      have hne : ¬ str "disrupt-reboot" = str "abort-at" := by decide
      rw [upgradeInitArgumentsLoop, if_neg hne, if_pos rfl, hs]
      simp only
      rw [ih _ hrest]
      simp [setterCall, hne]

theorem upgradeInitArgumentsLoop_unrecognized (E : Env)
    (hA : ∀ v, E.SetUpgradeAbortAt v = none) (hD : ∀ v, E.SetUpgradeDisruptReboot v = none)
    (ord : List (GoString × GoString)) :
    ∀ w : World, (∃ p ∈ ord, p.1 ≠ str "abort-at" ∧ p.1 ≠ str "disrupt-reboot") →
      ∃ (k : GoString) (calls : List Call),
        upgradeInitArgumentsLoop E ord w =
          (some (.errorf "unrecognized upgrade option: %s" [k]), w ++ calls) ∧
        k ∈ ord.map Prod.fst ∧ k ≠ str "abort-at" ∧ k ≠ str "disrupt-reboot" ∧
        ∀ c ∈ calls, c.isSetter = true := by
  induction ord with
  | nil => intro w h; simp at h
  | cons p rest ih =>
    intro w h
    obtain ⟨k, v⟩ := p
    have hrest : k = str "abort-at" ∨ k = str "disrupt-reboot" →
        ∃ q ∈ rest, q.1 ≠ str "abort-at" ∧ q.1 ≠ str "disrupt-reboot" := by
      intro hk
      obtain ⟨q, hq, h1, h2⟩ := h
      rcases List.mem_cons.1 hq with rfl | hq
      · rcases hk with hk | hk
        · exact absurd hk h1
        · exact absurd hk h2
      · exact ⟨q, hq, h1, h2⟩
    by_cases hk1 : k = str "abort-at"
    · obtain ⟨k2, calls, h1, h2, h3, h4, h5⟩ :=
        ih (w ++ [Call.SetUpgradeAbortAt v]) (hrest (Or.inl hk1))
      refine ⟨k2, Call.SetUpgradeAbortAt v :: calls, ?_, List.mem_cons_of_mem _ h2, h3, h4, ?_⟩
      · rw [upgradeInitArgumentsLoop, if_pos hk1, hA v]
        simp only
        rw [h1]
        simp
      · intro c hc
        rcases List.mem_cons.1 hc with rfl | hc
        · rfl
        · exact h5 c hc
    · by_cases hk2 : k = str "disrupt-reboot"
      · obtain ⟨k2, calls, h1, h2, h3, h4, h5⟩ :=
          ih (w ++ [Call.SetUpgradeDisruptReboot v]) (hrest (Or.inr hk2))
        refine ⟨k2, Call.SetUpgradeDisruptReboot v :: calls, ?_, List.mem_cons_of_mem _ h2,
          h3, h4, ?_⟩
        · rw [upgradeInitArgumentsLoop, if_neg hk1, if_pos hk2, hD v]
          simp only
          rw [h1]
          simp
        · intro c hc
          rcases List.mem_cons.1 hc with rfl | hc
          · rfl
          · exact h5 c hc
      · refine ⟨k, [], ?_, by simp, hk1, hk2, by simp⟩
        rw [upgradeInitArgumentsLoop, if_neg hk1, if_neg hk2]
        simp

/-- C10: when an options map holds a key other than `abort-at` and
`disrupt-reboot` and the two setters do not fail, `upgradeInitArguments`
returns, for every filter and every order in which `range` visits the map, the
error `unrecognized upgrade option: k` for an unrecognized key `k` of the map;
the calls it has made by then are setter calls only, so no test subset is
committed. The `Init` of both suites behaves so. -/
theorem C10_unrecognized_option (E : Env) (m : GoMap) (w : World)
    (hA : ∀ v, E.SetUpgradeAbortAt v = none)
    (hD : ∀ v, E.SetUpgradeDisruptReboot v = none)
    (hunk : ∃ p ∈ m, p.1 ≠ str "abort-at" ∧ p.1 ≠ str "disrupt-reboot") :
    ∃ (k : GoString) (calls : List Call),
      k ∈ m.map Prod.fst ∧ k ≠ str "abort-at" ∧ k ≠ str "disrupt-reboot" ∧
      (∀ c ∈ calls, c.isSetter = true) ∧
      (∀ filterFn : GoString → Bool,
        upgradeInitArguments E m filterFn w =
          (some (.errorf "unrecognized upgrade option: %s" [k]), w ++ calls)) ∧
      (∀ suite ∈ upgradeSuites, ∃ init, suite.Init = some init ∧
        init E m w = (some (.errorf "unrecognized upgrade option: %s" [k]), w ++ calls)) := by
  have hperm := E.range_perm m
  have hunk2 : ∃ p ∈ E.range m, p.1 ≠ str "abort-at" ∧ p.1 ≠ str "disrupt-reboot" := by
    obtain ⟨p, hp, h⟩ := hunk
    exact ⟨p, hperm.mem_iff.2 hp, h⟩
  obtain ⟨k, calls, h1, h2, h3, h4, h5⟩ :=
    upgradeInitArgumentsLoop_unrecognized E hA hD (E.range m) w hunk2
  have hk : k ∈ m.map Prod.fst := by
    obtain ⟨p, hp, hpk⟩ := List.mem_map.1 h2
    exact List.mem_map.2 ⟨p, hperm.mem_iff.1 hp, hpk⟩
  have hall : ∀ filterFn : GoString → Bool,
      upgradeInitArguments E m filterFn w =
        (some (.errorf "unrecognized upgrade option: %s" [k]), w ++ calls) := by
    intro filterFn
    simp only [upgradeInitArguments, h1]
  refine ⟨k, calls, hk, h3, h4, h5, hall, ?_⟩
  intro suite hsuite
  simp only [upgradeSuites, List.mem_cons, List.mem_singleton, List.not_mem_nil, or_false]
    at hsuite
  rcases hsuite with rfl | rfl
  · exact ⟨_, rfl, hall _⟩
  · exact ⟨_, rfl, hall _⟩

/-- C10 at the options `unknown=1`: the error names `unknown`. -/
theorem C10_unrecognized_option_witness :
    UpgradeOptions.OptionsMap { UpgradeOptions.zero with TestOptions := some [str "unknown=1"] } =
      .ok [(str "unknown", str "1")] ∧
    ∃ calls : List Call,
      upgradeInitArguments exampleEnv [(str "unknown", str "1")] (fun _ => true) [] =
        (some (.errorf "unrecognized upgrade option: %s" [str "unknown"]), [] ++ calls) := by
  refine ⟨by rfl, ?_⟩
  obtain ⟨k, calls, hk, _, _, _, h, _⟩ := C10_unrecognized_option exampleEnv
    [(str "unknown", str "1")] [] (fun _ => rfl) (fun _ => rfl)
    ⟨(str "unknown", str "1"), by simp, by decide, by decide⟩
  have hk2 : k = str "unknown" := by simpa using hk
  subst hk2
  exact ⟨calls, h _⟩

/-- C8: when the transport string decodes to a record of suite `platform`
whose raw options validate to a map in which every key is a recognized option
whose setter succeeds on its value, `initUpgrade` succeeds with the decoded
record; the calls it makes are one setter call per option, in the order of
`range`, each with exactly the text after the first `=` (so `abort-at=v` calls
the abort-point setter with `v`); then `SetTests` with exactly the registry
tests named `control-plane-available`, in registry order; then `SetToImage`
with the decoded `ToImage`. -/
theorem C8_platform_scenario (E : Env) (value : GoString) (opt : UpgradeOptions) (m : GoMap)
    (w : World)
    (hdec : json.Unmarshal value UpgradeOptions.zero = .ok opt)
    (hsuite : opt.Suite = str "platform")
    (hmap : opt.OptionsMap = .ok m)
    (hset : ∀ p ∈ m, (p.1 = str "abort-at" ∧ E.SetUpgradeAbortAt p.2 = none) ∨
      (p.1 = str "disrupt-reboot" ∧ E.SetUpgradeDisruptReboot p.2 = none)) :
    ∃ calls : List Call,
      initUpgrade E value w =
        (.ok opt,
          w ++ calls ++
            [Call.SetTests
              (E.AllTests.filter (fun t => decide (t.name = str "control-plane-available"))),
             Call.SetToImage opt.ToImage]) ∧
      calls = (E.range m).map setterCall ∧
      calls.Perm (m.map setterCall) ∧
      m = splitEntries (opt.TestOptions.getD []) ∧
      (∀ v : GoString, Call.SetUpgradeAbortAt v ∈ calls ↔
        (str "abort-at" ++ eqSign :: v) ∈ opt.TestOptions.getD []) := by
  have hperm := E.range_perm m
  have hset2 : ∀ p ∈ E.range m, (p.1 = str "abort-at" ∧ E.SetUpgradeAbortAt p.2 = none) ∨
      (p.1 = str "disrupt-reboot" ∧ E.SetUpgradeDisruptReboot p.2 = none) :=
    fun p hp => hset p (hperm.mem_iff.1 hp)
  have hloop := upgradeInitArgumentsLoop_ok E (E.range m) w hset2
  obtain ⟨hwf, _, hm⟩ := OptionsMapLoop_inv (opt.TestOptions.getD []) [] m (by simp)
    (by simpa [UpgradeOptions.OptionsMap] using hmap)
  simp only [List.nil_append] at hm
  refine ⟨(E.range m).map setterCall, ?_, rfl, hperm.map _, hm, ?_⟩
  · rw [initUpgrade_of_decode E value opt w hdec]
    have hne : ¬ str "all" = opt.Suite := by rw [hsuite]; decide
    simp only [upgradeSuites, initUpgradeLoop, hne, if_false]
    simp only [hsuite, if_true, hmap, upgradeInitArguments, hloop, filterUpgrade_eq]
    simp
  · intro v
    rw [List.mem_map]
    constructor
    · rintro ⟨p, hp, hpv⟩
      have hpm : p ∈ m := hperm.mem_iff.1 hp
      have hkey : p.1 = str "abort-at" ∧ p.2 = v := by
        rcases hset p hpm with ⟨hk, _⟩ | ⟨hk, _⟩
        · simp only [setterCall, hk, if_true, Call.SetUpgradeAbortAt.injEq] at hpv
          exact ⟨hk, hpv⟩
        · have hne : ¬ str "disrupt-reboot" = str "abort-at" := by decide
          simp [setterCall, hk, hne] at hpv
      rw [hm, splitEntries, List.mem_map] at hpm
      obtain ⟨e, he, hep⟩ := hpm
      have hin : eqSign ∈ e := by
        by_contra hcon
        exact hwf e he (Or.inl hcon)
      have hsplit := entry_split e hin
      have h1 : entryKey e = str "abort-at" := by rw [← hkey.1, ← hep]
      have h2 : entryValue e = v := by rw [← hkey.2, ← hep]
      rw [h1, h2] at hsplit
      rw [← hsplit]
      exact he
    · intro he
      have hk : eqSign ∉ str "abort-at" := by decide
      have hkv := entryKey_append (str "abort-at") v hk
      have hpm : (str "abort-at", v) ∈ m := by
        rw [hm, splitEntries, List.mem_map]
        exact ⟨_, he, by rw [hkv.1, hkv.2]⟩
      exact ⟨(str "abort-at", v), hperm.mem_iff.2 hpm, by simp [setterCall]⟩

/-- C8 at the transport string
`{"Suite":"platform","ToImage":"registry/x:y","TestOptions":["abort-at=50"]}`
and a registry of three tests, two of them named `control-plane-available`. -/
theorem C8_platform_scenario_witness :
    initUpgrade exampleEnv
      (str ("\x7b\"Suite\":\"platform\",\"ToImage\":\"registry/x:y\"," ++
        "\"TestOptions\":[\"abort-at=50\"]\x7d")) [] =
      (.ok { Suite := str "platform", ToImage := str "registry/x:y", JUnitDir := str "",
             TestOptions := some [str "abort-at=50"] },
        [Call.SetUpgradeAbortAt (str "50"),
         Call.SetTests [{ name := str "control-plane-available", id := 0 },
                        { name := str "control-plane-available", id := 2 }],
         Call.SetToImage (str "registry/x:y")]) := by
  obtain ⟨calls, h1, h2, _, _, _⟩ := C8_platform_scenario exampleEnv
    (str ("\x7b\"Suite\":\"platform\",\"ToImage\":\"registry/x:y\"," ++
      "\"TestOptions\":[\"abort-at=50\"]\x7d"))
    { Suite := str "platform", ToImage := str "registry/x:y", JUnitDir := str "",
      TestOptions := some [str "abort-at=50"] }
    [(str "abort-at", str "50")] [] (by rfl) (by rfl) (by rfl)
    (by
      intro p hp
      simp only [List.mem_singleton] at hp
      subst hp
      exact Or.inl ⟨rfl, rfl⟩)
  rw [h1, h2]
  rfl

/-! ## UTF-8 -/

theorem ofNat_val (b : Fin 256) (n : Nat) (h : n = b.val) : (Fin.ofNat n : Fin 256) = b := by
  apply Fin.ext
  simp only [Fin.ofNat, h]
  omega

theorem EncodeRune_ascii (b : Fin 256) (h : b.val < 0x80) : utf8.EncodeRune b.val = [b] := by
  have h1 : b.val ≤ 0x7F := by omega
  simp only [utf8.EncodeRune, h1, if_true, ofNat_val b b.val rfl]

theorem DecodeRune_ascii (b : Fin 256) (rest : GoString) (h : b.val < 0x80) :
    utf8.DecodeRune (b :: rest) = (b.val, 1) := by
  have hf : utf8.first b.val = 0xF0 := by simp [utf8.first, h]
  simp [utf8.DecodeRune, hf]

theorem first_cases (b : Nat) (h : 0x80 ≤ b) :
    ((b < 0xC2 ∨ 0xF4 < b) ∧ utf8.first b = 0xF1) ∨
    (0xC2 ≤ b ∧ b < 0xE0 ∧ utf8.first b = 0x02) ∨
    (b = 0xE0 ∧ utf8.first b = 0x13) ∨
    (((0xE1 ≤ b ∧ b < 0xED) ∨ (0xEE ≤ b ∧ b < 0xF0)) ∧ utf8.first b = 0x03) ∨
    (b = 0xED ∧ utf8.first b = 0x23) ∨
    (b = 0xF0 ∧ utf8.first b = 0x34) ∨
    (0xF1 ≤ b ∧ b < 0xF4 ∧ utf8.first b = 0x04) ∨
    (b = 0xF4 ∧ utf8.first b = 0x44) := by
  unfold utf8.first
  by_cases c1 : b < 0x80
  · omega
  by_cases c2 : b < 0xC2
  · simp [c1, c2]
  by_cases c3 : b < 0xE0
  · simp [c1, c2, c3]; omega
  by_cases c4 : b = 0xE0
  · simp [c1, c2, c3, c4]
  by_cases c5 : b < 0xED
  · simp [c1, c2, c3, c4, c5]; omega
  by_cases c6 : b = 0xED
  · simp [c1, c2, c3, c4, c5, c6]
  by_cases c7 : b < 0xF0
  · simp [c1, c2, c3, c4, c5, c6, c7]; omega
  by_cases c8 : b = 0xF0
  · simp [c1, c2, c3, c4, c5, c6, c7, c8]
  by_cases c9 : b < 0xF4
  · simp [c1, c2, c3, c4, c5, c6, c7, c8, c9]; omega
  by_cases c10 : b = 0xF4
  · simp [c1, c2, c3, c4, c5, c6, c7, c8, c9, c10]
  simp [c1, c2, c3, c4, c5, c6, c7, c8, c9, c10]; omega

theorem DecodeRune_invalid (p0 : Fin 256) (rest : GoString)
    (h1 : 0x80 ≤ p0.val) (h2 : p0.val < 0xC2 ∨ 0xF4 < p0.val) :
    utf8.DecodeRune (p0 :: rest) = (utf8.RuneError, 1) := by
  have hf : utf8.first p0.val = 0xF1 := by
    rcases first_cases p0 (by omega) with h | h | h | h | h | h | h | h <;> omega
  simp [utf8.DecodeRune, hf]

theorem DecodeRune_two (p0 : Fin 256) (rest : GoString)
    (h1 : 0xC2 ≤ p0.val) (h2 : p0.val < 0xE0) :
    utf8.DecodeRune (p0 :: rest) =
      match rest with
      | p1 :: _ =>
        if 0x80 ≤ p1.val ∧ p1.val ≤ 0xBF then (p0.val % 32 * 64 + p1.val % 64, 2)
        else (utf8.RuneError, 1)
      | [] => (utf8.RuneError, 1) := by
  have hf : utf8.first p0.val = 0x02 := by
    rcases first_cases p0 (by omega) with h | h | h | h | h | h | h | h <;> omega
  cases rest with
  | nil => simp [utf8.DecodeRune, hf]
  | cons p1 r =>
    have hl : ¬ (r.length + 1 + 1 < 2) := by omega
    simp only [utf8.DecodeRune, hf, utf8.acceptRanges, List.length_cons, List.getD_cons_zero,
      List.getD_cons_succ]
    by_cases hp : 0x80 ≤ p1.val ∧ p1.val ≤ 0xBF
    · have hp2 : ¬ (p1.val < 0x80 ∨ 0xBF < p1.val) := by omega
      simp [hp, hl, hp2]
    · have hp2 : (p1.val < 0x80 ∨ 0xBF < p1.val) := by omega
      simp [hp, hl, hp2]

/-- The result of `DecodeRune` when the first byte announces three bytes: the
second byte has a narrower range after `0xE0` and `0xED`. -/
theorem DecodeRune_three (p0 : Fin 256) (rest : GoString)
    (h1 : 0xE0 ≤ p0.val) (h2 : p0.val < 0xF0) :
    utf8.DecodeRune (p0 :: rest) =
      match rest with
      | p1 :: p2 :: _ =>
        if (if p0.val = 0xE0 then 0xA0 else 0x80) ≤ p1.val ∧
            p1.val ≤ (if p0.val = 0xED then 0x9F else 0xBF) ∧
            0x80 ≤ p2.val ∧ p2.val ≤ 0xBF then
          (p0.val % 16 * 4096 + p1.val % 64 * 64 + p2.val % 64, 3)
        else (utf8.RuneError, 1)
      | _ => (utf8.RuneError, 1) := by
  have hf : (p0.val = 0xE0 ∧ utf8.first p0.val = 0x13) ∨
      (p0.val ≠ 0xE0 ∧ p0.val ≠ 0xED ∧ utf8.first p0.val = 0x03) ∨
      (p0.val = 0xED ∧ utf8.first p0.val = 0x23) := by
    rcases first_cases p0 (by omega) with h | h | h | h | h | h | h | h <;> omega
  rcases rest with _ | ⟨p1, _ | ⟨p2, r⟩⟩
  · rcases hf with ⟨_, hf⟩ | ⟨_, _, hf⟩ | ⟨_, hf⟩ <;> simp [utf8.DecodeRune, hf]
  · rcases hf with ⟨_, hf⟩ | ⟨_, _, hf⟩ | ⟨_, hf⟩ <;> simp [utf8.DecodeRune, hf]
  · have hl : ¬ (r.length + 1 + 1 + 1 < 3) := by omega
    rcases hf with ⟨he, hf⟩ | ⟨he, hd, hf⟩ | ⟨hd, hf⟩
    · have hd : ¬ p0.val = 0xED := by omega
      simp only [utf8.DecodeRune, hf, utf8.acceptRanges, List.length_cons, List.getD_cons_zero,
        List.getD_cons_succ]
      simp only [he, hd, if_true, if_false]
      by_cases hp : 0xA0 ≤ p1.val ∧ p1.val ≤ 0xBF
      · have hp2 : ¬ (p1.val < 0xA0 ∨ 0xBF < p1.val) := by omega
        by_cases hq : 0x80 ≤ p2.val ∧ p2.val ≤ 0xBF
        · have hq2 : ¬ (p2.val < 0x80 ∨ 0xBF < p2.val) := by omega
          simp [hp, hl, hp2, hq, hq2]
        · have hq2 : (p2.val < 0x80 ∨ 0xBF < p2.val) := by omega
          have hq3 : ¬ (0xA0 ≤ p1.val ∧ p1.val ≤ 0xBF ∧ 0x80 ≤ p2.val ∧ p2.val ≤ 0xBF) := by
            omega
          simp [hl, hp2, hq2, hq3]
      · have hp2 : (p1.val < 0xA0 ∨ 0xBF < p1.val) := by omega
        have hq3 : ¬ (0xA0 ≤ p1.val ∧ p1.val ≤ 0xBF ∧ 0x80 ≤ p2.val ∧ p2.val ≤ 0xBF) := by
          omega
        simp [hl, hp2, hq3]
    · simp only [utf8.DecodeRune, hf, utf8.acceptRanges, List.length_cons, List.getD_cons_zero,
        List.getD_cons_succ, he, hd, if_true, if_false]
      by_cases hp : 0x80 ≤ p1.val ∧ p1.val ≤ 0xBF
      · have hp2 : ¬ (p1.val < 0x80 ∨ 0xBF < p1.val) := by omega
        by_cases hq : 0x80 ≤ p2.val ∧ p2.val ≤ 0xBF
        · have hq2 : ¬ (p2.val < 0x80 ∨ 0xBF < p2.val) := by omega
          simp [hp, hl, hp2, hq, hq2]
        · have hq2 : (p2.val < 0x80 ∨ 0xBF < p2.val) := by omega
          have hq3 : ¬ (0x80 ≤ p1.val ∧ p1.val ≤ 0xBF ∧ 0x80 ≤ p2.val ∧ p2.val ≤ 0xBF) := by
            omega
          simp [hl, hp2, hq2, hq3]
      · have hp2 : (p1.val < 0x80 ∨ 0xBF < p1.val) := by omega
        have hq3 : ¬ (0x80 ≤ p1.val ∧ p1.val ≤ 0xBF ∧ 0x80 ≤ p2.val ∧ p2.val ≤ 0xBF) := by
          omega
        simp [hl, hp2, hq3]
    · have he : ¬ p0.val = 0xE0 := by omega
      simp only [utf8.DecodeRune, hf, utf8.acceptRanges, List.length_cons, List.getD_cons_zero,
        List.getD_cons_succ]
      simp only [he, hd, if_true, if_false]
      by_cases hp : 0x80 ≤ p1.val ∧ p1.val ≤ 0x9F
      · have hp2 : ¬ (p1.val < 0x80 ∨ 0x9F < p1.val) := by omega
        by_cases hq : 0x80 ≤ p2.val ∧ p2.val ≤ 0xBF
        · have hq2 : ¬ (p2.val < 0x80 ∨ 0xBF < p2.val) := by omega
          simp [hp, hl, hp2, hq, hq2]
        · have hq2 : (p2.val < 0x80 ∨ 0xBF < p2.val) := by omega
          have hq3 : ¬ (0x80 ≤ p1.val ∧ p1.val ≤ 0x9F ∧ 0x80 ≤ p2.val ∧ p2.val ≤ 0xBF) := by
            omega
          simp [hl, hp2, hq2, hq3]
      · have hp2 : (p1.val < 0x80 ∨ 0x9F < p1.val) := by omega
        have hq3 : ¬ (0x80 ≤ p1.val ∧ p1.val ≤ 0x9F ∧ 0x80 ≤ p2.val ∧ p2.val ≤ 0xBF) := by
          omega
        simp [hl, hp2, hq3]

theorem DecodeRune_four (p0 : Fin 256) (rest : GoString)
    (h1 : 0xF0 ≤ p0.val) (h2 : p0.val ≤ 0xF4) :
    utf8.DecodeRune (p0 :: rest) =
      match rest with
      | p1 :: p2 :: p3 :: _ =>
        if (if p0.val = 0xF0 then 0x90 else 0x80) ≤ p1.val ∧
            p1.val ≤ (if p0.val = 0xF4 then 0x8F else 0xBF) ∧
            0x80 ≤ p2.val ∧ p2.val ≤ 0xBF ∧ 0x80 ≤ p3.val ∧ p3.val ≤ 0xBF then
          (p0.val % 8 * 262144 + p1.val % 64 * 4096 + p2.val % 64 * 64 + p3.val % 64, 4)
        else (utf8.RuneError, 1)
      | _ => (utf8.RuneError, 1) := by
  have hf : (p0.val = 0xF0 ∧ utf8.first p0.val = 0x34) ∨
      (p0.val ≠ 0xF0 ∧ p0.val ≠ 0xF4 ∧ utf8.first p0.val = 0x04) ∨
      (p0.val = 0xF4 ∧ utf8.first p0.val = 0x44) := by
    rcases first_cases p0 (by omega) with h | h | h | h | h | h | h | h <;> omega
  rcases rest with _ | ⟨p1, _ | ⟨p2, _ | ⟨p3, r⟩⟩⟩
  · rcases hf with ⟨_, hf⟩ | ⟨_, _, hf⟩ | ⟨_, hf⟩ <;> simp [utf8.DecodeRune, hf]
  · rcases hf with ⟨_, hf⟩ | ⟨_, _, hf⟩ | ⟨_, hf⟩ <;> simp [utf8.DecodeRune, hf]
  · rcases hf with ⟨_, hf⟩ | ⟨_, _, hf⟩ | ⟨_, hf⟩ <;> simp [utf8.DecodeRune, hf]
  · have hl : ¬ (r.length + 1 + 1 + 1 + 1 < 4) := by omega
    rcases hf with ⟨he, hf⟩ | ⟨he, hd, hf⟩ | ⟨hd, hf⟩
    · have hd : ¬ p0.val = 0xF4 := by omega
      simp only [utf8.DecodeRune, hf, utf8.acceptRanges, List.length_cons, List.getD_cons_zero,
        List.getD_cons_succ]
      simp only [he, hd, if_true, if_false]
      by_cases hp : 0x90 ≤ p1.val ∧ p1.val ≤ 0xBF
      · have hp2 : ¬ (p1.val < 0x90 ∨ 0xBF < p1.val) := by omega
        by_cases hq : 0x80 ≤ p2.val ∧ p2.val ≤ 0xBF
        · have hq2 : ¬ (p2.val < 0x80 ∨ 0xBF < p2.val) := by omega
          by_cases hr : 0x80 ≤ p3.val ∧ p3.val ≤ 0xBF
          · have hr2 : ¬ (p3.val < 0x80 ∨ 0xBF < p3.val) := by omega
            simp [hp, hl, hp2, hq, hq2, hr, hr2]
          · have hr2 : (p3.val < 0x80 ∨ 0xBF < p3.val) := by omega
            have hq3 : ¬ (0x90 ≤ p1.val ∧ p1.val ≤ 0xBF ∧ 0x80 ≤ p2.val ∧ p2.val ≤ 0xBF ∧ 0x80 ≤ p3.val ∧ p3.val ≤ 0xBF) := by
              omega
            simp [hl, hp2, hq2, hr2, hq3]
        · have hq2 : (p2.val < 0x80 ∨ 0xBF < p2.val) := by omega
          have hq3 : ¬ (0x90 ≤ p1.val ∧ p1.val ≤ 0xBF ∧ 0x80 ≤ p2.val ∧ p2.val ≤ 0xBF ∧ 0x80 ≤ p3.val ∧ p3.val ≤ 0xBF) := by
            omega
          simp [hl, hp2, hq2, hq3]
      · have hp2 : (p1.val < 0x90 ∨ 0xBF < p1.val) := by omega
        have hq3 : ¬ (0x90 ≤ p1.val ∧ p1.val ≤ 0xBF ∧ 0x80 ≤ p2.val ∧ p2.val ≤ 0xBF ∧ 0x80 ≤ p3.val ∧ p3.val ≤ 0xBF) := by
          omega
        simp [hl, hp2, hq3]
    · have hl2 := hl
      simp only [utf8.DecodeRune, hf, utf8.acceptRanges, List.length_cons, List.getD_cons_zero,
        List.getD_cons_succ]
      simp only [he, hd, if_true, if_false]
      by_cases hp : 0x80 ≤ p1.val ∧ p1.val ≤ 0xBF
      · have hp2 : ¬ (p1.val < 0x80 ∨ 0xBF < p1.val) := by omega
        by_cases hq : 0x80 ≤ p2.val ∧ p2.val ≤ 0xBF
        · have hq2 : ¬ (p2.val < 0x80 ∨ 0xBF < p2.val) := by omega
          by_cases hr : 0x80 ≤ p3.val ∧ p3.val ≤ 0xBF
          · have hr2 : ¬ (p3.val < 0x80 ∨ 0xBF < p3.val) := by omega
            simp [hp, hl, hp2, hq, hq2, hr, hr2]
          · have hr2 : (p3.val < 0x80 ∨ 0xBF < p3.val) := by omega
            have hq3 : ¬ (0x80 ≤ p1.val ∧ p1.val ≤ 0xBF ∧ 0x80 ≤ p2.val ∧ p2.val ≤ 0xBF ∧ 0x80 ≤ p3.val ∧ p3.val ≤ 0xBF) := by
              omega
            simp [hl, hp2, hq2, hr2, hq3]
        · have hq2 : (p2.val < 0x80 ∨ 0xBF < p2.val) := by omega
          have hq3 : ¬ (0x80 ≤ p1.val ∧ p1.val ≤ 0xBF ∧ 0x80 ≤ p2.val ∧ p2.val ≤ 0xBF ∧ 0x80 ≤ p3.val ∧ p3.val ≤ 0xBF) := by
            omega
          simp [hl, hp2, hq2, hq3]
      · have hp2 : (p1.val < 0x80 ∨ 0xBF < p1.val) := by omega
        have hq3 : ¬ (0x80 ≤ p1.val ∧ p1.val ≤ 0xBF ∧ 0x80 ≤ p2.val ∧ p2.val ≤ 0xBF ∧ 0x80 ≤ p3.val ∧ p3.val ≤ 0xBF) := by
          omega
        simp [hl, hp2, hq3]
    · have he : ¬ p0.val = 0xF0 := by omega
      simp only [utf8.DecodeRune, hf, utf8.acceptRanges, List.length_cons, List.getD_cons_zero,
        List.getD_cons_succ]
      simp only [he, hd, if_true, if_false]
      by_cases hp : 0x80 ≤ p1.val ∧ p1.val ≤ 0x8F
      · have hp2 : ¬ (p1.val < 0x80 ∨ 0x8F < p1.val) := by omega
        by_cases hq : 0x80 ≤ p2.val ∧ p2.val ≤ 0xBF
        · have hq2 : ¬ (p2.val < 0x80 ∨ 0xBF < p2.val) := by omega
          by_cases hr : 0x80 ≤ p3.val ∧ p3.val ≤ 0xBF
          · have hr2 : ¬ (p3.val < 0x80 ∨ 0xBF < p3.val) := by omega
            simp [hp, hl, hp2, hq, hq2, hr, hr2]
          · have hr2 : (p3.val < 0x80 ∨ 0xBF < p3.val) := by omega
            have hq3 : ¬ (0x80 ≤ p1.val ∧ p1.val ≤ 0x8F ∧ 0x80 ≤ p2.val ∧ p2.val ≤ 0xBF ∧ 0x80 ≤ p3.val ∧ p3.val ≤ 0xBF) := by
              omega
            simp [hl, hp2, hq2, hr2, hq3]
        · have hq2 : (p2.val < 0x80 ∨ 0xBF < p2.val) := by omega
          have hq3 : ¬ (0x80 ≤ p1.val ∧ p1.val ≤ 0x8F ∧ 0x80 ≤ p2.val ∧ p2.val ≤ 0xBF ∧ 0x80 ≤ p3.val ∧ p3.val ≤ 0xBF) := by
            omega
          simp [hl, hp2, hq2, hq3]
      · have hp2 : (p1.val < 0x80 ∨ 0x8F < p1.val) := by omega
        have hq3 : ¬ (0x80 ≤ p1.val ∧ p1.val ≤ 0x8F ∧ 0x80 ≤ p2.val ∧ p2.val ≤ 0xBF ∧ 0x80 ≤ p3.val ∧ p3.val ≤ 0xBF) := by
          omega
        simp [hl, hp2, hq3]


theorem EncodeRune_two (p0 p1 : Fin 256) (h1 : 0xC2 ≤ p0.val) (h2 : p0.val < 0xE0)
    (h3 : 0x80 ≤ p1.val) (h4 : p1.val ≤ 0xBF) :
    utf8.EncodeRune (p0.val % 32 * 64 + p1.val % 64) = [p0, p1] := by
  have c1 : ¬ (p0.val % 32 * 64 + p1.val % 64 ≤ 0x7F) := by omega
  have c2 : p0.val % 32 * 64 + p1.val % 64 ≤ 0x7FF := by omega
  simp only [utf8.EncodeRune, c1, c2, if_true, if_false]
  rw [ofNat_val p0 _ (by omega), ofNat_val p1 _ (by omega)]

theorem EncodeRune_three (p0 p1 p2 : Fin 256) (h1 : 0xE0 ≤ p0.val) (h2 : p0.val < 0xF0)
    (h3 : (if p0.val = 0xE0 then 0xA0 else 0x80) ≤ p1.val)
    (h4 : p1.val ≤ (if p0.val = 0xED then 0x9F else 0xBF))
    (h5 : 0x80 ≤ p2.val) (h6 : p2.val ≤ 0xBF) :
    utf8.EncodeRune (p0.val % 16 * 4096 + p1.val % 64 * 64 + p2.val % 64) = [p0, p1, p2] := by
  have h3b : 0x80 ≤ p1.val := by split_ifs at h3 <;> omega
  have h4b : p1.val ≤ 0xBF := by split_ifs at h4 <;> omega
  have h3c : p0.val = 0xE0 → 0xA0 ≤ p1.val := by intro h; simpa [h] using h3
  have h4c : p0.val = 0xED → p1.val ≤ 0x9F := by intro h; simpa [h] using h4
  have c1 : ¬ (p0.val % 16 * 4096 + p1.val % 64 * 64 + p2.val % 64 ≤ 0x7F) := by omega
  have c2 : ¬ (p0.val % 16 * 4096 + p1.val % 64 * 64 + p2.val % 64 ≤ 0x7FF) := by omega
  have c3 : ¬ (p0.val % 16 * 4096 + p1.val % 64 * 64 + p2.val % 64 > 0x10FFFF ∨
      (0xD800 ≤ p0.val % 16 * 4096 + p1.val % 64 * 64 + p2.val % 64 ∧
        p0.val % 16 * 4096 + p1.val % 64 * 64 + p2.val % 64 ≤ 0xDFFF)) := by omega
  have c4 : p0.val % 16 * 4096 + p1.val % 64 * 64 + p2.val % 64 ≤ 0xFFFF := by omega
  simp only [utf8.EncodeRune, c1, c2, c3, c4, if_true, if_false]
  rw [ofNat_val p0 _ (by omega), ofNat_val p1 _ (by omega), ofNat_val p2 _ (by omega)]

theorem EncodeRune_four (p0 p1 p2 p3 : Fin 256) (h1 : 0xF0 ≤ p0.val) (h2 : p0.val ≤ 0xF4)
    (h3 : (if p0.val = 0xF0 then 0x90 else 0x80) ≤ p1.val)
    (h4 : p1.val ≤ (if p0.val = 0xF4 then 0x8F else 0xBF))
    (h5 : 0x80 ≤ p2.val) (h6 : p2.val ≤ 0xBF) (h7 : 0x80 ≤ p3.val) (h8 : p3.val ≤ 0xBF) :
    utf8.EncodeRune
      (p0.val % 8 * 262144 + p1.val % 64 * 4096 + p2.val % 64 * 64 + p3.val % 64) =
      [p0, p1, p2, p3] := by
  have h3b : 0x80 ≤ p1.val := by split_ifs at h3 <;> omega
  have h4b : p1.val ≤ 0xBF := by split_ifs at h4 <;> omega
  have h3c : p0.val = 0xF0 → 0x90 ≤ p1.val := by intro h; simpa [h] using h3
  have h4c : p0.val = 0xF4 → p1.val ≤ 0x8F := by intro h; simpa [h] using h4
  generalize hc : p0.val % 8 * 262144 + p1.val % 64 * 4096 + p2.val % 64 * 64 + p3.val % 64 = c
  have c1 : ¬ (c ≤ 0x7F) := by omega
  have c2 : ¬ (c ≤ 0x7FF) := by omega
  have c3 : ¬ (c > 0x10FFFF ∨ (0xD800 ≤ c ∧ c ≤ 0xDFFF)) := by omega
  have c4 : ¬ (c ≤ 0xFFFF) := by omega
  simp only [utf8.EncodeRune, c1, c2, c3, c4, if_true, if_false]
  rw [ofNat_val p0 _ (by omega), ofNat_val p1 _ (by omega), ofNat_val p2 _ (by omega),
    ofNat_val p3 _ (by omega)]


/-- What `DecodeRune` returns on a string that starts with a non-ASCII byte:
either the invalid marker, or a rune of width `n ≥ 2` whose encoding is the
first `n` bytes, which alone determine the result. -/
theorem DecodeRune_multibyte (p0 : Fin 256) (rest : GoString) (h : 0x80 ≤ p0.val) :
    utf8.DecodeRune (p0 :: rest) = (utf8.RuneError, 1) ∨
    ∃ n : Nat, 2 ≤ n ∧ n ≤ (p0 :: rest).length ∧
      (utf8.DecodeRune (p0 :: rest)).2 = n ∧
      utf8.EncodeRune (utf8.DecodeRune (p0 :: rest)).1 = (p0 :: rest).take n ∧
      (∀ X : GoString,
        utf8.DecodeRune ((p0 :: rest).take n ++ X) = utf8.DecodeRune (p0 :: rest)) := by
  by_cases hinv : p0.val < 0xC2 ∨ 0xF4 < p0.val
  · exact Or.inl (DecodeRune_invalid p0 rest h hinv)
  by_cases h2 : p0.val < 0xE0
  · have hlo : 0xC2 ≤ p0.val := by omega
    rcases rest with _ | ⟨p1, r⟩
    · left; rw [DecodeRune_two p0 _ hlo h2]
    · by_cases hc : 0x80 ≤ p1.val ∧ p1.val ≤ 0xBF
      · right
        have hd : utf8.DecodeRune (p0 :: p1 :: r) = (p0.val % 32 * 64 + p1.val % 64, 2) := by
          rw [DecodeRune_two p0 _ hlo h2]; simp [hc]
        refine ⟨2, by omega, by simp, by rw [hd], ?_, ?_⟩
        · rw [hd]
          simp only [List.take_succ_cons, List.take_zero]
          exact EncodeRune_two p0 p1 hlo h2 hc.1 hc.2
        · intro X
          rw [hd]
          simp only [List.take_succ_cons, List.take_zero, List.cons_append, List.nil_append]
          rw [DecodeRune_two p0 _ hlo h2]; simp [hc]
      · left; rw [DecodeRune_two p0 _ hlo h2]; simp [hc]
  by_cases h3 : p0.val < 0xF0
  · have hlo : 0xE0 ≤ p0.val := by omega
    rcases rest with _ | ⟨p1, _ | ⟨p2, r⟩⟩
    · left; rw [DecodeRune_three p0 _ hlo h3]
    · left; rw [DecodeRune_three p0 _ hlo h3]
    · by_cases hc : (if p0.val = 0xE0 then 0xA0 else 0x80) ≤ p1.val ∧
          p1.val ≤ (if p0.val = 0xED then 0x9F else 0xBF) ∧ 0x80 ≤ p2.val ∧ p2.val ≤ 0xBF
      · right
        have hd : utf8.DecodeRune (p0 :: p1 :: p2 :: r) =
            (p0.val % 16 * 4096 + p1.val % 64 * 64 + p2.val % 64, 3) := by
          rw [DecodeRune_three p0 _ hlo h3]; simp only [hc, and_self, if_true]
        refine ⟨3, by omega, by simp, by rw [hd], ?_, ?_⟩
        · rw [hd]
          simp only [List.take_succ_cons, List.take_zero]
          exact EncodeRune_three p0 p1 p2 hlo h3 hc.1 hc.2.1 hc.2.2.1 hc.2.2.2
        · intro X
          rw [hd]
          simp only [List.take_succ_cons, List.take_zero, List.cons_append, List.nil_append]
          rw [DecodeRune_three p0 _ hlo h3]; simp only [hc, and_self, if_true]
      · left; rw [DecodeRune_three p0 _ hlo h3]; simp only [hc, if_false]
  · have hlo : 0xF0 ≤ p0.val := by omega
    have hhi : p0.val ≤ 0xF4 := by omega
    rcases rest with _ | ⟨p1, _ | ⟨p2, _ | ⟨p3, r⟩⟩⟩
    · left; rw [DecodeRune_four p0 _ hlo hhi]
    · left; rw [DecodeRune_four p0 _ hlo hhi]
    · left; rw [DecodeRune_four p0 _ hlo hhi]
    · by_cases hc : (if p0.val = 0xF0 then 0x90 else 0x80) ≤ p1.val ∧
          p1.val ≤ (if p0.val = 0xF4 then 0x8F else 0xBF) ∧ 0x80 ≤ p2.val ∧ p2.val ≤ 0xBF ∧
          0x80 ≤ p3.val ∧ p3.val ≤ 0xBF
      · right
        have hd : utf8.DecodeRune (p0 :: p1 :: p2 :: p3 :: r) =
            (p0.val % 8 * 262144 + p1.val % 64 * 4096 + p2.val % 64 * 64 + p3.val % 64, 4) := by
          rw [DecodeRune_four p0 _ hlo hhi]; simp only [hc, and_self, if_true]
        refine ⟨4, by omega, by simp, by rw [hd], ?_, ?_⟩
        · rw [hd]
          simp only [List.take_succ_cons, List.take_zero]
          exact EncodeRune_four p0 p1 p2 p3 hlo hhi hc.1 hc.2.1 hc.2.2.1 hc.2.2.2.1
            hc.2.2.2.2.1 hc.2.2.2.2.2
        · intro X
          rw [hd]
          simp only [List.take_succ_cons, List.take_zero, List.cons_append, List.nil_append]
          rw [DecodeRune_four p0 _ hlo hhi]; simp only [hc, and_self, if_true]
      · left; rw [DecodeRune_four p0 _ hlo hhi]; simp only [hc, if_false]


/-! ## JSON strings: decoding what `appendString` wrote -/

theorem hexValue_hex (n : Nat) (h : n < 16) : json.hexValue (json.hex n) = some n := by
  interval_cases n <;> rfl

theorem unquoteLoop_quote (f : Nat) (t : GoString) :
    json.unquoteLoop (f + 1) (34 :: t) = some ([], t) := by
  simp [json.unquoteLoop]

theorem unquoteLoop_safe (f : Nat) (c : Fin 256) (t : GoString)
    (hc : c.val < 0x80) (hs : json.htmlSafeSet c.val = true) :
    json.unquoteLoop (f + 1) (c :: t) = json.withPrefix [c] (json.unquoteLoop f t) := by
  simp only [json.htmlSafeSet, decide_eq_true_eq] at hs
  have h1 : ¬ c = 34 := by omega
  have h2 : ¬ c = 92 := by omega
  have h3 : ¬ c.val < 0x20 := by omega
  simp only [json.unquoteLoop, h1, h2, h3, hc, if_true, if_false]

theorem unquoteLoop_simple (f : Nat) (e b : Fin 256) (t : GoString)
    (he : e ≠ 117) (hb : json.simpleEscape e = some b) :
    json.unquoteLoop (f + 1) (92 :: e :: t) = json.withPrefix [b] (json.unquoteLoop f t) := by
  have h1 : ¬ (92 : Fin 256) = 34 := by decide
  simp only [json.unquoteLoop, h1, he, hb, if_true, if_false]

theorem unquoteLoop_u (f : Nat) (a b c d : Fin 256) (t : GoString) (r : Nat)
    (hr : json.getu4digits (a :: b :: c :: d :: t) = some r)
    (hs : ¬ (0xD800 ≤ r ∧ r < 0xE000)) :
    json.unquoteLoop (f + 1) (92 :: 117 :: a :: b :: c :: d :: t) =
      json.withPrefix (utf8.EncodeRune r) (json.unquoteLoop f t) := by
  have h1 : ¬ (92 : Fin 256) = 34 := by decide
  simp only [json.unquoteLoop, h1, hr, hs, if_true, if_false, List.drop_succ_cons, List.drop_zero]

theorem unquoteLoop_u00 (f : Nat) (b : Fin 256) (t : GoString) (hb : b.val < 0x80) :
    json.unquoteLoop (f + 1)
        (92 :: 117 :: 48 :: 48 :: json.hex (b.val / 16) :: json.hex (b.val % 16) :: t) =
      json.withPrefix [b] (json.unquoteLoop f t) := by
  have h0 : json.hexValue 48 = some 0 := by rfl
  have hr : json.getu4digits (48 :: 48 :: json.hex (b.val / 16) :: json.hex (b.val % 16) :: t) =
      some b.val := by
    simp only [json.getu4digits, h0, hexValue_hex (b.val / 16) (by omega),
      hexValue_hex (b.val % 16) (by omega)]
    congr 1
    omega
  rw [unquoteLoop_u f _ _ _ _ t b.val hr (by omega), EncodeRune_ascii b hb]

theorem unquoteLoop_u202 (f : Nat) (c : Nat) (t : GoString) (hc : c = 0x2028 ∨ c = 0x2029) :
    json.unquoteLoop (f + 1) (92 :: 117 :: 50 :: 48 :: 50 :: json.hex (c % 16) :: t) =
      json.withPrefix (utf8.EncodeRune c) (json.unquoteLoop f t) := by
  rcases hc with rfl | rfl
  · exact unquoteLoop_u f _ _ _ _ t 0x2028 (by rfl) (by omega)
  · exact unquoteLoop_u f _ _ _ _ t 0x2029 (by rfl) (by omega)

theorem unquoteLoop_escapeByte (f : Nat) (b : Fin 256) (t : GoString)
    (hb : b.val < 0x80) :
    json.unquoteLoop (f + 1) (json.escapeByte b ++ t) =
      json.withPrefix [b] (json.unquoteLoop f t) := by
  unfold json.escapeByte
  by_cases h1 : b = 92 ∨ b = 34
  · rw [if_pos h1]
    rcases h1 with rfl | rfl
    · exact unquoteLoop_simple f 92 92 t (by decide) (by rfl)
    · exact unquoteLoop_simple f 34 34 t (by decide) (by rfl)
  rw [if_neg h1]
  by_cases h2 : b = 8
  · rw [if_pos h2]; subst h2; exact unquoteLoop_simple f 98 8 t (by decide) (by rfl)
  rw [if_neg h2]
  by_cases h3 : b = 12
  · rw [if_pos h3]; subst h3; exact unquoteLoop_simple f 102 12 t (by decide) (by rfl)
  rw [if_neg h3]
  by_cases h4 : b = 10
  · rw [if_pos h4]; subst h4; exact unquoteLoop_simple f 110 10 t (by decide) (by rfl)
  rw [if_neg h4]
  by_cases h5 : b = 13
  · rw [if_pos h5]; subst h5; exact unquoteLoop_simple f 114 13 t (by decide) (by rfl)
  rw [if_neg h5]
  by_cases h6 : b = 9
  · rw [if_pos h6]; subst h6; exact unquoteLoop_simple f 116 9 t (by decide) (by rfl)
  rw [if_neg h6]
  exact unquoteLoop_u00 f b t hb

theorem escapeByte_length (b : Fin 256) : 1 ≤ (json.escapeByte b).length := by
  unfold json.escapeByte
  split_ifs <;> simp

theorem unquoteLoop_multibyte (f : Nat) (p0 : Fin 256) (rest : GoString) (h : 0x80 ≤ p0.val) :
    json.unquoteLoop (f + 1) (p0 :: rest) =
      json.withPrefix (utf8.EncodeRune (utf8.DecodeRune (p0 :: rest)).1)
        (json.unquoteLoop f ((p0 :: rest).drop (utf8.DecodeRune (p0 :: rest)).2)) := by
  have h1 : ¬ p0 = 34 := by omega
  have h2 : ¬ p0 = 92 := by omega
  have h3 : ¬ p0.val < 0x20 := by omega
  have h4 : ¬ p0.val < 0x80 := by omega
  simp only [json.unquoteLoop, h1, h2, h3, h4, if_false]


theorem withPrefix_some (pre s rest : GoString) :
    json.withPrefix pre (some (s, rest)) = some (pre ++ s, rest) := rfl

/-- The string reader, run on what the loop of `appendString` wrote for a
well-formed UTF-8 string and a closing quote, returns that string. -/
theorem unquoteLoop_appendStringLoop :
    ∀ (n : Nat) (s : GoString), s.length ≤ n → utf8.validLoop n s = true →
      ∀ (f : Nat) (rest : GoString), (json.appendStringLoop n s).length < f →
        json.unquoteLoop f (json.appendStringLoop n s ++ 34 :: rest) = some (s, rest) := by
  intro n
  induction n with
  | zero =>
    intro s hs _ f rest hf
    have : s = [] := List.length_eq_zero.1 (by omega)
    subst this
    obtain ⟨f, rfl⟩ : ∃ g, f = g + 1 := ⟨f - 1, by omega⟩
    simp [json.appendStringLoop, unquoteLoop_quote]
  | succ n ih =>
    intro s hs hv f rest hf
    cases s with
    | nil =>
      obtain ⟨f, rfl⟩ : ∃ g, f = g + 1 := ⟨f - 1, by omega⟩
      simp [json.appendStringLoop, unquoteLoop_quote]
    | cons b t =>
      obtain ⟨f, rfl⟩ : ∃ g, f = g + 1 := ⟨f - 1, by omega⟩
      have hlen : t.length ≤ n := by simpa using hs
      by_cases hb : b.val < 0x80
      · -- an ASCII byte
        have hvt : utf8.validLoop n t = true := by
          have hne : ¬ (b.val = utf8.RuneError ∧ True) := by
            simp only [utf8.RuneError]; omega
          simpa [utf8.validLoop, DecodeRune_ascii b t hb, hne] using hv
        by_cases hsafe : json.htmlSafeSet b.val = true
        · have hout : json.appendStringLoop (n + 1) (b :: t) = b :: json.appendStringLoop n t := by
            simp [json.appendStringLoop, hb, hsafe]
          rw [hout] at hf ⊢
          rw [List.cons_append, unquoteLoop_safe f b _ hb hsafe,
            ih t hlen hvt f rest (by simpa using hf), withPrefix_some]
          rfl
        · have hout : json.appendStringLoop (n + 1) (b :: t) =
              json.escapeByte b ++ json.appendStringLoop n t := by
            simp [json.appendStringLoop, hb, hsafe]
          rw [hout] at hf ⊢
          have hl := escapeByte_length b
          rw [List.append_assoc, unquoteLoop_escapeByte f b _ hb,
            ih t hlen hvt f rest (by simp at hf; omega), withPrefix_some]
          rfl
      · -- the first byte of a multi-byte sequence
        rcases DecodeRune_multibyte b t (by omega) with hd | ⟨k, hk2, hkl, hd2, henc, hX⟩
        · simp [utf8.validLoop, hd] at hv
        · have hnot : ¬ ((utf8.DecodeRune (b :: t)).1 = utf8.RuneError ∧
              (utf8.DecodeRune (b :: t)).2 = 1) := by
            rw [hd2]; omega
          have hnot2 : ¬ ((utf8.DecodeRune (b :: t)).1 = utf8.RuneError ∧ k = 1) := by omega
          have hvt : utf8.validLoop n ((b :: t).drop k) = true := by
            have := hv
            simp only [utf8.validLoop, List.isEmpty_cons, Bool.false_eq_true, if_false, hnot] at this
            rwa [hd2] at this
          have hlen2 : ((b :: t).drop k).length ≤ n := by
            simp only [List.length_drop, List.length_cons] at hkl ⊢
            omega
          have htake : (b :: t).take k = b :: t.take (k - 1) := by
            obtain ⟨j, rfl⟩ : ∃ j, k = j + 1 := ⟨k - 1, by omega⟩
            simp
          by_cases hsep : (utf8.DecodeRune (b :: t)).1 = 0x2028 ∨
              (utf8.DecodeRune (b :: t)).1 = 0x2029
          · have hout : json.appendStringLoop (n + 1) (b :: t) =
                [92, 117, 50, 48, 50, json.hex ((utf8.DecodeRune (b :: t)).1 % 16)] ++
                  json.appendStringLoop n ((b :: t).drop k) := by
              simp only [json.appendStringLoop, hb, if_false, hd2, hnot2, hsep, if_true]
            rw [hout] at hf ⊢
            simp only [List.cons_append, List.nil_append]
            rw [unquoteLoop_u202 f _ _ hsep,
              ih _ hlen2 hvt f rest (by simp at hf; omega), withPrefix_some, henc,
              List.take_append_drop]
          · have hout : json.appendStringLoop (n + 1) (b :: t) =
                (b :: t).take k ++ json.appendStringLoop n ((b :: t).drop k) := by
              simp only [json.appendStringLoop, hb, if_false, hd2, hnot2, hsep]
            rw [hout] at hf ⊢
            have hf2 : (json.appendStringLoop n ((b :: t).drop k)).length < f := by
              rw [htake] at hf
              simp at hf
              omega
            have hdec := hX (json.appendStringLoop n ((b :: t).drop k) ++ 34 :: rest)
            rw [List.append_assoc]
            rw [htake] at hdec ⊢
            rw [List.cons_append, unquoteLoop_multibyte f b _ (by omega)]
            rw [List.cons_append] at hdec
            rw [hdec, hd2, henc]
            have hdrop : List.drop k (b :: (List.take (k - 1) t ++
                (json.appendStringLoop n ((b :: t).drop k) ++ 34 :: rest))) =
                json.appendStringLoop n ((b :: t).drop k) ++ 34 :: rest := by
              rw [← List.cons_append, ← htake]
              apply List.drop_left'
              simp only [List.length_take, List.length_cons] at hkl ⊢
              omega
            rw [hdrop, ih _ hlen2 hvt f rest hf2, withPrefix_some, List.take_append_drop]

/-- Reading the string literal that `appendString` wrote for a well-formed
UTF-8 string gives the string back. -/
theorem parseString_appendString (s rest : GoString) (hv : utf8.ValidString s = true) :
    json.parseString (json.appendStringLoop s.length s ++ 34 :: rest) = some (s, rest) := by
  unfold json.parseString
  apply unquoteLoop_appendStringLoop s.length s (le_refl _) hv
  simp only [List.length_append, List.length_cons]
  omega


/-! ## JSON values: parsing what `Marshal` wrote -/

theorem skipSpace_cons (c : Fin 256) (t : GoString) (h : json.isSpace c = false) :
    json.skipSpace (c :: t) = c :: t := by
  simp [json.skipSpace, List.dropWhile, h]

theorem appendString_append (s rest : GoString) :
    json.appendString s ++ rest = 34 :: (json.appendStringLoop s.length s ++ 34 :: rest) := by
  simp [json.appendString]

theorem parseValue_appendString (f d : Nat) (s rest : GoString) (hf : 1 ≤ f)
    (hv : utf8.ValidString s = true) :
    json.parseValue f d (json.appendString s ++ rest) = some (.string s, rest) := by
  obtain ⟨f, rfl⟩ : ∃ g, f = g + 1 := ⟨f - 1, by omega⟩
  rw [appendString_append, json.parseValue, skipSpace_cons _ _ (by rfl)]
  have h1 : ¬ (34 : Fin 256) = 123 := by decide
  have h2 : ¬ (34 : Fin 256) = 91 := by decide
  simp only [h1, h2, if_false, if_true, parseString_appendString s rest hv, Option.map_some']

theorem appendElems_cons_cons (s s2 : GoString) (l : List GoString) :
    json.appendElems (s :: s2 :: l) =
      json.appendString s ++ 44 :: json.appendElems (s2 :: l) := by
  simp [json.appendElems]

theorem parseElems_appendElems (d : Nat) (l : List GoString) :
    ∀ (s : GoString) (f : Nat) (rest : GoString), (s :: l).length + 1 ≤ f →
      (∀ e ∈ s :: l, utf8.ValidString e = true) →
      json.parseElems f d (json.appendElems (s :: l) ++ 93 :: rest) =
        some ((s :: l).map json.JValue.string, rest) := by
  induction l with
  | nil =>
    intro s f rest hf hv
    obtain ⟨f, rfl⟩ : ∃ g, f = g + 1 := ⟨f - 1, by omega⟩
    have hf2 : 1 ≤ f := by simp at hf; omega
    have h1 : ¬ (93 : Fin 256) = 44 := by decide
    simp only [json.appendElems, json.parseElems,
      parseValue_appendString f d s _ hf2 (hv s (by simp)),
      skipSpace_cons _ _ (show json.isSpace 93 = false by rfl), h1, if_false, if_true,
      List.map_cons, List.map_nil]
  | cons s2 l ih =>
    intro s f rest hf hv
    obtain ⟨f, rfl⟩ : ∃ g, f = g + 1 := ⟨f - 1, by omega⟩
    have hf2 : 1 ≤ f := by simp at hf; omega
    have hf3 : (s2 :: l).length + 1 ≤ f := by simp at hf ⊢; omega
    rw [appendElems_cons_cons, List.append_assoc, json.parseElems,
      parseValue_appendString f d s _ hf2 (hv s (by simp))]
    simp only [List.cons_append, skipSpace_cons _ _ (show json.isSpace 44 = false by rfl),
      if_true]
    rw [ih s2 f rest hf3 (fun e he => hv e (List.mem_cons_of_mem _ he))]
    simp

/-- The elements of a non-empty array start with a quote. -/
theorem appendElems_head (s : GoString) (l : List GoString) :
    ∃ tl : GoString, json.appendElems (s :: l) = 34 :: tl := by
  cases l with
  | nil =>
    exact ⟨json.appendStringLoop s.length s ++ [34], by
      simp [json.appendElems, json.appendString]⟩
  | cons s2 l =>
    exact ⟨json.appendStringLoop s.length s ++ 34 :: 44 :: json.appendElems (s2 :: l), by
      rw [appendElems_cons_cons]; simp [json.appendString]⟩

theorem parseValue_appendSlice (f d : Nat) (x : Option (List GoString)) (rest : GoString)
    (hf : (x.getD []).length + 2 ≤ f) (hd : d + 1 ≤ json.maxNestingDepth)
    (hv : ∀ e ∈ x.getD [], utf8.ValidString e = true) :
    json.parseValue f d (json.appendSlice x ++ rest) =
      some (json.sliceValue x, rest) := by
  obtain ⟨f, rfl⟩ : ∃ g, f = g + 1 := ⟨f - 1, by omega⟩
  have hdepth : ¬ (d + 1 > json.maxNestingDepth) := by omega
  cases x with
  | none =>
    have h1 : ¬ (110 : Fin 256) = 123 := by decide
    have h2 : ¬ (110 : Fin 256) = 91 := by decide
    have h3 : ¬ (110 : Fin 256) = 34 := by decide
    have h4 : ¬ ((110 : Fin 256) = 45 ∨ json.isDigit 110 = true) := by decide
    have h5 : ¬ (110 : Fin 256) = 116 := by decide
    have h6 : ¬ (110 : Fin 256) = 102 := by decide
    simp only [json.appendSlice, List.cons_append, List.nil_append, json.parseValue,
      skipSpace_cons _ _ (show json.isSpace 110 = false by rfl), h1, h2, h3, h4, h5, h6,
      if_false, if_true, json.scanLiteral, json.sliceValue]
    simp
  | some l =>
    have h1 : ¬ (91 : Fin 256) = 123 := by decide
    cases l with
    | nil =>
      simp only [json.appendSlice, json.appendElems, List.cons_append, List.nil_append,
        List.append_nil, json.parseValue,
        skipSpace_cons _ _ (show json.isSpace 91 = false by rfl),
        skipSpace_cons _ _ (show json.isSpace 93 = false by rfl), h1, hdepth,
        if_false, if_true, List.map_nil, json.sliceValue]
    | cons s l =>
      obtain ⟨tl, htl⟩ := appendElems_head s l
      have hf2 : (s :: l).length + 1 ≤ f := by simp at hf ⊢; omega
      have hp := parseElems_appendElems (d + 1) l s f rest hf2 hv
      rw [htl, List.cons_append] at hp
      have h2 : ¬ (34 : Fin 256) = 93 := by decide
      simp only [json.appendSlice, htl, List.cons_append, List.nil_append, List.append_assoc,
        json.parseValue, skipSpace_cons _ _ (show json.isSpace 91 = false by rfl),
        skipSpace_cons _ _ (show json.isSpace 34 = false by rfl), h1, h2, hdepth,
        if_false, if_true, hp, Option.map_some', json.sliceValue]

theorem parseMembers_last (f d : Nat) (key vbytes rest : GoString) (v : json.JValue)
    (hk : utf8.ValidString key = true)
    (hv : json.parseValue f d (vbytes ++ 125 :: rest) = some (v, 125 :: rest)) :
    json.parseMembers (f + 1) d (json.appendString key ++ 58 :: (vbytes ++ 125 :: rest)) =
      some ([(key, v)], rest) := by
  have h1 : ¬ (125 : Fin 256) = 44 := by decide
  rw [appendString_append, json.parseMembers]
  simp only [if_true, parseString_appendString key _ hk,
    skipSpace_cons _ _ (show json.isSpace 58 = false by rfl), hv,
    skipSpace_cons _ _ (show json.isSpace 125 = false by rfl), h1, if_false]

theorem parseMembers_more (f d : Nat) (key vbytes tail : GoString) (v : json.JValue)
    (hk : utf8.ValidString key = true)
    (hv : json.parseValue f d (vbytes ++ 44 :: 34 :: tail) = some (v, 44 :: 34 :: tail)) :
    json.parseMembers (f + 1) d (json.appendString key ++ 58 :: (vbytes ++ 44 :: 34 :: tail)) =
      (json.parseMembers f d (34 :: tail)).map (fun r => ((key, v) :: r.1, r.2)) := by
  rw [appendString_append, json.parseMembers]
  simp only [if_true, parseString_appendString key _ hk,
    skipSpace_cons _ _ (show json.isSpace 58 = false by rfl), hv,
    skipSpace_cons _ _ (show json.isSpace 44 = false by rfl),
    skipSpace_cons _ _ (show json.isSpace 34 = false by rfl)]


/-- The text that `Marshal` writes, with the appends nested to the right. -/
theorem Marshal_eq (o : UpgradeOptions) :
    json.Marshal o =
      123 :: (json.appendString (str "Suite") ++ 58 :: (json.appendString o.Suite ++ 44 ::
        (json.appendString (str "ToImage") ++ 58 :: (json.appendString o.ToImage ++ 44 ::
        (json.appendString (str "JUnitDir") ++ 58 :: (json.appendString o.JUnitDir ++ 44 ::
        (json.appendString (str "TestOptions") ++ 58 ::
          (json.appendSlice o.TestOptions ++ 125 :: [])))))))) := by
  simp [json.Marshal]

theorem appendElems_length (l : List GoString) : l.length ≤ (json.appendElems l).length := by
  induction l with
  | nil => simp
  | cons s l ih =>
    cases l with
    | nil => simp [json.appendElems, json.appendString]
    | cons s2 l =>
      rw [appendElems_cons_cons]
      simp only [List.length_append, List.length_cons] at ih ⊢
      omega

theorem appendSlice_length (x : Option (List GoString)) :
    (x.getD []).length ≤ (json.appendSlice x).length := by
  cases x with
  | none => simp
  | some l =>
    have := appendElems_length l
    simp only [json.appendSlice, Option.getD_some, List.length_append, List.length_cons,
      List.length_nil]
    omega

theorem parseMembers_Marshal (f : Nat) (o : UpgradeOptions) (hv : o.Valid)
    (hf : (o.TestOptions.getD []).length + 6 ≤ f) :
    json.parseMembers f 1
      (json.appendString (str "Suite") ++ 58 :: (json.appendString o.Suite ++ 44 ::
        (json.appendString (str "ToImage") ++ 58 :: (json.appendString o.ToImage ++ 44 ::
        (json.appendString (str "JUnitDir") ++ 58 :: (json.appendString o.JUnitDir ++ 44 ::
        (json.appendString (str "TestOptions") ++ 58 ::
          (json.appendSlice o.TestOptions ++ 125 :: [])))))))) =
      some ([(str "Suite", json.JValue.string o.Suite),
             (str "ToImage", json.JValue.string o.ToImage),
             (str "JUnitDir", json.JValue.string o.JUnitDir),
             (str "TestOptions", json.sliceValue o.TestOptions)], []) := by
  obtain ⟨f, rfl⟩ : ∃ g, f = g + 4 := ⟨f - 4, by omega⟩
  obtain ⟨h1, h2, h3, h4⟩ := hv
  generalize hM4 : json.appendString (str "TestOptions") ++ 58 ::
    (json.appendSlice o.TestOptions ++ 125 :: []) = M4
  have hp4 : json.parseMembers (f + 1) 1 M4 = some ([(str "TestOptions", json.sliceValue o.TestOptions)], []) := by
    rw [← hM4]
    exact parseMembers_last f 1 _ _ [] _ (by decide)
      (parseValue_appendSlice f 1 o.TestOptions _ (by omega) (by decide) h4)
  obtain ⟨t4, ht4⟩ : ∃ t, M4 = 34 :: t := ⟨_, hM4 ▸ appendString_append _ _⟩
  generalize hM3 : json.appendString (str "JUnitDir") ++ 58 ::
    (json.appendString o.JUnitDir ++ 44 :: M4) = M3
  have hp3 : json.parseMembers (f + 2) 1 M3 =
      (json.parseMembers (f + 1) 1 M4).map
        (fun r => ((str "JUnitDir", json.JValue.string o.JUnitDir) :: r.1, r.2)) := by
    rw [← hM3, ht4]
    exact parseMembers_more (f + 1) 1 _ _ t4 _ (by decide)
      (parseValue_appendString (f + 1) 1 o.JUnitDir _ (by omega) h3)
  obtain ⟨t3, ht3⟩ : ∃ t, M3 = 34 :: t := ⟨_, hM3 ▸ appendString_append _ _⟩
  generalize hM2 : json.appendString (str "ToImage") ++ 58 ::
    (json.appendString o.ToImage ++ 44 :: M3) = M2
  have hp2 : json.parseMembers (f + 3) 1 M2 =
      (json.parseMembers (f + 2) 1 M3).map
        (fun r => ((str "ToImage", json.JValue.string o.ToImage) :: r.1, r.2)) := by
    rw [← hM2, ht3]
    exact parseMembers_more (f + 2) 1 _ _ t3 _ (by decide)
      (parseValue_appendString (f + 2) 1 o.ToImage _ (by omega) h2)
  obtain ⟨t2, ht2⟩ : ∃ t, M2 = 34 :: t := ⟨_, hM2 ▸ appendString_append _ _⟩
  have hp1 : json.parseMembers (f + 4) 1
      (json.appendString (str "Suite") ++ 58 :: (json.appendString o.Suite ++ 44 :: M2)) =
      (json.parseMembers (f + 3) 1 M2).map
        (fun r => ((str "Suite", json.JValue.string o.Suite) :: r.1, r.2)) := by
    rw [ht2]
    exact parseMembers_more (f + 3) 1 _ _ t2 _ (by decide)
      (parseValue_appendString (f + 3) 1 o.Suite _ (by omega) h1)
  rw [hp1, hp2, hp3, hp4]
  rfl

theorem parse_Marshal (o : UpgradeOptions) (hv : o.Valid) :
    json.parse (json.Marshal o) =
      some (json.JValue.object
        [(str "Suite", json.JValue.string o.Suite),
         (str "ToImage", json.JValue.string o.ToImage),
         (str "JUnitDir", json.JValue.string o.JUnitDir),
         (str "TestOptions", json.sliceValue o.TestOptions)]) := by
  have hlen : (o.TestOptions.getD []).length + 7 ≤ 2 * (json.Marshal o).length + 2 := by
    have := appendSlice_length o.TestOptions
    rw [Marshal_eq]
    simp only [List.length_append, List.length_cons, List.length_nil]
    omega
  obtain ⟨f, hfe⟩ : ∃ g, 2 * (json.Marshal o).length + 2 = g + 1 :=
    ⟨2 * (json.Marshal o).length + 1, by omega⟩
  have hpm := parseMembers_Marshal f o hv (by omega)
  obtain ⟨t, ht⟩ : ∃ t, json.appendString (str "Suite") ++ 58 ::
      (json.appendString o.Suite ++ 44 ::
        (json.appendString (str "ToImage") ++ 58 :: (json.appendString o.ToImage ++ 44 ::
        (json.appendString (str "JUnitDir") ++ 58 :: (json.appendString o.JUnitDir ++ 44 ::
        (json.appendString (str "TestOptions") ++ 58 ::
          (json.appendSlice o.TestOptions ++ 125 :: []))))))) = 34 :: t :=
    ⟨_, appendString_append _ _⟩
  rw [ht] at hpm
  have h1 : ¬ (0 + 1 > json.maxNestingDepth) := by decide
  have h2 : ¬ (34 : Fin 256) = 125 := by decide
  rw [json.parse, hfe, Marshal_eq, ht, json.parseValue]
  simp only [skipSpace_cons _ _ (show json.isSpace 123 = false by rfl),
    skipSpace_cons _ _ (show json.isSpace 34 = false by rfl), if_true, h1, h2, if_false, hpm,
    Option.map_some']
  simp [json.skipSpace]

theorem decodeElems_strings (l mem : List GoString) :
    json.decodeElems (l.map json.JValue.string) mem = (l, false) := by
  induction l generalizing mem with
  | nil => rfl
  | cons s l ih => simp [json.decodeElems, json.decodeString, ih]

/-- Decoding what `Marshal` wrote for a record of well-formed UTF-8 strings
gives the record back. -/
theorem Unmarshal_Marshal (o : UpgradeOptions) (hv : o.Valid) :
    json.Unmarshal (json.Marshal o) UpgradeOptions.zero = .ok o := by
  have hS : json.lookupField (str "Suite") = some .Suite := by rfl
  have hT : json.lookupField (str "ToImage") = some .ToImage := by rfl
  have hJ : json.lookupField (str "JUnitDir") = some .JUnitDir := by rfl
  have hO : json.lookupField (str "TestOptions") = some .TestOptions := by rfl
  rw [json.Unmarshal, parse_Marshal o hv]
  obtain ⟨s, t, j, x⟩ := o
  simp only [json.decodeMembers, hS, hT, hJ, hO, json.decodeField, json.decodeString,
    json.sliceValue]
  cases x with
  | none => rfl
  | some l =>
    cases l with
    | nil => rfl
    | cons e l =>
      simp only [List.map_cons]
      have := decodeElems_strings (e :: l) []
      simp only [List.map_cons] at this
      simp [this, UpgradeOptions.zero]

/-- C4: for every record whose strings are well-formed UTF-8, decoding
`o.ToEnv()` the way `initUpgrade` does (`json.Unmarshal` into a fresh
`UpgradeOptions`) succeeds and yields the record `o` itself: the same `Suite`,
`ToImage`, `JUnitDir` and the same raw `TestOptions` strings in the same order;
`initUpgrade` then goes on with exactly `o`. -/
theorem C4_roundtrip (o : UpgradeOptions) (hv : o.Valid) :
    json.Unmarshal o.ToEnv UpgradeOptions.zero = .ok o ∧
      ∀ (E : Env) (w : World), initUpgrade E o.ToEnv w = initUpgradeLoop E o upgradeSuites w := by
  have h := Unmarshal_Marshal o hv
  exact ⟨h, fun E w => initUpgrade_of_decode E o.ToEnv o w h⟩

/-- C4 at a record with characters that are escaped (`<`, a line feed) and
characters of several bytes. -/
theorem C4_roundtrip_witness :
    json.Unmarshal
      (UpgradeOptions.ToEnv
        { Suite := str "platform", ToImage := str "registry/x:y", JUnitDir := str "é/<junit>\n",
          TestOptions := some [str "abort-at=50", str "disrupt-reboot=a=b"] })
      UpgradeOptions.zero =
    .ok { Suite := str "platform", ToImage := str "registry/x:y", JUnitDir := str "é/<junit>\n",
          TestOptions := some [str "abort-at=50", str "disrupt-reboot=a=b"] } :=
  (C4_roundtrip
    { Suite := str "platform", ToImage := str "registry/x:y", JUnitDir := str "é/<junit>\n",
      TestOptions := some [str "abort-at=50", str "disrupt-reboot=a=b"] }
    ⟨by decide, by decide, by decide, by decide⟩).1

/-- Outside the scope of C4: `json.Marshal` writes U+FFFD for a byte that is
not part of a well-formed UTF-8 sequence, so such a byte does not come back. -/
theorem roundtrip_invalid_utf8 :
    json.Unmarshal (UpgradeOptions.ToEnv { UpgradeOptions.zero with ToImage := [0xFF] })
      UpgradeOptions.zero =
    .ok { UpgradeOptions.zero with ToImage := [0xEF, 0xBF, 0xBD] } := by
  rfl

/-! ## First violation, filtering, partial effects -/

theorem OptionsMapLoop_first_violation (raw : List GoString) :
    ∀ (acc : GoMap) (err : Error), (acc.map Prod.fst).Nodup →
      UpgradeOptions.OptionsMapLoop raw acc = .error err →
      ∃ (pre : List GoString) (e : GoString) (post : List GoString),
        raw = pre ++ e :: post ∧
        (∀ x ∈ pre, ¬ Malformed x) ∧
        (acc.map Prod.fst ++ pre.map entryKey).Nodup ∧
        (Malformed e ∨ entryKey e ∈ acc.map Prod.fst ++ pre.map entryKey) ∧
        (Malformed e → err = malformedOption e) ∧
        (¬ Malformed e → err = duplicateOption (entryKey e)) ∧
        ∀ post2 : List GoString,
          UpgradeOptions.OptionsMapLoop (pre ++ e :: post2) acc = .error err := by
  induction raw with
  | nil =>
    intro acc err _ h
    simp [UpgradeOptions.OptionsMapLoop] at h
  | cons a rest ih =>
    intro acc err hacc h
    rw [OptionsMapLoop_cons] at h
    by_cases ha : Malformed a
    · rw [if_pos ha] at h
      have herr : err = malformedOption a := by
        simp only [Except.error.injEq] at h
        exact h.symm
      refine ⟨[], a, rest, rfl, by simp, by simpa using hacc, Or.inl ha, fun _ => herr,
        fun hn => absurd ha hn, ?_⟩
      intro post2
      rw [List.nil_append, OptionsMapLoop_cons, if_pos ha, herr]
    · rw [if_neg ha] at h
      by_cases hk : (GoMap.get? acc (entryKey a)).isSome = true
      · rw [if_pos hk] at h
        have herr : err = duplicateOption (entryKey a) := by
          simp only [Except.error.injEq] at h
          exact h.symm
        refine ⟨[], a, rest, rfl, by simp, by simpa using hacc,
          Or.inr (by simpa using (get?_isSome_iff _ _).1 hk), fun hm => absurd hm ha,
          fun _ => herr, ?_⟩
        intro post2
        rw [List.nil_append, OptionsMapLoop_cons, if_neg ha, if_pos hk, herr]
      · have hk2 : entryKey a ∉ acc.map Prod.fst := fun h => hk ((get?_isSome_iff _ _).2 h)
        rw [if_neg hk, set_of_not_mem _ _ _ hk2] at h
        have hacc2 : ((acc ++ [(entryKey a, entryValue a)]).map Prod.fst).Nodup := by
          simp only [List.map_append, List.map_cons, List.map_nil]
          exact List.nodup_append.2 ⟨hacc, by simp, by
            intro x hx hb
            simp at hb
            exact hk2 (hb ▸ hx)⟩
        obtain ⟨pre, e, post, h1, h2, h3, h4, h5, h6, h7⟩ := ih _ err hacc2 h
        refine ⟨a :: pre, e, post, by simp [h1], ?_, ?_, ?_, h5, h6, ?_⟩
        · intro x hx
          rcases List.mem_cons.1 hx with rfl | hx
          · exact ha
          · exact h2 x hx
        · simpa [List.append_assoc] using h3
        · rcases h4 with h4 | h4
          · exact Or.inl h4
          · exact Or.inr (by simpa [List.append_assoc] using h4)
        · intro post2
          rw [List.cons_append, OptionsMapLoop_cons, if_neg ha, if_neg hk,
            set_of_not_mem _ _ _ hk2]
          exact h7 post2

/-- C13: when `OptionsMap` fails, the raw list splits at its first offending
entry `e` (the entries before it are well formed and have distinct keys; `e`
is malformed or repeats the key of an earlier entry); the error is the
malformed-option error quoting `e` when `e` is malformed (shape is checked
first) and the duplicate-option error quoting the key of `e` otherwise; and it
stays the same whatever entries follow `e`. -/
theorem C13_first_violation (o : UpgradeOptions) (err : Error)
    (h : o.OptionsMap = .error err) :
    ∃ (pre : List GoString) (e : GoString) (post : List GoString),
      o.TestOptions.getD [] = pre ++ e :: post ∧
      (∀ x ∈ pre, ¬ Malformed x) ∧
      (pre.map entryKey).Nodup ∧
      (Malformed e ∨ entryKey e ∈ pre.map entryKey) ∧
      (Malformed e → err = malformedOption e) ∧
      (¬ Malformed e → err = duplicateOption (entryKey e)) ∧
      ∀ post2 : List GoString,
        UpgradeOptions.OptionsMap { o with TestOptions := some (pre ++ e :: post2) } =
          .error err := by
  obtain ⟨pre, e, post, h1, h2, h3, h4, h5, h6, h7⟩ :=
    OptionsMapLoop_first_violation (o.TestOptions.getD []) [] err (by simp) h
  exact ⟨pre, e, post, h1, h2, by simpa using h3, by simpa using h4, h5, h6,
    fun post2 => by simpa [UpgradeOptions.OptionsMap] using h7 post2⟩

/-- C13 at `a=1`, `b`, `a=2`, `=x`: the first offending entry is `b`, which
comes before the repeated key `a` and the empty key. -/
theorem C13_first_violation_witness :
    ∃ (pre : List GoString) (e : GoString) (post : List GoString),
      [str "a=1", str "b", str "a=2", str "=x"] = pre ++ e :: post ∧
      (∀ x ∈ pre, ¬ Malformed x) ∧
      (pre.map entryKey).Nodup ∧
      (Malformed e ∨ entryKey e ∈ pre.map entryKey) ∧
      (Malformed e → malformedOption (str "b") = malformedOption e) ∧
      (¬ Malformed e → malformedOption (str "b") = duplicateOption (entryKey e)) ∧
      ∀ post2 : List GoString,
        UpgradeOptions.OptionsMap
          { ({ UpgradeOptions.zero with
               TestOptions := some [str "a=1", str "b", str "a=2", str "=x"] } : UpgradeOptions)
            with TestOptions := some (pre ++ e :: post2) } =
          .error (malformedOption (str "b")) :=
  C13_first_violation
    { UpgradeOptions.zero with TestOptions := some [str "a=1", str "b", str "a=2", str "=x"] }
    (malformedOption (str "b")) (by rfl)

/-- C14: for every list of tests, every predicate and every state,
`filterUpgrade` returns no error and makes exactly one call, `SetTests`, with
the tests whose name satisfies the predicate: a sublist of the given list, in
the same order, each test as often as it occurs among the matching ones; the
committed list is empty exactly when no test matches. -/
theorem C14_filterUpgrade (tests : List Test) (match_ : GoString → Bool) (w : World) :
    filterUpgrade tests match_ w =
        (none, w ++ [Call.SetTests (tests.filter (fun t => match_ t.name))]) ∧
      (tests.filter (fun t => match_ t.name)).Sublist tests ∧
      (∀ t : Test, t ∈ tests.filter (fun t => match_ t.name) ↔
        t ∈ tests ∧ match_ t.name = true) ∧
      (∀ t : Test, match_ t.name = true →
        (tests.filter (fun t => match_ t.name)).count t = tests.count t) ∧
      (tests.filter (fun t => match_ t.name) = [] ↔ ∀ t ∈ tests, match_ t.name = false) := by
  refine ⟨filterUpgrade_eq tests match_ w, List.filter_sublist _, ?_, ?_, ?_⟩
  · intro t
    simp [List.mem_filter]
  · intro t ht
    rw [List.count_filter]
    exact ht
  · simp [List.filter_eq_nil_iff]

/-- C15: with the options map `abort-at=50`, `unknown=1` visited in that
order, `upgradeInitArguments` calls the abort-point setter with `50` and then
fails with the unrecognized-option error for `unknown`; the setter call is the
only call made, nothing undoes it, and neither `SetTests` nor `SetToImage` is
called; `initUpgrade` on such a transport string fails the same way. -/
theorem C15_partial_effects :
    UpgradeOptions.OptionsMap
        { UpgradeOptions.zero with TestOptions := some [str "abort-at=50", str "unknown=1"] } =
      .ok [(str "abort-at", str "50"), (str "unknown", str "1")] ∧
    exampleEnv.range [(str "abort-at", str "50"), (str "unknown", str "1")] =
      [(str "abort-at", str "50"), (str "unknown", str "1")] ∧
    (∀ filterFn : GoString → Bool,
      upgradeInitArguments exampleEnv [(str "abort-at", str "50"), (str "unknown", str "1")]
          filterFn [] =
        (some (.errorf "unrecognized upgrade option: %s" [str "unknown"]),
          [Call.SetUpgradeAbortAt (str "50")])) ∧
    initUpgrade exampleEnv
        (str ("\x7b\"Suite\":\"all\",\"ToImage\":\"registry/x:y\"," ++
          "\"TestOptions\":[\"abort-at=50\",\"unknown=1\"]\x7d")) [] =
      (.error (.errorf "unrecognized upgrade option: %s" [str "unknown"]),
        [Call.SetUpgradeAbortAt (str "50")]) := by
  refine ⟨by rfl, rfl, fun _ => by rfl, by rfl⟩

/-! ## Traces of `upgradeInitArguments` and `initUpgrade` -/

theorem upgradeInitArgumentsLoop_trace (E : Env) (ord : List (GoString × GoString)) :
    ∀ w : World, ∃ calls : List Call,
      (upgradeInitArgumentsLoop E ord w).2 = w ++ calls ∧ ∀ c ∈ calls, c.isSetter = true := by
  induction ord with
  | nil => intro w; exact ⟨[], by simp [upgradeInitArgumentsLoop], by simp⟩
  | cons p rest ih =>
    intro w
    obtain ⟨k, v⟩ := p
    rw [upgradeInitArgumentsLoop]
    by_cases hk1 : k = str "abort-at"
    · rw [if_pos hk1]
      cases hs : E.SetUpgradeAbortAt v with
      | some err => exact ⟨[Call.SetUpgradeAbortAt v], rfl, by simp [Call.isSetter]⟩
      | none =>
        obtain ⟨calls, h1, h2⟩ := ih (w ++ [Call.SetUpgradeAbortAt v])
        refine ⟨Call.SetUpgradeAbortAt v :: calls, by simp [h1], ?_⟩
        intro c hc
        rcases List.mem_cons.1 hc with rfl | hc
        · rfl
        · exact h2 c hc
    · rw [if_neg hk1]
      by_cases hk2 : k = str "disrupt-reboot"
      · rw [if_pos hk2]
        cases hs : E.SetUpgradeDisruptReboot v with
        | some err => exact ⟨[Call.SetUpgradeDisruptReboot v], rfl, by simp [Call.isSetter]⟩
        | none =>
          obtain ⟨calls, h1, h2⟩ := ih (w ++ [Call.SetUpgradeDisruptReboot v])
          refine ⟨Call.SetUpgradeDisruptReboot v :: calls, by simp [h1], ?_⟩
          intro c hc
          rcases List.mem_cons.1 hc with rfl | hc
          · rfl
          · exact h2 c hc
      · rw [if_neg hk2]
        exact ⟨[], by simp, by simp⟩

theorem upgradeInitArguments_trace (E : Env) (m : GoMap) (f : GoString → Bool) (w : World) :
    ∃ calls : List Call, (∀ c ∈ calls, c.isSetter = true) ∧
      (upgradeInitArguments E m f w =
          (none, w ++ calls ++ [Call.SetTests (E.AllTests.filter (fun t => f t.name))]) ∨
        ∃ err, upgradeInitArguments E m f w = (some err, w ++ calls)) := by
  obtain ⟨calls, h1, h2⟩ := upgradeInitArgumentsLoop_trace E (E.range m) w
  refine ⟨calls, h2, ?_⟩
  rw [upgradeInitArguments]
  cases hr : upgradeInitArgumentsLoop E (E.range m) w with
  | mk r w1 =>
    rw [hr] at h1
    simp only at h1
    subst h1
    cases r with
    | none => left; simp [filterUpgrade_eq]
    | some err => right; exact ⟨err, rfl⟩

theorem setterCall_isSetter (p : GoString × GoString) : (setterCall p).isSetter = true := by
  unfold setterCall
  split_ifs <;> rfl

theorem upgradeInitArgumentsLoop_none_iff (E : Env) (ord : List (GoString × GoString)) :
    ∀ w : World, (upgradeInitArgumentsLoop E ord w).1 = none ↔
      ∀ p ∈ ord, Recognized p.1 ∧ setterResult E p = none := by
  induction ord with
  | nil => intro w; simp [upgradeInitArgumentsLoop]
  | cons p rest ih =>
    intro w
    obtain ⟨k, v⟩ := p
    rw [upgradeInitArgumentsLoop]
    simp only [List.mem_cons, forall_eq_or_imp]
    by_cases hk1 : k = str "abort-at"
    · rw [if_pos hk1]
      cases hs : E.SetUpgradeAbortAt v with
      | some err => simp [setterResult, hk1, hs]
      | none => simp [setterResult, hk1, hs, Recognized, ih]
    · rw [if_neg hk1]
      by_cases hk2 : k = str "disrupt-reboot"
      · rw [if_pos hk2]
        have hne : ¬ str "disrupt-reboot" = str "abort-at" := by decide
        cases hs : E.SetUpgradeDisruptReboot v with
        | some err => simp [setterResult, hk2, hne, hs]
        | none => simp [setterResult, hk2, hne, hs, Recognized, ih]
      · rw [if_neg hk2]
        simp [Recognized, hk1, hk2]

theorem upgradeInitArgumentsLoop_success (E : Env) (ord : List (GoString × GoString))
    (w : World) (h : ∀ p ∈ ord, Recognized p.1 ∧ setterResult E p = none) :
    upgradeInitArgumentsLoop E ord w = (none, w ++ ord.map setterCall) := by
  apply upgradeInitArgumentsLoop_ok
  intro p hp
  obtain ⟨hr, hs⟩ := h p hp
  rcases hr with hr | hr
  · left; exact ⟨hr, by simpa [setterResult, hr] using hs⟩
  · right
    have hne : ¬ str "disrupt-reboot" = str "abort-at" := by decide
    exact ⟨hr, by simpa [setterResult, hr, hne] using hs⟩

theorem upgradeInitArgumentsLoop_fail (E : Env) (e : Error)
    (ord : List (GoString × GoString)) :
    ∀ w : World, (∀ q ∈ ord, Recognized q.1) →
      (∀ q ∈ ord, setterResult E q = none ∨ setterResult E q = some e) →
      (∃ q ∈ ord, setterResult E q = some e) →
      ∃ calls : List Call, upgradeInitArgumentsLoop E ord w = (some e, w ++ calls) ∧
        ∀ c ∈ calls, c.isSetter = true := by
  induction ord with
  | nil => intro w _ _ h; simp at h
  | cons p rest ih =>
    intro w hrec hres hex
    obtain ⟨k, v⟩ := p
    have hne : ¬ str "disrupt-reboot" = str "abort-at" := by decide
    have hrest : setterResult E (k, v) = none → ∃ q ∈ rest, setterResult E q = some e := by
      intro hn
      obtain ⟨q, hq, hqe⟩ := hex
      rcases List.mem_cons.1 hq with rfl | hq
      · rw [hn] at hqe; cases hqe
      · exact ⟨q, hq, hqe⟩
    rw [upgradeInitArgumentsLoop]
    rcases hrec (k, v) (List.mem_cons_self _ _) with hk | hk
    · simp only at hk
      subst hk
      rw [if_pos rfl]
      rcases hres _ (List.mem_cons_self _ _) with hs | hs
      · have hs2 : E.SetUpgradeAbortAt v = none := by simpa [setterResult] using hs
        rw [hs2]
        obtain ⟨calls, h1, h2⟩ := ih (w ++ [Call.SetUpgradeAbortAt v])
          (fun q hq => hrec q (List.mem_cons_of_mem _ hq))
          (fun q hq => hres q (List.mem_cons_of_mem _ hq)) (hrest hs)
        refine ⟨Call.SetUpgradeAbortAt v :: calls, by simp [h1], ?_⟩
        intro c hc
        rcases List.mem_cons.1 hc with rfl | hc
        · rfl
        · exact h2 c hc
      · have hs2 : E.SetUpgradeAbortAt v = some e := by simpa [setterResult] using hs
        rw [hs2]
        exact ⟨[Call.SetUpgradeAbortAt v], rfl, by simp [Call.isSetter]⟩
    · simp only at hk
      subst hk
      rw [if_neg hne, if_pos rfl]
      rcases hres _ (List.mem_cons_self _ _) with hs | hs
      · have hs2 : E.SetUpgradeDisruptReboot v = none := by
          simpa [setterResult, hne] using hs
        rw [hs2]
        obtain ⟨calls, h1, h2⟩ := ih (w ++ [Call.SetUpgradeDisruptReboot v])
          (fun q hq => hrec q (List.mem_cons_of_mem _ hq))
          (fun q hq => hres q (List.mem_cons_of_mem _ hq)) (hrest hs)
        refine ⟨Call.SetUpgradeDisruptReboot v :: calls, by simp [h1], ?_⟩
        intro c hc
        rcases List.mem_cons.1 hc with rfl | hc
        · rfl
        · exact h2 c hc
      · have hs2 : E.SetUpgradeDisruptReboot v = some e := by
          simpa [setterResult, hne] using hs
        rw [hs2]
        exact ⟨[Call.SetUpgradeDisruptReboot v], rfl, by simp [Call.isSetter]⟩

theorem initUpgradeLoop_known (E : Env) (opt : UpgradeOptions) (m : GoMap) (w : World)
    (hs : opt.Suite ∈ upgradeSuites.map (fun suite => suite.Name))
    (hmap : opt.OptionsMap = .ok m) :
    initUpgradeLoop E opt upgradeSuites w =
      ((match (upgradeInitArguments E m (initFilter opt.Suite) w).1 with
        | some err => Except.error err
        | none => Except.ok opt),
       (match (upgradeInitArguments E m (initFilter opt.Suite) w).1 with
        | some _ => (upgradeInitArguments E m (initFilter opt.Suite) w).2
        | none => (upgradeInitArguments E m (initFilter opt.Suite) w).2 ++
            [Call.SetToImage opt.ToImage])) := by
  have hs2 : opt.Suite = str "all" ∨ opt.Suite = str "platform" := by
    simpa [upgradeSuites] using hs
  rcases hs2 with h | h
  · simp only [upgradeSuites, initUpgradeLoop, h, if_true, hmap, initFilter]
    cases hr : upgradeInitArguments E m (fun _ => true) w with
    | mk r w1 => cases r <;> rfl
  · have hne : ¬ str "all" = opt.Suite := by rw [h]; decide
    have hne2 : ¬ str "platform" = str "all" := by decide
    simp only [upgradeSuites, initUpgradeLoop, hne, if_false]
    simp only [h, if_true, hmap, initFilter, hne2, if_false]
    cases hr : upgradeInitArguments E m
        (fun name => decide (name = str "control-plane-available")) w with
    | mk r w1 => cases r <;> rfl

/-- C16: when every key of the options map is `abort-at` or
`disrupt-reboot`, the setter of one entry returns the error `e` on its value
and the setters of all other entries succeed, then for every filter and every
order of `range`, `upgradeInitArguments` returns exactly `e`, having made
setter calls only (no `SetTests`); and `initUpgrade`, on a transport string
that decodes to a known suite with these options, returns that same `e` with
the same calls (no `SetToImage`). -/
theorem C16_setter_error (E : Env) (m : GoMap) (p : GoString × GoString) (e : Error)
    (w : World)
    (hkeys : ∀ q ∈ m, Recognized q.1)
    (hp : p ∈ m) (hfail : setterResult E p = some e)
    (hothers : ∀ q ∈ m, q ≠ p → setterResult E q = none) :
    ∃ calls : List Call, (∀ c ∈ calls, c.isSetter = true) ∧
      (∀ filterFn : GoString → Bool,
        upgradeInitArguments E m filterFn w = (some e, w ++ calls)) ∧
      (∀ (value : GoString) (opt : UpgradeOptions),
        json.Unmarshal value UpgradeOptions.zero = .ok opt →
        opt.Suite ∈ upgradeSuites.map (fun suite => suite.Name) →
        opt.OptionsMap = .ok m →
        initUpgrade E value w = (.error e, w ++ calls)) := by
  have hperm := E.range_perm m
  obtain ⟨calls, h1, h2⟩ := upgradeInitArgumentsLoop_fail E e (E.range m) w
    (fun q hq => hkeys q (hperm.mem_iff.1 hq))
    (fun q hq => by
      by_cases hqp : q = p
      · right; rw [hqp]; exact hfail
      · left; exact hothers q (hperm.mem_iff.1 hq) hqp)
    ⟨p, hperm.mem_iff.2 hp, hfail⟩
  have hall : ∀ filterFn : GoString → Bool,
      upgradeInitArguments E m filterFn w = (some e, w ++ calls) := by
    intro filterFn
    simp only [upgradeInitArguments, h1]
  refine ⟨calls, h2, hall, ?_⟩
  intro value opt hdec hs hmap
  rw [initUpgrade_of_decode E value opt w hdec, initUpgradeLoop_known E opt m w hs hmap,
    hall]

/-- C16 at the options `abort-at=60`, `disrupt-reboot=x` with an abort-point
setter that rejects `60`. -/
theorem C16_setter_error_witness :
    ∃ calls : List Call, (∀ c ∈ calls, c.isSetter = true) ∧
      (∀ filterFn : GoString → Bool,
        upgradeInitArguments strictEnv
            [(str "abort-at", str "60"), (str "disrupt-reboot", str "x")] filterFn [] =
          (some (.external (str "abort-at must be 50")), [] ++ calls)) ∧
      initUpgrade strictEnv
          (str ("\x7b\"Suite\":\"platform\"," ++
            "\"TestOptions\":[\"abort-at=60\",\"disrupt-reboot=x\"]\x7d")) [] =
        (.error (.external (str "abort-at must be 50")), [] ++ calls) := by
  obtain ⟨calls, h1, h2, h3⟩ := C16_setter_error strictEnv
    [(str "abort-at", str "60"), (str "disrupt-reboot", str "x")]
    (str "abort-at", str "60") (.external (str "abort-at must be 50")) []
    (by decide) (by decide) (by rfl) (by decide)
  exact ⟨calls, h1, h2, h3 _
    { UpgradeOptions.zero with
      Suite := str "platform",
      TestOptions := some [str "abort-at=60", str "disrupt-reboot=x"] }
    (by rfl) (by decide) (by rfl)⟩

/-- C17: when the transport string decodes to a record of suite `all` whose
raw options validate to a map in which every key is a recognized option whose
setter succeeds on its value, `initUpgrade` succeeds with the decoded record;
after one setter call per option it calls `SetTests` with the whole registry,
unchanged and in order, and then `SetToImage` with the decoded `ToImage`. -/
theorem C17_all_suite (E : Env) (value : GoString) (opt : UpgradeOptions) (m : GoMap)
    (w : World)
    (hdec : json.Unmarshal value UpgradeOptions.zero = .ok opt)
    (hsuite : opt.Suite = str "all")
    (hmap : opt.OptionsMap = .ok m)
    (hset : ∀ p ∈ m, (p.1 = str "abort-at" ∧ E.SetUpgradeAbortAt p.2 = none) ∨
      (p.1 = str "disrupt-reboot" ∧ E.SetUpgradeDisruptReboot p.2 = none)) :
    initUpgrade E value w =
      (.ok opt,
        w ++ (E.range m).map setterCall ++
          [Call.SetTests E.AllTests, Call.SetToImage opt.ToImage]) := by
  have hperm := E.range_perm m
  have hloop := upgradeInitArgumentsLoop_ok E (E.range m) w
    (fun p hp => hset p (hperm.mem_iff.1 hp))
  rw [initUpgrade_of_decode E value opt w hdec]
  simp only [upgradeSuites, initUpgradeLoop, hsuite, if_true, hmap, upgradeInitArguments,
    hloop, filterUpgrade_eq]
  simp

/-- C17 at the transport string
`{"Suite":"all","ToImage":"registry/x:y","TestOptions":["disrupt-reboot=1"]}`:
the three registered tests are all committed. -/
theorem C17_all_suite_witness :
    initUpgrade exampleEnv
      (str ("\x7b\"Suite\":\"all\",\"ToImage\":\"registry/x:y\"," ++
        "\"TestOptions\":[\"disrupt-reboot=1\"]\x7d")) [] =
      (.ok { Suite := str "all", ToImage := str "registry/x:y", JUnitDir := str "",
             TestOptions := some [str "disrupt-reboot=1"] },
        [Call.SetUpgradeDisruptReboot (str "1"),
         Call.SetTests [{ name := str "control-plane-available", id := 0 },
                        { name := str "k8s-service-upgrade", id := 1 },
                        { name := str "control-plane-available", id := 2 }],
         Call.SetToImage (str "registry/x:y")]) := by
  rw [C17_all_suite exampleEnv _
    { Suite := str "all", ToImage := str "registry/x:y", JUnitDir := str "",
      TestOptions := some [str "disrupt-reboot=1"] }
    [(str "disrupt-reboot", str "1")] [] (by rfl) (by rfl) (by rfl)
    (by
      intro p hp
      simp only [List.mem_singleton] at hp
      subst hp
      exact Or.inr ⟨rfl, rfl⟩)]
  rfl

/-- C18: for every transport string, the calls `initUpgrade` makes are
appended to the state; when it returns an error none of them is `SetToImage`;
when it returns a record for a non-empty string, that record is the decoded
one and the calls are setter calls followed by exactly one `SetTests` and then
exactly one `SetToImage`, with the decoded `ToImage`. -/
theorem C18_commit_on_success (E : Env) (value : GoString) (w : World) :
    ∃ calls : List Call, (initUpgrade E value w).2 = w ++ calls ∧
      ((∃ err, (initUpgrade E value w).1 = .error err) →
        ∀ img : GoString, Call.SetToImage img ∉ calls) ∧
      (∀ opt : UpgradeOptions, (initUpgrade E value w).1 = .ok opt → value.length ≠ 0 →
        json.Unmarshal value UpgradeOptions.zero = .ok opt ∧
        ∃ (setters : List Call) (ts : List Test), (∀ c ∈ setters, c.isSetter = true) ∧
          calls = setters ++ [Call.SetTests ts, Call.SetToImage opt.ToImage]) := by
  by_cases hv : value.length = 0
  · refine ⟨[], by simp [initUpgrade, hv], by simp, ?_⟩
    intro opt _ hne
    exact absurd hv hne
  · cases hdec : json.Unmarshal value UpgradeOptions.zero with
    | error err =>
      refine ⟨[], by simp [initUpgrade, hv, hdec], by simp, ?_⟩
      intro opt hok _
      simp [initUpgrade, hv, hdec] at hok
    | ok dec =>
      have hinit : initUpgrade E value w = initUpgradeLoop E dec upgradeSuites w :=
        initUpgrade_of_decode E value dec w hdec
      rw [hinit]
      by_cases hs : dec.Suite ∈ upgradeSuites.map (fun suite => suite.Name)
      · cases hmap : dec.OptionsMap with
        | error err =>
          have hs2 : dec.Suite = str "all" ∨ dec.Suite = str "platform" := by
            simpa [upgradeSuites] using hs
          have hres : initUpgradeLoop E dec upgradeSuites w = (.error err, w) := by
            rcases hs2 with h | h
            · simp only [upgradeSuites, initUpgradeLoop, h, if_true, hmap]
            · have hne : ¬ str "all" = dec.Suite := by rw [h]; decide
              simp only [upgradeSuites, initUpgradeLoop, hne, if_false]
              simp only [h, if_true, hmap]
          rw [hres]
          refine ⟨[], by simp, by simp, ?_⟩
          intro opt hok _
          simp at hok
        | ok m =>
          rw [initUpgradeLoop_known E dec m w hs hmap]
          obtain ⟨setters, h1, h2 | ⟨err, h2⟩⟩ :=
            upgradeInitArguments_trace E m (initFilter dec.Suite) w
          · rw [h2]
            refine ⟨setters ++ [Call.SetTests
              (E.AllTests.filter (fun t => initFilter dec.Suite t.name)),
              Call.SetToImage dec.ToImage], by simp, ?_, ?_⟩
            · rintro ⟨err, herr⟩
              simp at herr
            · intro opt hok _
              simp only [Except.ok.injEq] at hok
              subst hok
              exact ⟨rfl, setters, _, h1, rfl⟩
          · rw [h2]
            refine ⟨setters, by simp, ?_, ?_⟩
            · intro _ img himg
              have := h1 _ himg
              simp [Call.isSetter] at this
            · intro opt hok _
              simp at hok
      · have h1 : ¬ str "all" = dec.Suite := fun h => hs (by rw [← h]; decide)
        have h2 : ¬ str "platform" = dec.Suite := fun h => hs (by rw [← h]; decide)
        have hres : initUpgradeLoop E dec upgradeSuites w =
            (.error (.errorf "unrecognized upgrade info" []), w) := by
          simp only [upgradeSuites, initUpgradeLoop, h1, h2, if_false]
        rw [hres]
        refine ⟨[], by simp, by simp, ?_⟩
        intro opt hok _
        simp at hok

/-- C19: for two environments that differ only in the order in which
`range` visits a map, `upgradeInitArguments` succeeds under one exactly when
it succeeds under the other, namely exactly when every key of the map is
`abort-at` or `disrupt-reboot` and the setter of every entry succeeds on its
value; on success both make the same setter calls up to order and commit the
same test subset. -/
theorem C19_order_independent (E1 E2 : Env) (m : GoMap) (filterFn : GoString → Bool)
    (w : World)
    (hT : E1.AllTests = E2.AllTests)
    (hA : E1.SetUpgradeAbortAt = E2.SetUpgradeAbortAt)
    (hD : E1.SetUpgradeDisruptReboot = E2.SetUpgradeDisruptReboot) :
    ((upgradeInitArguments E1 m filterFn w).1 = none ↔
        (upgradeInitArguments E2 m filterFn w).1 = none) ∧
      ((upgradeInitArguments E1 m filterFn w).1 = none ↔
        ∀ p ∈ m, Recognized p.1 ∧ setterResult E1 p = none) ∧
      ((upgradeInitArguments E1 m filterFn w).1 = none →
        upgradeInitArguments E1 m filterFn w =
            (none, w ++ (E1.range m).map setterCall ++
              [Call.SetTests (E1.AllTests.filter (fun t => filterFn t.name))]) ∧
          upgradeInitArguments E2 m filterFn w =
            (none, w ++ (E2.range m).map setterCall ++
              [Call.SetTests (E1.AllTests.filter (fun t => filterFn t.name))]) ∧
          ((E1.range m).map setterCall).Perm ((E2.range m).map setterCall)) := by
  have hres : ∀ p, setterResult E2 p = setterResult E1 p := by
    intro p
    simp [setterResult, hA, hD]
  have key : ∀ E : Env, (upgradeInitArguments E m filterFn w).1 = none ↔
      ∀ p ∈ m, Recognized p.1 ∧ setterResult E p = none := by
    intro E
    have hperm := E.range_perm m
    have hiff := upgradeInitArgumentsLoop_none_iff E (E.range m) w
    have hmem : (∀ p ∈ E.range m, Recognized p.1 ∧ setterResult E p = none) ↔
        ∀ p ∈ m, Recognized p.1 ∧ setterResult E p = none :=
      ⟨fun h p hp => h p (hperm.mem_iff.2 hp), fun h p hp => h p (hperm.mem_iff.1 hp)⟩
    rw [← hmem, ← hiff, upgradeInitArguments]
    cases hr : upgradeInitArgumentsLoop E (E.range m) w with
    | mk r w1 => cases r <;> simp [filterUpgrade_eq]
  have succ : ∀ E : Env, (∀ p ∈ m, Recognized p.1 ∧ setterResult E p = none) →
      upgradeInitArguments E m filterFn w =
        (none, w ++ (E.range m).map setterCall ++
          [Call.SetTests (E.AllTests.filter (fun t => filterFn t.name))]) := by
    intro E h
    have hperm := E.range_perm m
    rw [upgradeInitArguments, upgradeInitArgumentsLoop_success E (E.range m) w
      (fun p hp => h p (hperm.mem_iff.1 hp))]
    simp [filterUpgrade_eq]
  have h12 : (∀ p ∈ m, Recognized p.1 ∧ setterResult E2 p = none) ↔
      ∀ p ∈ m, Recognized p.1 ∧ setterResult E1 p = none := by
    simp only [hres]
  refine ⟨by rw [key E1, key E2, h12], key E1, ?_⟩
  intro h
  have h1 := (key E1).1 h
  refine ⟨succ E1 h1, ?_, ?_⟩
  · rw [hT]
    exact succ E2 (h12.2 h1)
  · exact ((E1.range_perm m).trans (E2.range_perm m).symm).map _

/-- C19 at the options `abort-at=50`, `disrupt-reboot=1`, visited in
insertion order and in the reverse order. -/
theorem C19_order_independent_witness :
    upgradeInitArguments exampleEnv
        [(str "abort-at", str "50"), (str "disrupt-reboot", str "1")] (fun _ => true) [] =
      (none, [Call.SetUpgradeAbortAt (str "50"), Call.SetUpgradeDisruptReboot (str "1"),
              Call.SetTests exampleEnv.AllTests]) ∧
    upgradeInitArguments exampleEnvRev
        [(str "abort-at", str "50"), (str "disrupt-reboot", str "1")] (fun _ => true) [] =
      (none, [Call.SetUpgradeDisruptReboot (str "1"), Call.SetUpgradeAbortAt (str "50"),
              Call.SetTests exampleEnv.AllTests]) := by
  have h := (C19_order_independent exampleEnv exampleEnvRev
    [(str "abort-at", str "50"), (str "disrupt-reboot", str "1")] (fun _ => true) []
    rfl rfl rfl).2.2 (by rfl)
  refine ⟨?_, ?_⟩
  · rw [h.1]; rfl
  · rw [h.2.1]; rfl

/-! ## Error messages -/

theorem appendEscapedRune_plain (table : Nat → Bool) (b : Fin 256)
    (h : 0x20 ≤ b.val ∧ b.val ≤ 0x7E ∧ b.val ≠ 34 ∧ b.val ≠ 92) :
    strconv.appendEscapedRune table b.val = [b] := by
  have h1 : ¬ (b.val = 34 ∨ b.val = 92) := by omega
  have h2 : strconv.IsPrint table b.val = true := by
    have h3 : b.val ≤ 0xFF := by omega
    have h4 : 0x20 ≤ b.val ∧ b.val ≤ 0x7E := ⟨h.1, h.2.1⟩
    simp only [strconv.IsPrint, h3, h4, and_self, if_true]
  simp only [strconv.appendEscapedRune, h1, h2, if_true, if_false]
  exact EncodeRune_ascii b (by omega)

theorem quoteLoop_plain (table : Nat → Bool) :
    ∀ (n : Nat) (s : GoString), s.length ≤ n → PlainASCII s →
      strconv.quoteLoop table n s = s := by
  intro n
  induction n with
  | zero =>
    intro s hs _
    have : s = [] := List.length_eq_zero.1 (by omega)
    subst this
    rfl
  | succ n ih =>
    intro s hs hp
    cases s with
    | nil => rfl
    | cons b t =>
      have hb := hp b (List.mem_cons_self _ _)
      have h1 : ¬ b.val ≥ 0x80 := by omega
      have h2 : ¬ b.val = utf8.RuneError := by
        simp only [utf8.RuneError]; omega
      simp only [strconv.quoteLoop, h1, if_false, h2, true_and,
        appendEscapedRune_plain table b hb, List.drop_succ_cons, List.drop_zero,
        List.singleton_append, List.cons.injEq]
      exact ih t (by simpa using hs) (fun x hx => hp x (List.mem_cons_of_mem _ hx))

theorem Quote_plain (table : Nat → Bool) (s : GoString) (hp : PlainASCII s) :
    strconv.Quote table s = 34 :: s ++ [34] := by
  simp [strconv.Quote, quoteLoop_plain table s.length s (le_refl _) hp]

theorem not_Occurs_of_Contains (s sub : GoString) (h : strings.Contains s sub = false) :
    ¬ Occurs sub s := by
  intro ho
  rw [← Contains_iff, h] at ho
  exact Bool.false_ne_true ho

/-- C11 (as stated) fails: the message for an unknown suite is the fixed
text `unrecognized upgrade info`, which does not name the suite `nope`; and
the message for the malformed entry `a"b` holds it in quoted form, `"a\"b"`,
in which the raw entry does not occur. -/
theorem C11_counterexample :
    initUpgrade exampleEnv (str "\x7b\"Suite\":\"nope\"\x7d") [] =
      (.error (.errorf "unrecognized upgrade info" []), []) ∧
    Error.message (fun _ => true) (.errorf "unrecognized upgrade info" []) =
      some (str "unrecognized upgrade info") ∧
    ¬ Occurs (str "nope") (str "unrecognized upgrade info") ∧
    UpgradeOptions.OptionsMap { UpgradeOptions.zero with TestOptions := some [str "a\"b"] } =
      .error (malformedOption (str "a\"b")) ∧
    Error.message (fun _ => true) (malformedOption (str "a\"b")) =
      some (str "test option \"a\\\"b\" is not valid, must be KEY=VALUE") ∧
    ¬ Occurs (str "a\"b") (str "test option \"a\\\"b\" is not valid, must be KEY=VALUE") := by
  refine ⟨by rfl, by rfl, ?_, by rfl, by rfl, ?_⟩
  · exact not_Occurs_of_Contains _ _ (by rfl)
  · exact not_Occurs_of_Contains _ _ (by rfl)

/-- C11 (amended): the malformed-option message holds the raw entry in the
quoted form of `%q` (`strconv.Quote`), the duplicate-option message holds the
key in that quoted form, and the unrecognized-option message holds the key as
it is; the quoted form of a string of printable ASCII characters other than
the double quote and the backslash is the string itself between two double
quotes, so such an entry or key occurs in its message as it is. -/
theorem C11_messages (table : Nat → Bool) (e k : GoString) :
    (Error.message table (malformedOption e) =
        some (str "test option " ++ strconv.Quote table e ++
          str " is not valid, must be KEY=VALUE") ∧
      Occurs (strconv.Quote table e)
        (str "test option " ++ strconv.Quote table e ++
          str " is not valid, must be KEY=VALUE")) ∧
    (Error.message table (duplicateOption k) =
        some (str "option " ++ strconv.Quote table k ++ str " declared twice") ∧
      Occurs (strconv.Quote table k)
        (str "option " ++ strconv.Quote table k ++ str " declared twice")) ∧
    (Error.message table (.errorf "unrecognized upgrade option: %s" [k]) =
        some (str "unrecognized upgrade option: " ++ k) ∧
      Occurs k (str "unrecognized upgrade option: " ++ k)) ∧
    (PlainASCII e →
      strconv.Quote table e = 34 :: e ++ [34] ∧
      Occurs e (str "test option " ++ strconv.Quote table e ++
        str " is not valid, must be KEY=VALUE")) ∧
    (PlainASCII k →
      strconv.Quote table k = 34 :: k ++ [34] ∧
      Occurs k (str "option " ++ strconv.Quote table k ++ str " declared twice")) := by
  have hs : Error.message table (.errorf "unrecognized upgrade option: %s" [k]) =
      some (str "unrecognized upgrade option: " ++ (k ++ [])) := by rfl
  rw [List.append_nil] at hs
  refine ⟨⟨by rfl, ⟨_, _, rfl⟩⟩, ⟨by rfl, ⟨_, _, rfl⟩⟩,
    ⟨hs, ⟨str "unrecognized upgrade option: ", [], by simp⟩⟩, ?_, ?_⟩
  · intro hp
    have hq := Quote_plain table e hp
    refine ⟨hq, str "test option " ++ [34], [34] ++ str " is not valid, must be KEY=VALUE", ?_⟩
    rw [hq]
    simp
  · intro hp
    have hq := Quote_plain table k hp
    refine ⟨hq, str "option " ++ [34], [34] ++ str " declared twice", ?_⟩
    rw [hq]
    simp

/-! ## The text of `ToEnv` for every record -/

theorem coerceLoop_valid :
    ∀ (n : Nat) (s : GoString), s.length ≤ n → utf8.validLoop n s = true →
      json.coerceLoop n s = s := by
  intro n
  induction n with
  | zero =>
    intro s hs _
    have : s = [] := List.length_eq_zero.1 (by omega)
    subst this
    rfl
  | succ n ih =>
    intro s hs hv
    cases s with
    | nil => rfl
    | cons b t =>
      have hlen : t.length ≤ n := by simpa using hs
      by_cases hb : b.val < 0x80
      · have hvt : utf8.validLoop n t = true := by
          have hne : ¬ (b.val = utf8.RuneError ∧ True) := by
            simp only [utf8.RuneError]; omega
          simpa [utf8.validLoop, DecodeRune_ascii b t hb, hne] using hv
        simp only [json.coerceLoop, hb, if_true, ih t hlen hvt]
      · rcases DecodeRune_multibyte b t (by omega) with hd | ⟨k, hk2, hkl, hd2, _, _⟩
        · simp [utf8.validLoop, hd] at hv
        · have hnot : ¬ ((utf8.DecodeRune (b :: t)).1 = utf8.RuneError ∧
              (utf8.DecodeRune (b :: t)).2 = 1) := by
            rw [hd2]; omega
          have hnot2 : ¬ ((utf8.DecodeRune (b :: t)).1 = utf8.RuneError ∧ k = 1) := by omega
          have hvt : utf8.validLoop n ((b :: t).drop k) = true := by
            have := hv
            simp only [utf8.validLoop, List.isEmpty_cons, Bool.false_eq_true, if_false, hnot]
              at this
            rwa [hd2] at this
          have hlen2 : ((b :: t).drop k).length ≤ n := by
            simp only [List.length_drop, List.length_cons] at hkl ⊢
            omega
          simp only [json.coerceLoop, hb, if_false, hd2, hnot2, ih _ hlen2 hvt,
            List.take_append_drop]

theorem coerce_valid (s : GoString) (hv : utf8.ValidString s = true) : json.coerce s = s :=
  coerceLoop_valid s.length s (le_refl _) hv

theorem unquoteLoop_ufffd (f : Nat) (t : GoString) :
    json.unquoteLoop (f + 1) (92 :: 117 :: 102 :: 102 :: 102 :: 100 :: t) =
      json.withPrefix [0xEF, 0xBF, 0xBD] (json.unquoteLoop f t) := by
  rw [unquoteLoop_u f _ _ _ _ t 0xFFFD (by rfl) (by omega)]
  rfl

/-- The string reader, run on what the loop of `appendString` wrote for any
string and a closing quote, returns the string coerced to well-formed
UTF-8. -/
theorem unquoteLoop_appendStringLoop_coerce :
    ∀ (n : Nat) (s : GoString), s.length ≤ n →
      ∀ (f : Nat) (rest : GoString), (json.appendStringLoop n s).length < f →
        json.unquoteLoop f (json.appendStringLoop n s ++ 34 :: rest) =
          some (json.coerceLoop n s, rest) := by
  intro n
  induction n with
  | zero =>
    intro s hs f rest hf
    have : s = [] := List.length_eq_zero.1 (by omega)
    subst this
    obtain ⟨f, rfl⟩ : ∃ g, f = g + 1 := ⟨f - 1, by omega⟩
    simp [json.appendStringLoop, json.coerceLoop, unquoteLoop_quote]
  | succ n ih =>
    intro s hs f rest hf
    cases s with
    | nil =>
      obtain ⟨f, rfl⟩ : ∃ g, f = g + 1 := ⟨f - 1, by omega⟩
      simp [json.appendStringLoop, json.coerceLoop, unquoteLoop_quote]
    | cons b t =>
      obtain ⟨f, rfl⟩ : ∃ g, f = g + 1 := ⟨f - 1, by omega⟩
      have hlen : t.length ≤ n := by simpa using hs
      by_cases hb : b.val < 0x80
      · have hco : json.coerceLoop (n + 1) (b :: t) = b :: json.coerceLoop n t := by
          simp [json.coerceLoop, hb]
        rw [hco]
        by_cases hsafe : json.htmlSafeSet b.val = true
        · have hout : json.appendStringLoop (n + 1) (b :: t) = b :: json.appendStringLoop n t := by
            simp [json.appendStringLoop, hb, hsafe]
          rw [hout] at hf ⊢
          rw [List.cons_append, unquoteLoop_safe f b _ hb hsafe,
            ih t hlen f rest (by simpa using hf), withPrefix_some]
          rfl
        · have hout : json.appendStringLoop (n + 1) (b :: t) =
              json.escapeByte b ++ json.appendStringLoop n t := by
            simp [json.appendStringLoop, hb, hsafe]
          rw [hout] at hf ⊢
          have hl := escapeByte_length b
          rw [List.append_assoc, unquoteLoop_escapeByte f b _ hb,
            ih t hlen f rest (by simp at hf; omega), withPrefix_some]
          rfl
      · rcases DecodeRune_multibyte b t (by omega) with hd | ⟨k, hk2, hkl, hd2, henc, hX⟩
        · have hout : json.appendStringLoop (n + 1) (b :: t) =
              [92, 117, 102, 102, 102, 100] ++ json.appendStringLoop n t := by
            simp [json.appendStringLoop, hb, hd]
          have hco : json.coerceLoop (n + 1) (b :: t) =
              [0xEF, 0xBF, 0xBD] ++ json.coerceLoop n t := by
            simp [json.coerceLoop, hb, hd]
          rw [hout] at hf ⊢
          rw [hco]
          simp only [List.cons_append, List.nil_append]
          rw [unquoteLoop_ufffd, ih t hlen f rest (by simp at hf; omega), withPrefix_some]
          rfl
        · have hnot2 : ¬ ((utf8.DecodeRune (b :: t)).1 = utf8.RuneError ∧ k = 1) := by omega
          have hlen2 : ((b :: t).drop k).length ≤ n := by
            simp only [List.length_drop, List.length_cons] at hkl ⊢
            omega
          have htake : (b :: t).take k = b :: t.take (k - 1) := by
            obtain ⟨j, rfl⟩ : ∃ j, k = j + 1 := ⟨k - 1, by omega⟩
            simp
          have hco : json.coerceLoop (n + 1) (b :: t) =
              (b :: t).take k ++ json.coerceLoop n ((b :: t).drop k) := by
            simp only [json.coerceLoop, hb, if_false, hd2, hnot2]
          rw [hco]
          by_cases hsep : (utf8.DecodeRune (b :: t)).1 = 0x2028 ∨
              (utf8.DecodeRune (b :: t)).1 = 0x2029
          · have hout : json.appendStringLoop (n + 1) (b :: t) =
                [92, 117, 50, 48, 50, json.hex ((utf8.DecodeRune (b :: t)).1 % 16)] ++
                  json.appendStringLoop n ((b :: t).drop k) := by
              simp only [json.appendStringLoop, hb, if_false, hd2, hnot2, hsep, if_true]
            rw [hout] at hf ⊢
            simp only [List.cons_append, List.nil_append]
            rw [unquoteLoop_u202 f _ _ hsep,
              ih _ hlen2 f rest (by simp at hf; omega), withPrefix_some, henc]
          · have hout : json.appendStringLoop (n + 1) (b :: t) =
                (b :: t).take k ++ json.appendStringLoop n ((b :: t).drop k) := by
              simp only [json.appendStringLoop, hb, if_false, hd2, hnot2, hsep]
            rw [hout] at hf ⊢
            have hf2 : (json.appendStringLoop n ((b :: t).drop k)).length < f := by
              rw [htake] at hf
              simp at hf
              omega
            have hdec := hX (json.appendStringLoop n ((b :: t).drop k) ++ 34 :: rest)
            rw [List.append_assoc]
            rw [htake] at hdec
            rw [htake, List.cons_append, unquoteLoop_multibyte f b _ (by omega)]
            rw [List.cons_append] at hdec
            rw [hdec, hd2, henc]
            have hdrop : List.drop k (b :: (List.take (k - 1) t ++
                (json.appendStringLoop n ((b :: t).drop k) ++ 34 :: rest))) =
                json.appendStringLoop n ((b :: t).drop k) ++ 34 :: rest := by
              rw [← List.cons_append, ← htake]
              apply List.drop_left'
              simp only [List.length_take, List.length_cons] at hkl ⊢
              omega
            rw [hdrop, ih _ hlen2 f rest hf2, withPrefix_some, htake]

theorem parseString_appendString_coerce (s rest : GoString) :
    json.parseString (json.appendStringLoop s.length s ++ 34 :: rest) =
      some (json.coerce s, rest) := by
  unfold json.parseString json.coerce
  apply unquoteLoop_appendStringLoop_coerce s.length s (le_refl _)
  simp only [List.length_append, List.length_cons]
  omega

theorem parseValue_appendString_coerce (f d : Nat) (s rest : GoString) (hf : 1 ≤ f) :
    json.parseValue f d (json.appendString s ++ rest) =
      some (.string (json.coerce s), rest) := by
  obtain ⟨f, rfl⟩ : ∃ g, f = g + 1 := ⟨f - 1, by omega⟩
  rw [appendString_append, json.parseValue, skipSpace_cons _ _ (by rfl)]
  have h1 : ¬ (34 : Fin 256) = 123 := by decide
  have h2 : ¬ (34 : Fin 256) = 91 := by decide
  simp only [h1, h2, if_false, if_true, parseString_appendString_coerce s rest,
    Option.map_some']

theorem parseElems_appendElems_coerce (d : Nat) (l : List GoString) :
    ∀ (s : GoString) (f : Nat) (rest : GoString), (s :: l).length + 1 ≤ f →
      json.parseElems f d (json.appendElems (s :: l) ++ 93 :: rest) =
        some ((s :: l).map (fun x => json.JValue.string (json.coerce x)), rest) := by
  induction l with
  | nil =>
    intro s f rest hf
    obtain ⟨f, rfl⟩ : ∃ g, f = g + 1 := ⟨f - 1, by omega⟩
    have hf2 : 1 ≤ f := by simp at hf; omega
    have h1 : ¬ (93 : Fin 256) = 44 := by decide
    simp only [json.appendElems, json.parseElems,
      parseValue_appendString_coerce f d s _ hf2,
      skipSpace_cons _ _ (show json.isSpace 93 = false by rfl), h1, if_false, if_true,
      List.map_cons, List.map_nil]
  | cons s2 l ih =>
    intro s f rest hf
    obtain ⟨f, rfl⟩ : ∃ g, f = g + 1 := ⟨f - 1, by omega⟩
    have hf2 : 1 ≤ f := by simp at hf; omega
    have hf3 : (s2 :: l).length + 1 ≤ f := by simp at hf ⊢; omega
    rw [appendElems_cons_cons, List.append_assoc, json.parseElems,
      parseValue_appendString_coerce f d s _ hf2]
    simp only [List.cons_append, skipSpace_cons _ _ (show json.isSpace 44 = false by rfl),
      if_true]
    rw [ih s2 f rest hf3]
    simp

theorem parseValue_appendSlice_coerce (f d : Nat) (x : Option (List GoString))
    (rest : GoString) (hf : (x.getD []).length + 2 ≤ f) (hd : d + 1 ≤ json.maxNestingDepth) :
    json.parseValue f d (json.appendSlice x ++ rest) =
      some (json.sliceValue (x.map (List.map json.coerce)), rest) := by
  obtain ⟨f, rfl⟩ : ∃ g, f = g + 1 := ⟨f - 1, by omega⟩
  have hdepth : ¬ (d + 1 > json.maxNestingDepth) := by omega
  cases x with
  | none =>
    have h := parseValue_appendSlice (f + 1) d none rest (by simpa using hf) hd (by simp)
    simpa using h
  | some l =>
    have h1 : ¬ (91 : Fin 256) = 123 := by decide
    cases l with
    | nil =>
      have h := parseValue_appendSlice (f + 1) d (some []) rest (by simpa using hf) hd (by simp)
      simpa using h
    | cons s l =>
      obtain ⟨tl, htl⟩ := appendElems_head s l
      have hf2 : (s :: l).length + 1 ≤ f := by simp at hf ⊢; omega
      have hp := parseElems_appendElems_coerce (d + 1) l s f rest hf2
      rw [htl, List.cons_append] at hp
      have h2 : ¬ (34 : Fin 256) = 93 := by decide
      simp only [json.appendSlice, htl, List.cons_append, List.nil_append, List.append_assoc,
        json.parseValue, skipSpace_cons _ _ (show json.isSpace 91 = false by rfl),
        skipSpace_cons _ _ (show json.isSpace 34 = false by rfl), h1, h2, hdepth,
        if_false, if_true, hp, Option.map_some', json.sliceValue, Option.map_some',
        List.map_map]
      rfl

theorem parseMembers_Marshal_coerce (f : Nat) (o : UpgradeOptions)
    (hf : (o.TestOptions.getD []).length + 6 ≤ f) :
    json.parseMembers f 1
      (json.appendString (str "Suite") ++ 58 :: (json.appendString o.Suite ++ 44 ::
        (json.appendString (str "ToImage") ++ 58 :: (json.appendString o.ToImage ++ 44 ::
        (json.appendString (str "JUnitDir") ++ 58 :: (json.appendString o.JUnitDir ++ 44 ::
        (json.appendString (str "TestOptions") ++ 58 ::
          (json.appendSlice o.TestOptions ++ 125 :: [])))))))) =
      some ([(str "Suite", json.JValue.string (json.coerce o.Suite)),
             (str "ToImage", json.JValue.string (json.coerce o.ToImage)),
             (str "JUnitDir", json.JValue.string (json.coerce o.JUnitDir)),
             (str "TestOptions",
               json.sliceValue (o.TestOptions.map (List.map json.coerce)))], []) := by
  obtain ⟨f, rfl⟩ : ∃ g, f = g + 4 := ⟨f - 4, by omega⟩
  generalize hM4 : json.appendString (str "TestOptions") ++ 58 ::
    (json.appendSlice o.TestOptions ++ 125 :: []) = M4
  have hp4 : json.parseMembers (f + 1) 1 M4 = some ([(str "TestOptions",
      json.sliceValue (o.TestOptions.map (List.map json.coerce)))], []) := by
    rw [← hM4]
    exact parseMembers_last f 1 _ _ [] _ (by decide)
      (parseValue_appendSlice_coerce f 1 o.TestOptions _ (by omega) (by decide))
  obtain ⟨t4, ht4⟩ : ∃ t, M4 = 34 :: t := ⟨_, hM4 ▸ appendString_append _ _⟩
  generalize hM3 : json.appendString (str "JUnitDir") ++ 58 ::
    (json.appendString o.JUnitDir ++ 44 :: M4) = M3
  have hp3 : json.parseMembers (f + 2) 1 M3 =
      (json.parseMembers (f + 1) 1 M4).map
        (fun r => ((str "JUnitDir", json.JValue.string (json.coerce o.JUnitDir)) :: r.1,
          r.2)) := by
    rw [← hM3, ht4]
    exact parseMembers_more (f + 1) 1 _ _ t4 _ (by decide)
      (parseValue_appendString_coerce (f + 1) 1 o.JUnitDir _ (by omega))
  obtain ⟨t3, ht3⟩ : ∃ t, M3 = 34 :: t := ⟨_, hM3 ▸ appendString_append _ _⟩
  generalize hM2 : json.appendString (str "ToImage") ++ 58 ::
    (json.appendString o.ToImage ++ 44 :: M3) = M2
  have hp2 : json.parseMembers (f + 3) 1 M2 =
      (json.parseMembers (f + 2) 1 M3).map
        (fun r => ((str "ToImage", json.JValue.string (json.coerce o.ToImage)) :: r.1,
          r.2)) := by
    rw [← hM2, ht3]
    exact parseMembers_more (f + 2) 1 _ _ t3 _ (by decide)
      (parseValue_appendString_coerce (f + 2) 1 o.ToImage _ (by omega))
  obtain ⟨t2, ht2⟩ : ∃ t, M2 = 34 :: t := ⟨_, hM2 ▸ appendString_append _ _⟩
  have hp1 : json.parseMembers (f + 4) 1
      (json.appendString (str "Suite") ++ 58 :: (json.appendString o.Suite ++ 44 :: M2)) =
      (json.parseMembers (f + 3) 1 M2).map
        (fun r => ((str "Suite", json.JValue.string (json.coerce o.Suite)) :: r.1, r.2)) := by
    rw [ht2]
    exact parseMembers_more (f + 3) 1 _ _ t2 _ (by decide)
      (parseValue_appendString_coerce (f + 3) 1 o.Suite _ (by omega))
  rw [hp1, hp2, hp3, hp4]
  rfl

theorem parse_Marshal_coerce (o : UpgradeOptions) :
    json.parse (json.Marshal o) =
      some (json.JValue.object
        [(str "Suite", json.JValue.string (json.coerce o.Suite)),
         (str "ToImage", json.JValue.string (json.coerce o.ToImage)),
         (str "JUnitDir", json.JValue.string (json.coerce o.JUnitDir)),
         (str "TestOptions", json.sliceValue (o.TestOptions.map (List.map json.coerce)))]) := by
  have hlen : (o.TestOptions.getD []).length + 7 ≤ 2 * (json.Marshal o).length + 2 := by
    have := appendSlice_length o.TestOptions
    rw [Marshal_eq]
    simp only [List.length_append, List.length_cons, List.length_nil]
    omega
  obtain ⟨f, hfe⟩ : ∃ g, 2 * (json.Marshal o).length + 2 = g + 1 :=
    ⟨2 * (json.Marshal o).length + 1, by omega⟩
  have hpm := parseMembers_Marshal_coerce f o (by omega)
  obtain ⟨t, ht⟩ : ∃ t, json.appendString (str "Suite") ++ 58 ::
      (json.appendString o.Suite ++ 44 ::
        (json.appendString (str "ToImage") ++ 58 :: (json.appendString o.ToImage ++ 44 ::
        (json.appendString (str "JUnitDir") ++ 58 :: (json.appendString o.JUnitDir ++ 44 ::
        (json.appendString (str "TestOptions") ++ 58 ::
          (json.appendSlice o.TestOptions ++ 125 :: []))))))) = 34 :: t :=
    ⟨_, appendString_append _ _⟩
  rw [ht] at hpm
  have h1 : ¬ (0 + 1 > json.maxNestingDepth) := by decide
  have h2 : ¬ (34 : Fin 256) = 125 := by decide
  rw [json.parse, hfe, Marshal_eq, ht, json.parseValue]
  simp only [skipSpace_cons _ _ (show json.isSpace 123 = false by rfl),
    skipSpace_cons _ _ (show json.isSpace 34 = false by rfl), if_true, h1, h2, if_false, hpm,
    Option.map_some']
  simp [json.skipSpace]

/-- C12 (as stated) fails: for the single raw option `a=` followed by the
byte `0xFF`, the `TestOptions` array of the JSON text holds `a=` followed by
U+FFFD (bytes `EF BF BD`), not the raw string. -/
theorem C12_counterexample :
    json.parse (UpgradeOptions.ToEnv
        { UpgradeOptions.zero with TestOptions := some [[97, 61, 0xFF]] }) =
      some (json.JValue.object
        [(str "Suite", json.JValue.string []),
         (str "ToImage", json.JValue.string []),
         (str "JUnitDir", json.JValue.string []),
         (str "TestOptions", json.JValue.array [json.JValue.string [97, 61, 0xEF, 0xBF, 0xBD]])]) ∧
    ¬ json.parse (UpgradeOptions.ToEnv
        { UpgradeOptions.zero with TestOptions := some [[97, 61, 0xFF]] }) =
      some (json.JValue.object
        [(str "Suite", json.JValue.string []),
         (str "ToImage", json.JValue.string []),
         (str "JUnitDir", json.JValue.string []),
         (str "TestOptions", json.sliceValue (some [[97, 61, 0xFF]]))]) := by
  have h : json.parse (UpgradeOptions.ToEnv
        { UpgradeOptions.zero with TestOptions := some [[97, 61, 0xFF]] }) =
      some (json.JValue.object
        [(str "Suite", json.JValue.string []),
         (str "ToImage", json.JValue.string []),
         (str "JUnitDir", json.JValue.string []),
         (str "TestOptions",
           json.JValue.array [json.JValue.string [97, 61, 0xEF, 0xBF, 0xBD]])]) := by rfl
  refine ⟨h, ?_⟩
  rw [h]
  intro hc
  simp only [json.sliceValue, List.map_cons, List.map_nil, Option.some.injEq,
    json.JValue.object.injEq, List.cons.injEq, Prod.mk.injEq, json.JValue.array.injEq,
    json.JValue.string.injEq, and_true, true_and] at hc
  exact absurd hc (by decide)

/-- C12 (amended): for every record the text of `ToEnv`, which depends on the
record alone, is one JSON object with exactly the four members `Suite`,
`ToImage`, `JUnitDir` and `TestOptions`, in this order; the first three are
the strings of the record and `TestOptions` is `null` for the nil slice and
otherwise the array of the raw option strings, in their order, each string
with its bytes that are not well-formed UTF-8 replaced by U+FFFD; a string that
is well-formed UTF-8 is not changed, so a record of such strings is written
with its raw strings. -/
theorem C12_ToEnv_structure (o : UpgradeOptions) :
    o.ToEnv = json.Marshal o ∧
    json.parse o.ToEnv =
      some (json.JValue.object
        [(str "Suite", json.JValue.string (json.coerce o.Suite)),
         (str "ToImage", json.JValue.string (json.coerce o.ToImage)),
         (str "JUnitDir", json.JValue.string (json.coerce o.JUnitDir)),
         (str "TestOptions", json.sliceValue (o.TestOptions.map (List.map json.coerce)))]) ∧
    (∀ s : GoString, utf8.ValidString s = true → json.coerce s = s) ∧
    (o.Valid →
      json.parse o.ToEnv =
        some (json.JValue.object
          [(str "Suite", json.JValue.string o.Suite),
           (str "ToImage", json.JValue.string o.ToImage),
           (str "JUnitDir", json.JValue.string o.JUnitDir),
           (str "TestOptions", json.sliceValue o.TestOptions)])) :=
  ⟨rfl, parse_Marshal_coerce o, coerce_valid, fun hv => parse_Marshal o hv⟩

end OpenshiftTests
